import Mathlib

/-! kustomize-upsert: array upsert over YAML document trees

A shallow embedding of the two programs of the repository

* `src/main.go` (exact-match selector, one `LookupCreate` per path component), namespace `Main`;
* `src/cmd/kustomize-upsert/main.go` (regex selector, `parseJSONPath`), namespace `Cmd`;

together with the part of the `kyaml` and kustomize libraries they call (`LookupCreate`,
`Append`, `Elements`, the accessors `GetApiVersion`, `GetKind`, `GetName`, `GetNamespace`,
`resid.FromRNode`, `types.SelectorRegex`) and a fragment of Go's `regexp`.

Go strings are lists of characters: the programs only compare strings, split them at the ASCII
bytes `.`, `[`, `]` and slice them at positions found by `strings.Index`, so byte offsets and
character offsets cut a valid UTF-8 string at the same places.

A Go pointer into the document (`*yaml.RNode`) is modelled by a focus: the code that runs on
the pointer is a function `PtrFn` from the node pointed to (or the nil pointer) to that node as
mutated and the way the code ended, and the enclosing tree is rebuilt around the mutated node.
A mutation made before a failure therefore stays in the document that is returned next to the
failure.

A call ends with a result, with a Go `error` or with a run-time panic (`Outcome`). The places
that panic are the slice expression of `parseJSONPath`, the element index `-1` on a sequence
without elements, and the accessors of the identity, which read the `Content` of a node two
elements at a time and index past the end of a `Content` of odd length.
-/

namespace KustomizeUpsert

/-- Go `string`. -/
abbrev Str := List Char

/-- Document tree (`yaml.Node` restricted to its scalar, sequence and mapping kinds; a mapping
holds its entries in document order, keys being scalars). Of the tags only `!!null` is kept,
the one kyaml looks at: `scalar` is a scalar with any other tag, `null` a scalar tagged
`!!null` (written `null`, `~` or nothing, which is its `Value`). A null node carries a
`Content`, empty when parsed, because `Append` accepts a null node and adds to it. -/
inductive Node where
  | scalar (value : Str)
  | null (value : Str) (content : List Node)
  | seq (content : List Node)
  | map (fields : List (Str × Node))
  deriving Repr, Inhabited

/-- The `yaml.Kind` values used by the programs. -/
inductive Kind where
  | ScalarNode
  | SequenceNode
  | MappingNode
  deriving DecidableEq, Repr

/-- Failures reported as a Go `error` (messages are not modelled, the cause is). -/
inductive Err where
  /-- `ErrorIfInvalid`: "wrong Node Kind". -/
  | wrongNodeKind
  /-- `getFilter`: "array index cannot be negative". -/
  | negativeIndex
  /-- `getFilter`: "wildcard is not supported in PathGetter". -/
  | wildcard
  /-- `SplitIndexNameValue`: "list path element must contain fieldName=fieldValue". -/
  | listIndexSyntax
  /-- `regexp.Compile` rejected a selector field. -/
  | badRegex
  /-- `goyaml.Unmarshal` rejected the configuration string of the environment. -/
  | badConfig
  deriving DecidableEq, Repr

/-- How a call ends: normally with a result, with a Go `error`, with a run-time panic, or in
library code that is outside this model (a `[name=value]` path part, a regular expression
outside the modelled syntax). -/
inductive Outcome (α : Type) where
  | ok (a : α)
  | error (e : Err)
  | panic
  | unmodelled
  deriving DecidableEq, Repr

/-- How a call that returns only a Go `error` ends; `Outcome.ok ()` is the nil error. -/
abbrev Res := Outcome Unit

/-- Sequencing of calls: what follows runs on the result of a call that returned, and a call
that did not return ends the whole. -/
def Outcome.bind {α β : Type} (x : Outcome α) (f : α → Outcome β) : Outcome β :=
  match x with
  | Outcome.ok a => f a
  | Outcome.error e => Outcome.error e
  | Outcome.panic => Outcome.panic
  | Outcome.unmodelled => Outcome.unmodelled

namespace Node

mutual
/-- Decision procedure for equality of trees. -/
def decEq : (a b : Node) → Decidable (a = b)
  | scalar a, scalar b =>
    if h : a = b then isTrue (by rw [h]) else isFalse (fun e => h (by injection e))
  | seq a, seq b =>
    match decEqList a b with
    | isTrue h => isTrue (by rw [h])
    | isFalse h => isFalse (fun e => h (by injection e))
  | map a, map b =>
    match decEqFields a b with
    | isTrue h => isTrue (by rw [h])
    | isFalse h => isFalse (fun e => h (by injection e))
  | null v a, null w b =>
    if hv : v = w then
      match decEqList a b with
      | isTrue h => isTrue (by rw [hv, h])
      | isFalse h => isFalse (fun e => h (by injection e))
    else isFalse (fun e => hv (by injection e))
  | scalar _, null _ _ => isFalse (fun e => by injection e)
  | scalar _, seq _ => isFalse (fun e => by injection e)
  | scalar _, map _ => isFalse (fun e => by injection e)
  | null _ _, scalar _ => isFalse (fun e => by injection e)
  | null _ _, seq _ => isFalse (fun e => by injection e)
  | null _ _, map _ => isFalse (fun e => by injection e)
  | seq _, scalar _ => isFalse (fun e => by injection e)
  | seq _, null _ _ => isFalse (fun e => by injection e)
  | seq _, map _ => isFalse (fun e => by injection e)
  | map _, scalar _ => isFalse (fun e => by injection e)
  | map _, null _ _ => isFalse (fun e => by injection e)
  | map _, seq _ => isFalse (fun e => by injection e)
/-- Decision procedure for equality of element lists. -/
def decEqList : (a b : List Node) → Decidable (a = b)
  | [], [] => isTrue rfl
  | [], _ :: _ => isFalse (fun e => by injection e)
  | _ :: _, [] => isFalse (fun e => by injection e)
  | a :: as, b :: bs =>
    match decEq a b, decEqList as bs with
    | isTrue h1, isTrue h2 => isTrue (by rw [h1, h2])
    | isFalse h1, _ => isFalse (fun e => h1 (by injection e))
    | _, isFalse h2 => isFalse (fun e => h2 (by injection e))
/-- Decision procedure for equality of entry lists. -/
def decEqFields : (a b : List (Str × Node)) → Decidable (a = b)
  | [], [] => isTrue rfl
  | [], _ :: _ => isFalse (fun e => by injection e)
  | _ :: _, [] => isFalse (fun e => by injection e)
  | (k, a) :: as, (l, b) :: bs =>
    if hk : k = l then
      match decEq a b, decEqFields as bs with
      | isTrue h1, isTrue h2 => isTrue (by rw [hk, h1, h2])
      | isFalse h1, _ => isFalse (fun e => h1 (by injection e with e1 e2; injection e1))
      | _, isFalse h2 => isFalse (fun e => h2 (by injection e))
    else isFalse (fun e => hk (by injection e with e1 e2; injection e1))
end
instance : DecidableEq Node := decEq

/-- Field `Kind` of a `yaml.Node`. -/
def kind : Node → Kind
  | scalar _ => Kind.ScalarNode
  | null _ _ => Kind.ScalarNode
  | seq _ => Kind.SequenceNode
  | map _ => Kind.MappingNode

/-- Field `Value` of a `yaml.Node`: the text of a scalar, empty for a sequence or mapping. -/
def value : Node → Str
  | scalar v => v
  | null v _ => v
  | seq _ => []
  | map _ => []

/-- An empty node of the given kind: `&yaml.Node{Kind: kind}`. -/
def ofKind : Kind → Node
  | Kind.ScalarNode => scalar []
  | Kind.SequenceNode => seq []
  | Kind.MappingNode => map []

/-- Model of kyaml `IsMissingOrNull` on a node that exists: the node is tagged `!!null`. -/
def isNull : Node → Bool
  | null _ _ => true
  | _ => false

end Node

/-- Source `contains`: linear search of a string slice. -/
def contains : List Str → Str → Bool
  | [], _ => false
  | s :: rest, item => if s = item then true else contains rest item

/-! ## Go string primitives -/

/-- Model of `strings.Split(s, sep)` for a one-byte separator: the pieces between the
occurrences of `sep`, `n + 1` pieces for `n` occurrences. -/
def stringsSplit (sep : Char) : Str → List Str
  | [] => [[]]
  | c :: cs =>
    if c = sep then [] :: stringsSplit sep cs
    else
      match stringsSplit sep cs with
      | [] => [[c]]
      | p :: ps => (c :: p) :: ps

/-- Model of `strings.Contains(s, c)` for a one-byte substring. -/
def stringsContains (s : Str) (c : Char) : Bool :=
  s.any (fun d => d == c)

/-- Model of `strings.Index(s, c)` for a one-byte substring: the position of the first
occurrence, `-1` when there is none. -/
def stringsIndex : Str → Char → Int
  | [], _ => -1
  | d :: ds, c =>
    if d = c then 0
    else
      let i := stringsIndex ds c
      if i < 0 then -1 else i + 1

/-- Go slice expression `s[lo:hi]`; `none` is the run-time panic "slice bounds out of range",
raised unless `0 ≤ lo ≤ hi ≤ len(s)`. -/
def goSlice (s : Str) (lo hi : Int) : Option Str :=
  if 0 ≤ lo ∧ lo ≤ hi ∧ hi ≤ (s.length : Int) then
    some ((s.take hi.toNat).drop lo.toNat)
  else none

/-- Model of `unicode.IsSpace`. -/
def isSpace (c : Char) : Bool :=
  let n := c.toNat
  (0x09 ≤ n && n ≤ 0x0D) || n == 0x20 || n == 0x85 || n == 0xA0 || n == 0x1680 ||
    (0x2000 ≤ n && n ≤ 0x200A) || n == 0x2028 || n == 0x2029 || n == 0x202F ||
    n == 0x205F || n == 0x3000

/-- Model of `strings.TrimSpace`. -/
def trimSpace (s : Str) : Str :=
  (s.dropWhile isSpace).rdropWhile isSpace

/-- Value of a string of decimal digits, `none` when a character is not in `0`..`9`. -/
def digitsValue : Str → Nat → Option Nat
  | [], acc => some acc
  | c :: cs, acc =>
    if '0' ≤ c ∧ c ≤ '9' then digitsValue cs (acc * 10 + (c.toNat - '0'.toNat)) else none

/-- Model of `strconv.Atoi` on a 64-bit platform: an optional sign, at least one decimal
digit, and a value that fits `int`; `none` is a non-nil error. -/
def atoi (s : Str) : Option Int :=
  match s with
  | [] => none
  | '-' :: ds =>
    if ds = [] then none
    else (digitsValue ds 0).bind (fun n => if n ≤ 2 ^ 63 then some (-(n : Int)) else none)
  | '+' :: ds =>
    if ds = [] then none
    else (digitsValue ds 0).bind (fun n => if n < 2 ^ 63 then some (n : Int) else none)
  | ds => (digitsValue ds 0).bind (fun n => if n < 2 ^ 63 then some (n : Int) else none)

/-! ## The kyaml library: path lookup with creation

`yaml.LookupCreate(kind, path...)` is `PathGetter{Path: path, Create: kind}`; its `Filter`
walks the cleaned path from the node it is applied to. -/

/-- What runs on the `*yaml.RNode` a lookup returns; `none` is the nil pointer. It returns the
node as mutated (or the nil pointer again) and how the code ended. -/
abbrev PtrFn := Option Node → Option Node × Res

/-- Run pointer code on a node that exists. -/
def PtrFn.onNode (k : PtrFn) (n : Node) : Node × Res :=
  ((k (some n)).1.getD n, (k (some n)).2)

/-- Run pointer code on the nil pointer: nothing is mutated. -/
def PtrFn.onNil (k : PtrFn) : Res :=
  (k none).2

/-- Model of kyaml `cleanPath`: every part is trimmed, and parts that are then empty are
dropped. -/
def cleanPath : List Str → List Str
  | [] => []
  | elem :: rest =>
    if trimSpace elem = [] then cleanPath rest else trimSpace elem :: cleanPath rest

/-- Model of kyaml `IsListIndex`: the part starts with `[` and ends with `]`. -/
def isListIndex (p : Str) : Bool :=
  p.head? == some '[' && p.getLast? == some ']'

/-- Model of kyaml `IsIdxNumber`: the part is a non-negative integer. -/
def isIdxNumber (p : Str) : Bool :=
  match atoi p with
  | some idx => decide (0 ≤ idx)
  | none => false

/-- Model of kyaml `getPathPartKind`: the kind of node to create for a field, chosen from the
part that follows it. -/
def getPathPartKind (nextPart : Str) (defaultKind : Kind) : Kind :=
  if isListIndex nextPart then Kind.SequenceNode
  else if isIdxNumber nextPart then Kind.SequenceNode
  else if nextPart = [] then defaultKind
  else Kind.MappingNode

/-- The filter `PathGetter.getFilter` builds for one path part. -/
inductive PathFilter where
  /-- `GetElementByIndex(index)`. -/
  | elementIndexer (index : Int)
  /-- The `ElementMatcher` of a `[name=value]` part; its search of a sequence is not
  modelled. -/
  | elementMatcher
  /-- `FieldMatcher{Name: name, Create: node of the kind}`. -/
  | fieldMatcher (name : Str) (create : Kind)
  deriving DecidableEq, Repr

/-- Model of kyaml `PathGetter.getFilter`; a part in brackets goes to `elemFilter`, where
`SplitIndexNameValue` rejects a part without `=`. -/
def getFilter (create : Kind) (part nextPart : Str) : Except Err PathFilter :=
  match atoi part with
  | some idx =>
    if idx < 0 then Except.error Err.negativeIndex
    else Except.ok (PathFilter.elementIndexer idx)
  | none =>
    if part = ['-'] then Except.ok (PathFilter.elementIndexer (-1))
    else if part = ['*'] then Except.error Err.wildcard
    else if isListIndex part then
      if stringsContains part '=' then Except.ok PathFilter.elementMatcher
      else Except.error Err.listIndexSyntax
    else Except.ok (PathFilter.fieldMatcher part (getPathPartKind nextPart create))

/-- Run `f` on the element at position `i` of a sequence and put the mutated element back;
`none` when the sequence has no such position. -/
def focusNth (f : Node → Node × Res) : Nat → List Node → Option (List Node × Res)
  | _, [] => none
  | 0, e :: es => some ((f e).1 :: es, (f e).2)
  | i + 1, e :: es => (focusNth f i es).map (fun r => (e :: r.1, r.2))

/-- Run `f` on the value of the first entry whose key is `name` and put the mutated value
back; `none` when no key is `name`. -/
def focusField (f : Node → Node × Res) (name : Str) :
    List (Str × Node) → Option (List (Str × Node) × Res)
  | [] => none
  | (key, v) :: fs =>
    if key = name then some ((key, (f v).1) :: fs, (f v).2)
    else (focusField f name fs).map (fun r => ((key, v) :: r.1, r.2))

/-- Model of `PathGetter.Filter` once a filter has returned the node `m`: a null node ends
the walk as the nil pointer does (`IsMissingOrNull(match)`), on any other node the walk goes
on with `f`. -/
def found (f : Node → Node × Res) (onNil : Res) (m : Node) : Node × Res :=
  if m.isNull then (m, onNil) else f m

/-- Model of `match.Pipe(fltr)` for the filter `getFilter` returned, with `Create` set; `f` is
what happens at the node the filter returns (the rest of the walk), `onNil` what happens when
it returns the nil pointer or a null node.

* `ElementIndexer`: the node must be a sequence or null (`Elements` fails on any other
  kind); index `-1` is `elems[len(elems)-1]`, which panics when there is no element; a
  position past the end returns the nil pointer without error;
* `FieldMatcher`: on a null node it returns the nil pointer; otherwise the node must be a
  mapping; the first entry with that key is returned whatever its kind, and when there is
  none `SetField` appends an entry holding a new empty node of the kind to create;
* `ElementMatcher`: the node must be a sequence or null (`ErrorIfInvalid`); what it does
  there is not modelled. -/
def pathStep (f : Node → Node × Res) (onNil : Res) :
    Except Err PathFilter → Node → Node × Res
  | Except.error e, n => (n, Outcome.error e)
  | Except.ok PathFilter.elementMatcher, Node.scalar v =>
    (Node.scalar v, Outcome.error Err.wrongNodeKind)
  | Except.ok PathFilter.elementMatcher, Node.map fields =>
    (Node.map fields, Outcome.error Err.wrongNodeKind)
  | Except.ok PathFilter.elementMatcher, n => (n, Outcome.unmodelled)
  | Except.ok (PathFilter.elementIndexer index), Node.seq elems =>
    if index = -1 then
      match focusNth (found f onNil) (elems.length - 1) elems with
      | none => (Node.seq elems, Outcome.panic)
      | some r => (Node.seq r.1, r.2)
    else
      match focusNth (found f onNil) index.toNat elems with
      | none => (Node.seq elems, onNil)
      | some r => (Node.seq r.1, r.2)
  | Except.ok (PathFilter.elementIndexer index), Node.null v elems =>
    if index = -1 then
      match focusNth (found f onNil) (elems.length - 1) elems with
      | none => (Node.null v elems, Outcome.panic)
      | some r => (Node.null v r.1, r.2)
    else
      match focusNth (found f onNil) index.toNat elems with
      | none => (Node.null v elems, onNil)
      | some r => (Node.null v r.1, r.2)
  | Except.ok (PathFilter.elementIndexer _), n => (n, Outcome.error Err.wrongNodeKind)
  | Except.ok (PathFilter.fieldMatcher name kind), Node.map fields =>
    match focusField (found f onNil) name fields with
    | some r => (Node.map r.1, r.2)
    | none => (Node.map (fields ++ [(name, (f (Node.ofKind kind)).1)]), (f (Node.ofKind kind)).2)
  | Except.ok (PathFilter.fieldMatcher _ _), Node.null v elems => (Node.null v elems, onNil)
  | Except.ok (PathFilter.fieldMatcher _ _), n => (n, Outcome.error Err.wrongNodeKind)

/-- Model of kyaml `PathGetter.Filter` with `Create` set, applied to node `n` with the
already cleaned path: for each part the filter of `getFilter` is applied to the node the
previous part returned, and the walk stops at the first error or nil pointer; `k` is the code
that runs on the node the lookup returns. -/
def pathGetter (create : Kind) : List Str → PtrFn → Node → Node × Res
  | [], k, n => k.onNode n
  | part :: rest, k, n =>
    pathStep (pathGetter create rest k) k.onNil (getFilter create part (rest.headD [])) n

/-- Model of `rn.Pipe(yaml.LookupCreate(create, path...))` followed by the code `k` on the
returned pointer. `Pipe` on a nil `rn` returns nil without error. -/
def pipeLookupCreate (create : Kind) (path : List Str) (k : PtrFn) : PtrFn
  | none => (none, k.onNil)
  | some n => (some (pathGetter create (cleanPath path) k n).1,
      (pathGetter create (cleanPath path) k n).2)

/-! ## The kyaml library: reading and appending elements -/

/-- Model of `rn.Elements()`: the content of a sequence or of a null node (`ErrorIfInvalid`
lets a null node pass), an error for another kind. -/
def elements : Node → Except Err (List Node)
  | Node.seq content => Except.ok content
  | Node.null _ content => Except.ok content
  | _ => Except.error Err.wrongNodeKind

/-- Model of `yaml.NewScalarRNode(value)` and `yaml.NewStringRNode(value)`. -/
def newScalarRNode (value : Str) : Node :=
  Node.scalar value

/-- Model of `arrayNode.PipeE(yaml.Append(elem))`: `ElementAppender` adds the element at the
end of the `Content` of a sequence or of a null node (`ErrorIfInvalid` lets a null node
pass) and fails on another kind; on a nil pointer `Pipe` does nothing. -/
def pipeAppend (elem : Node) : PtrFn
  | none => (none, Outcome.ok ())
  | some (Node.seq content) => (some (Node.seq (content ++ [elem])), Outcome.ok ())
  | some (Node.null v content) => (some (Node.null v (content ++ [elem])), Outcome.ok ())
  | some n => (some n, Outcome.error Err.wrongNodeKind)

/-! ## Source: both programs -/

/-- Source `UpsertOperation`; the selector type `Sel` is the `ResourceSelector` of the
program. -/
structure UpsertOperation (Sel : Type) where
  Target : Sel
  Path : Str
  Values : List Str
  AllowDuplicates : Bool

/-- Source `getArrayValues`: the `Value` of every element; empty for the nil pointer. -/
def getArrayValues : Option Node → Except Err (List Str)
  | none => Except.ok []
  | some arrayNode =>
    match elements arrayNode with
    | Except.error e => Except.error e
    | Except.ok elems => Except.ok (elems.map Node.value)

/-- Source `applyUpsert`, the loop over `op.Values`: a value is appended when duplicates are
allowed or it is not among `existingValues`; the first failing append ends the loop. -/
def appendValues (allowDuplicates : Bool) (existingValues : List Str) :
    List Str → PtrFn
  | [], arrayNode => (arrayNode, Outcome.ok ())
  | value :: rest, arrayNode =>
    if allowDuplicates || !contains existingValues value then
      match pipeAppend (newScalarRNode value) arrayNode with
      | (arrayNode1, Outcome.ok ()) => appendValues allowDuplicates existingValues rest arrayNode1
      | (arrayNode1, r) => (arrayNode1, r)
    else appendValues allowDuplicates existingValues rest arrayNode

/-- Source `applyUpsert` from "Get existing values to check for duplicates" to the end: what
the function does with `arrayNode` once the lookup has returned it. -/
def upsertArray (values : List Str) (allowDuplicates : Bool) : PtrFn :=
  fun arrayNode =>
    if !allowDuplicates then
      match getArrayValues arrayNode with
      | Except.error e => (arrayNode, Outcome.error e)
      | Except.ok existingValues => appendValues allowDuplicates existingValues values arrayNode
    else appendValues allowDuplicates [] values arrayNode

/-- Source `Filter`, the body of the inner loop for one operation: the operation is applied
when the document matches its target; a failure of the match is returned with the document
untouched. `matchFn` and `applyFn` are the `matchesTarget` and `applyUpsert` of the program. -/
def applyOperation {Sel : Type} (matchFn : Node → Sel → Outcome Bool)
    (applyFn : Node → UpsertOperation Sel → Node × Res)
    (item : Node) (op : UpsertOperation Sel) : Node × Res :=
  match matchFn item op.Target with
  | Outcome.ok true => applyFn item op
  | Outcome.ok false => (item, Outcome.ok ())
  | Outcome.error e => (item, Outcome.error e)
  | Outcome.panic => (item, Outcome.panic)
  | Outcome.unmodelled => (item, Outcome.unmodelled)

/-- Source `Filter`, the inner loop `for _, op := range operations` on one document: the
operations run in order on the document as the earlier ones left it, and the first failure
ends the loop. -/
def applyOperations {Sel : Type} (matchFn : Node → Sel → Outcome Bool)
    (applyFn : Node → UpsertOperation Sel → Node × Res) :
    List (UpsertOperation Sel) → Node → Node × Res
  | [], item => (item, Outcome.ok ())
  | op :: ops, item =>
    match applyOperation matchFn applyFn item op with
    | (item1, Outcome.ok ()) => applyOperations matchFn applyFn ops item1
    | (item1, r) => (item1, r)

/-- Source `Filter`, the outer loop `for _, item := range items`: the documents as they are
in memory after the pass, and how the pass ended; the first failure ends the pass. -/
def filterItems {Sel : Type} (matchFn : Node → Sel → Outcome Bool)
    (applyFn : Node → UpsertOperation Sel → Node × Res)
    (operations : List (UpsertOperation Sel)) : List Node → List Node × Res
  | [] => ([], Outcome.ok ())
  | item :: items =>
    match applyOperations matchFn applyFn operations item with
    | (item1, Outcome.ok ()) =>
      (item1 :: (filterItems matchFn applyFn operations items).1,
        (filterItems matchFn applyFn operations items).2)
    | (item1, r) => (item1 :: items, r)

/-- Source `Filter`, the value returned: `items, nil` after a pass without failure, and no
document list next to the failure otherwise. -/
def filterReturn (r : List Node × Res) : Outcome (List Node) :=
  match r.2 with
  | Outcome.ok () => Outcome.ok r.1
  | Outcome.error e => Outcome.error e
  | Outcome.panic => Outcome.panic
  | Outcome.unmodelled => Outcome.unmodelled

/-- The first step of a pass that does not succeed ends as `r`: there are a document and an
operation such that the operations of every document before it succeeded, the operations
before this one succeeded on the document, and this one, on the document as they left it,
ends as `r`, which is not success. -/
def FirstFailure {Sel : Type} (matchFn : Node → Sel → Outcome Bool)
    (applyFn : Node → UpsertOperation Sel → Node × Res)
    (operations : List (UpsertOperation Sel)) (items : List Node) (r : Res) : Prop :=
  r ≠ Outcome.ok () ∧
    ∃ dpre item dpost pre op post,
      items = dpre ++ item :: dpost ∧ operations = pre ++ op :: post ∧
      (∀ d ∈ dpre, (applyOperations matchFn applyFn operations d).2 = Outcome.ok ()) ∧
      (applyOperations matchFn applyFn pre item).2 = Outcome.ok () ∧
      (applyOperation matchFn applyFn (applyOperations matchFn applyFn pre item).1 op).2 = r

/-! ## The kyaml library: identity of a document -/

/-- Field `Content` of a `yaml.Node`: the elements of a sequence, the alternating keys and
values of a mapping, nothing for a scalar, what was appended to a null node. -/
def Node.content : Node → List Node
  | Node.scalar _ => []
  | Node.null _ c => c
  | Node.seq c => c
  | Node.map fields => fields.foldr (fun kv acc => Node.scalar kv.1 :: kv.2 :: acc) []

/-- Model of kyaml `getMapFieldValue` on a `Content` slice (`visitMappingNodeFields` for one
field name, through `visitFieldsWhileTrue`). The slice is read as alternating keys and
values, whatever the kind of the node, and every step takes `content[i]` and `content[i+1]`:
the result is the value next to the first key whose `Value` is `field`, and `none`, the nil
pointer, when no key has it. A key with no value next to it, which is what the last element
of a sequence of odd length is, is an index out of range: a panic. -/
def getMapFieldValue (field : Str) : List Node → Outcome (Option Node)
  | [] => Outcome.ok none
  | [_] => Outcome.panic
  | key :: v :: rest =>
    if key.value = field then Outcome.ok (some v) else getMapFieldValue field rest

/-- The `Value` of a field, empty when the field is missing. -/
def getStringField (field : Str) (content : List Node) : Outcome Str :=
  (getMapFieldValue field content).bind fun node =>
    match node with
    | some v => Outcome.ok v.value
    | none => Outcome.ok []

/-- Model of `rn.GetApiVersion()`. -/
def getApiVersion (item : Node) : Outcome Str :=
  getStringField "apiVersion".toList item.content

/-- Model of `rn.GetKind()`. -/
def getKind (item : Node) : Outcome Str :=
  getStringField "kind".toList item.content

/-- Model of kyaml `IsYNodeNilOrEmpty` on a node that exists: a null node, an empty mapping
or an empty sequence. -/
def isYNodeNilOrEmpty : Node → Bool
  | Node.null _ _ => true
  | Node.seq [] => true
  | Node.map [] => true
  | _ => false

/-- Model of kyaml `getMetaData`: the value of the field `metadata`; the nil pointer when the
document is null, when there is no such field or when its value is nil or empty. -/
def getMetaData (item : Node) : Outcome (Option Node) :=
  if item.isNull then Outcome.ok none
  else
    (getMapFieldValue "metadata".toList item.content).bind fun node =>
      match node with
      | some md => if isYNodeNilOrEmpty md then Outcome.ok none else Outcome.ok (some md)
      | none => Outcome.ok none

/-- Model of kyaml `getMetaStringField`: the `Value` of a field of `metadata`, empty when
`metadata` or the field is missing or the value of the field is nil or empty. -/
def getMetaStringField (fName : Str) (item : Node) : Outcome Str :=
  (getMetaData item).bind fun metadata =>
    match metadata with
    | some md =>
      (getMapFieldValue fName md.content).bind fun node =>
        match node with
        | some v => if isYNodeNilOrEmpty v then Outcome.ok [] else Outcome.ok v.value
        | none => Outcome.ok []
    | none => Outcome.ok []

/-- Model of `rn.GetName()`. -/
def getName (item : Node) : Outcome Str :=
  getMetaStringField "name".toList item

/-- Model of `rn.GetNamespace()`. -/
def getNamespace (item : Node) : Outcome Str :=
  getMetaStringField "namespace".toList item

/-! ## Go's `regexp` package -/

/-- The `regexp` package as far as the selector code uses it: `regexp.Compile` and
`(*Regexp).MatchString` (does the text contain a match). -/
structure RegexpLib where
  Regexp : Type
  compile : Str → Outcome Regexp
  matchString : Regexp → Str → Bool

/-- Regular expressions of the modelled part of Go's syntax. -/
inductive Rx where
  /-- The empty expression, which matches the empty string. -/
  | empty
  /-- A literal character. -/
  | char (c : Char)
  /-- The dot: any character except a line feed. -/
  | anyNotNL
  /-- The caret: the beginning of the text. -/
  | beginText
  /-- The dollar: the end of the text. -/
  | endText
  | cat (a b : Rx)
  | alt (a b : Rx)
  | star (a : Rx)
  | plus (a : Rx)
  | opt (a : Rx)
  deriving DecidableEq, Repr

/-- Result of parsing a piece of a pattern. -/
inductive ParseResult where
  | ok (r : Rx) (rest : Str)
  /-- A pattern `regexp.Compile` rejects. -/
  | bad
  /-- Syntax outside the modelled part. -/
  | unmodelled
  deriving Repr

/-- The characters with a meaning in a pattern. -/
def isMeta (c : Char) : Bool :=
  c == Char.ofNat 92 || c == '.' || c == '+' || c == '*' || c == '?' || c == '(' || c == ')' ||
    c == '|' || c == '[' || c == ']' || c == '{' || c == '}' || c == '^' || c == '$'

/-- The repetition operators. -/
def isRep (c : Char) : Bool :=
  c == '*' || c == '+' || c == '?'

/-- The expression a repetition operator builds. -/
def applyRep (c : Char) (r : Rx) : Rx :=
  if c == '*' then Rx.star r else if c == '+' then Rx.plus r else Rx.opt r

mutual
/-- Alternatives separated by `|`. -/
def parseAlt : Nat → Str → ParseResult
  | 0, _ => ParseResult.unmodelled
  | fuel + 1, s =>
    match parseConcat fuel s with
    | ParseResult.ok a ('|' :: rest) =>
      match parseAlt fuel rest with
      | ParseResult.ok b rest2 => ParseResult.ok (Rx.alt a b) rest2
      | r => r
    | r => r
/-- A possibly empty sequence of repeated atoms, up to `|`, `)` or the end. -/
def parseConcat : Nat → Str → ParseResult
  | 0, _ => ParseResult.unmodelled
  | _ + 1, [] => ParseResult.ok Rx.empty []
  | fuel + 1, c :: cs =>
    if c == '|' || c == ')' then ParseResult.ok Rx.empty (c :: cs)
    else
      match parseRepeat fuel (c :: cs) with
      | ParseResult.ok a rest =>
        match parseConcat fuel rest with
        | ParseResult.ok b rest2 => ParseResult.ok (Rx.cat a b) rest2
        | r => r
      | r => r
/-- An atom with at most one repetition operator, which may carry the non-greedy mark `?`. -/
def parseRepeat : Nat → Str → ParseResult
  | 0, _ => ParseResult.unmodelled
  | fuel + 1, s =>
    match parseAtom fuel s with
    | ParseResult.ok a (c :: rest) =>
      if isRep c then
        match rest with
        | '?' :: rest2 =>
          (match rest2 with
            | d :: _ =>
              if isRep d then ParseResult.unmodelled else ParseResult.ok (applyRep c a) rest2
            | [] => ParseResult.ok (applyRep c a) rest2)
        | d :: _ =>
          if isRep d then ParseResult.unmodelled else ParseResult.ok (applyRep c a) rest
        | [] => ParseResult.ok (applyRep c a) rest
      else ParseResult.ok a (c :: rest)
    | r => r
/-- A group, `.`, `^`, `$`, an escaped meta character or a literal character. A repetition
operator with nothing to repeat, a group that is not closed and a trailing backslash are
rejected as `regexp.Compile` rejects them. -/
def parseAtom : Nat → Str → ParseResult
  | 0, _ => ParseResult.unmodelled
  | _ + 1, [] => ParseResult.unmodelled
  | fuel + 1, c :: cs =>
    if c == '(' then
      match cs with
      | '?' :: ':' :: inner =>
        (match parseAlt fuel inner with
          | ParseResult.ok a (')' :: rest) => ParseResult.ok a rest
          | ParseResult.ok _ [] => ParseResult.bad
          | ParseResult.ok _ _ => ParseResult.unmodelled
          | r => r)
      | '?' :: _ => ParseResult.unmodelled
      | inner =>
        (match parseAlt fuel inner with
          | ParseResult.ok a (')' :: rest) => ParseResult.ok a rest
          | ParseResult.ok _ [] => ParseResult.bad
          | ParseResult.ok _ _ => ParseResult.unmodelled
          | r => r)
    else if c == '.' then ParseResult.ok Rx.anyNotNL cs
    else if c == '^' then ParseResult.ok Rx.beginText cs
    else if c == '$' then ParseResult.ok Rx.endText cs
    else if isRep c then ParseResult.bad
    else if c == Char.ofNat 92 then
      match cs with
      | d :: rest => if isMeta d then ParseResult.ok (Rx.char d) rest else ParseResult.unmodelled
      | [] => ParseResult.bad
    else if isMeta c then ParseResult.unmodelled
    else ParseResult.ok (Rx.char c) cs
end

/-- Model of `regexp.Compile` for patterns built from literal characters, `.`, `^`, `$`,
`*`, `+`, `?`, `|`, groups `(...)` and `(?:...)` and escaped meta characters; any other
syntax ends as `Outcome.unmodelled`. -/
def regexpCompile (pattern : Str) : Outcome Rx :=
  match parseAlt (4 * pattern.length + 8) pattern with
  | ParseResult.ok r [] => Outcome.ok r
  | ParseResult.ok _ (')' :: _) => Outcome.error Err.badRegex
  | ParseResult.ok _ _ => Outcome.unmodelled
  | ParseResult.bad => Outcome.error Err.badRegex
  | ParseResult.unmodelled => Outcome.unmodelled

/-- Repetition of `step`, at most `fuel` times, every repetition consuming input. -/
def starLoop (step : Bool → Str → (Bool → Str → Bool) → Bool) :
    Nat → Bool → Str → (Bool → Str → Bool) → Bool
  | 0, atStart, s, k => k atStart s
  | fuel + 1, atStart, s, k =>
    k atStart s ||
      step atStart s (fun atStart1 s1 =>
        decide (s1.length < s.length) && starLoop step fuel atStart1 s1 k)

/-- Does the expression match a prefix of `s` after which `k` accepts; `atStart` tells whether
`s` is the whole text (no character before it). -/
def Rx.run : Rx → Bool → Str → (Bool → Str → Bool) → Bool
  | Rx.empty, atStart, s, k => k atStart s
  | Rx.char c, _, s, k =>
    match s with
    | d :: ds => d == c && k false ds
    | [] => false
  | Rx.anyNotNL, _, s, k =>
    match s with
    | d :: ds => d != Char.ofNat 10 && k false ds
    | [] => false
  | Rx.beginText, atStart, s, k => atStart && k atStart s
  | Rx.endText, atStart, s, k => s.isEmpty && k atStart s
  | Rx.cat a b, atStart, s, k => a.run atStart s (fun atStart1 s1 => b.run atStart1 s1 k)
  | Rx.alt a b, atStart, s, k => a.run atStart s k || b.run atStart s k
  | Rx.star a, atStart, s, k => starLoop a.run s.length atStart s k
  | Rx.plus a, atStart, s, k =>
    a.run atStart s (fun atStart1 s1 => starLoop a.run s1.length atStart1 s1 k)
  | Rx.opt a, atStart, s, k => k atStart s || a.run atStart s k

/-- Does a match start at one of the positions of `s`. -/
def matchFrom (r : Rx) : Bool → Str → Bool
  | atStart, [] => r.run atStart [] (fun _ _ => true)
  | atStart, c :: cs => r.run atStart (c :: cs) (fun _ _ => true) || matchFrom r false cs

/-- Model of `(*Regexp).MatchString`: the text contains a match. -/
def regexpMatchString (r : Rx) (s : Str) : Bool :=
  matchFrom r true s

/-- The modelled part of Go's `regexp` package. -/
def goRegexp : RegexpLib where
  Regexp := Rx
  compile := regexpCompile
  matchString := regexpMatchString

/-! ## Source: `src/main.go` -/

namespace Main

/-- Source `ResourceSelector` of `src/main.go`; an empty field is unset. -/
structure ResourceSelector where
  APIVersion : Str := []
  Kind : Str := []
  Name : Str := []
  Namespace : Str := []
  deriving DecidableEq, Repr

/-- Source `matchesTarget` of `src/main.go`, one test `want != "" && got() != want`: the
accessor is called only when the selector field is set. -/
def differs (want : Str) (got : Outcome Str) : Outcome Bool :=
  if want = [] then Outcome.ok false
  else got.bind fun v => Outcome.ok (decide (v ≠ want))

/-- Source `matchesTarget` of `src/main.go`: the four tests in order, the first one that
holds returning false. The function returns a `bool` and no error; it does not return when
an accessor panics. -/
def matchesTarget (item : Node) (target : ResourceSelector) : Outcome Bool :=
  (differs target.APIVersion (getApiVersion item)).bind fun d1 =>
    if d1 then Outcome.ok false
    else (differs target.Kind (getKind item)).bind fun d2 =>
      if d2 then Outcome.ok false
      else (differs target.Name (getName item)).bind fun d3 =>
        if d3 then Outcome.ok false
        else (differs target.Namespace (getNamespace item)).bind fun d4 =>
          if d4 then Outcome.ok false else Outcome.ok true

/-- Source `applyUpsert` of `src/main.go`, the loop "Navigate to parent path, creating nodes
as needed": one `LookupCreate(yaml.MappingNode, component)` per component, each applied to the
pointer the previous one returned; `k` is the rest of the function. -/
def navigate (k : PtrFn) : List Str → PtrFn
  | [] => k
  | component :: rest =>
    pipeLookupCreate Kind.MappingNode [component] (navigate k rest)

/-- Source `applyUpsert` of `src/main.go`: the document as mutated and how the call ended.
The source appends with `arrayNode.PipeE(yaml.Append(yaml.NewStringRNode(value)))`;
`yaml.Append` takes `*yaml.Node` elements and `yaml.NewStringRNode` returns an `*RNode`, so
that line does not type-check as written. It is read here as appending the node of that
`RNode`, which is what `src/cmd/kustomize-upsert/main.go` does with `.YNode()`. -/
def applyUpsert (item : Node) (op : UpsertOperation ResourceSelector) : Node × Res :=
  let pathComponents := stringsSplit '.' op.Path
  let arrayFieldName := pathComponents.getLast?.getD []
  (navigate
    (pipeLookupCreate Kind.SequenceNode [arrayFieldName]
      (upsertArray op.Values op.AllowDuplicates))
    pathComponents.dropLast).onNode item

/-- Source `UpsertTransformer` of `src/main.go`. -/
structure UpsertTransformer where
  Operations : List (UpsertOperation ResourceSelector)

/-- One step of the pass of `src/main.go`: the body of the inner loop for one operation. -/
def step (item : Node) (op : UpsertOperation ResourceSelector) : Node × Res :=
  applyOperation matchesTarget applyUpsert item op

/-- The inner loop of `src/main.go` on one document. -/
def runOps (operations : List (UpsertOperation ResourceSelector)) (item : Node) : Node × Res :=
  applyOperations matchesTarget applyUpsert operations item

/-- Source `Filter` of `src/main.go`: the documents as left in memory, and the value
returned. -/
def Filter (t : UpsertTransformer) (items : List Node) : List Node × Outcome (List Node) :=
  ((filterItems matchesTarget applyUpsert t.Operations items).1,
    filterReturn (filterItems matchesTarget applyUpsert t.Operations items))

end Main

/-! ## Source: `src/cmd/kustomize-upsert/main.go` -/

namespace Cmd

/-- Source `parseJSONPath`, one iteration of the loop over the pieces: the segments the piece
contributes; `none` is a slice-bounds panic. -/
def parsePart (part : Str) : Option (List Str) :=
  if stringsContains part '[' && stringsContains part ']' then
    match goSlice part 0 (stringsIndex part '['),
      goSlice part (stringsIndex part '[' + 1) (stringsIndex part ']') with
    | some fieldName, some indexPart => some [fieldName, indexPart]
    | _, _ => none
  else some [part]

/-- Source `parseJSONPath`, the loop: `result` grows by the segments of each piece. -/
def parseLoop : List Str → List Str → Option (List Str)
  | [], result => some result
  | part :: parts, result =>
    match parsePart part with
    | some segs => parseLoop parts (result ++ segs)
    | none => none

/-- Source `parseJSONPath`; `none` is a run-time panic. -/
def parseJSONPath (path : Str) : Option (List Str) :=
  parseLoop (stringsSplit '.' path) []

/-- The fields of `types.Selector` (`resid.ResId` inlined) that the matching code reads; an
empty field is unset. -/
structure ResourceSelector where
  Group : Str := []
  Version : Str := []
  Kind : Str := []
  Name : Str := []
  Namespace : Str := []
  deriving DecidableEq, Repr

/-- The `resid.Gvk` of a document. -/
structure Gvk where
  Group : Str
  Version : Str
  Kind : Str
  deriving DecidableEq, Repr

/-- The `resid.ResId` of a document. -/
structure ResId where
  Gvk : Gvk
  Name : Str
  Namespace : Str
  deriving DecidableEq, Repr

/-- Model of kyaml `resid.ParseGroupVersion`: the text before the first `/` is the group and
the text after it the version; without a `/` the group is empty. -/
def parseGroupVersion (apiVersion : Str) : Str × Str :=
  if stringsIndex apiVersion '/' > -1 then
    (apiVersion.take (stringsIndex apiVersion '/').toNat,
      apiVersion.drop ((stringsIndex apiVersion '/').toNat + 1))
  else ([], apiVersion)

/-- Model of kyaml `resid.FromRNode`: the four accessors are called, whatever the selector
is. -/
def fromRNode (item : Node) : Outcome ResId :=
  (getApiVersion item).bind fun apiVersion =>
    (getKind item).bind fun kind =>
      (getName item).bind fun name =>
        (getNamespace item).bind fun ns =>
          Outcome.ok { Gvk := { Group := (parseGroupVersion apiVersion).1,
                                Version := (parseGroupVersion apiVersion).2,
                                Kind := kind },
                       Name := name,
                       Namespace := ns }

/-- Model of kustomize `anchorRegex`: a non-empty pattern is wrapped so that it must match
the whole text. -/
def anchorRegex (pattern : Str) : Str :=
  if pattern = [] then pattern else "^(?:".toList ++ pattern ++ ")$".toList

/-- Model of kustomize `types.SelectorRegex`: the selector and its compiled fields. -/
structure SelectorRegex (lib : RegexpLib) where
  selector : ResourceSelector
  gsr : lib.Regexp
  vsr : lib.Regexp
  ksr : lib.Regexp
  nameRegex : lib.Regexp
  namespaceRegex : lib.Regexp

/-- Model of kustomize `types.NewSelectorRegex`: the five fields are compiled in the order
group, version, kind, name, namespace, and the first failure is returned. -/
def newSelectorRegex (lib : RegexpLib) (s : ResourceSelector) : Outcome (SelectorRegex lib) :=
  match lib.compile (anchorRegex s.Group) with
  | Outcome.ok gsr =>
    match lib.compile (anchorRegex s.Version) with
    | Outcome.ok vsr =>
      match lib.compile (anchorRegex s.Kind) with
      | Outcome.ok ksr =>
        match lib.compile (anchorRegex s.Name) with
        | Outcome.ok nameRegex =>
          match lib.compile (anchorRegex s.Namespace) with
          | Outcome.ok namespaceRegex =>
            Outcome.ok { selector := s, gsr := gsr, vsr := vsr, ksr := ksr,
                         nameRegex := nameRegex, namespaceRegex := namespaceRegex }
          | Outcome.error e => Outcome.error e
          | Outcome.panic => Outcome.panic
          | Outcome.unmodelled => Outcome.unmodelled
        | Outcome.error e => Outcome.error e
        | Outcome.panic => Outcome.panic
        | Outcome.unmodelled => Outcome.unmodelled
      | Outcome.error e => Outcome.error e
      | Outcome.panic => Outcome.panic
      | Outcome.unmodelled => Outcome.unmodelled
    | Outcome.error e => Outcome.error e
    | Outcome.panic => Outcome.panic
    | Outcome.unmodelled => Outcome.unmodelled
  | Outcome.error e => Outcome.error e
  | Outcome.panic => Outcome.panic
  | Outcome.unmodelled => Outcome.unmodelled

/-- Model of kustomize `(*SelectorRegex).MatchGvk`: every set field of group, version and
kind must match. -/
def matchGvk (lib : RegexpLib) (sr : SelectorRegex lib) (gvk : Gvk) : Bool :=
  if sr.selector.Group.length > 0 ∧ ¬ lib.matchString sr.gsr gvk.Group = true then false
  else if sr.selector.Version.length > 0 ∧ ¬ lib.matchString sr.vsr gvk.Version = true then
    false
  else if sr.selector.Kind.length > 0 ∧ ¬ lib.matchString sr.ksr gvk.Kind = true then false
  else true

/-- Model of kustomize `(*SelectorRegex).MatchName`. -/
def matchName (lib : RegexpLib) (sr : SelectorRegex lib) (n : Str) : Bool :=
  if sr.selector.Name = [] then true else lib.matchString sr.nameRegex n

/-- Model of kustomize `(*SelectorRegex).MatchNamespace`. -/
def matchNamespace (lib : RegexpLib) (sr : SelectorRegex lib) (ns : Str) : Bool :=
  if sr.selector.Namespace = [] then true else lib.matchString sr.namespaceRegex ns

/-- Source `matchesTarget` of `src/cmd/kustomize-upsert/main.go`: the Go pair `(bool, error)`,
a failure standing for `(false, err)`. -/
def matchesTarget (lib : RegexpLib) (item : Node) (target : ResourceSelector) :
    Outcome Bool :=
  (fromRNode item).bind fun resourceId =>
    match newSelectorRegex lib target with
    | Outcome.error e => Outcome.error e
    | Outcome.panic => Outcome.panic
    | Outcome.unmodelled => Outcome.unmodelled
    | Outcome.ok selectorRegex =>
      if !matchGvk lib selectorRegex resourceId.Gvk then Outcome.ok false
      else if !matchName lib selectorRegex resourceId.Name then Outcome.ok false
      else if !matchNamespace lib selectorRegex resourceId.Namespace then Outcome.ok false
      else Outcome.ok true

/-- Source `applyUpsert` of `src/cmd/kustomize-upsert/main.go`: the document as mutated and
how the call ended. -/
def applyUpsert (item : Node) (op : UpsertOperation ResourceSelector) : Node × Res :=
  match parseJSONPath op.Path with
  | none => (item, Outcome.panic)
  | some pathParts =>
    (pipeLookupCreate Kind.SequenceNode pathParts
      (upsertArray op.Values op.AllowDuplicates)).onNode item

/-- Source `UpsertTransformerSpec`. -/
structure UpsertTransformerSpec where
  Operations : List (UpsertOperation ResourceSelector) := []

/-- Source `UpsertTransformer` of `src/cmd/kustomize-upsert/main.go`. -/
structure UpsertTransformer where
  Spec : UpsertTransformerSpec := {}
  Operations : List (UpsertOperation ResourceSelector) := []

/-- What `os.Getenv("KUSTOMIZE_PLUGIN_CONFIG_STRING")` and `goyaml.Unmarshal` give: the
variable is empty, its text does not parse, or it parses to a configuration. -/
inductive EnvConfig where
  | unset
  | invalid
  | parsed (config : UpsertTransformer)

/-- The operations of a configuration: the direct field, or the ones of `spec` when the
direct field is empty. -/
def operationsOf (t : UpsertTransformer) : List (UpsertOperation ResourceSelector) :=
  if t.Operations.length = 0 ∧ t.Spec.Operations.length > 0 then t.Spec.Operations
  else t.Operations

/-- Source `Filter`, "Get operations from either spec or direct field" and "try manual
parsing": the environment is consulted only when the configuration holds no operation. -/
def resolveOperations (t : UpsertTransformer) (env : EnvConfig) :
    Outcome (List (UpsertOperation ResourceSelector)) :=
  if (operationsOf t).length = 0 then
    match env with
    | EnvConfig.unset => Outcome.ok (operationsOf t)
    | EnvConfig.invalid => Outcome.error Err.badConfig
    | EnvConfig.parsed config => Outcome.ok (operationsOf config)
  else Outcome.ok (operationsOf t)

/-- One step of the pass of `src/cmd`: the body of the inner loop for one operation. -/
def step (lib : RegexpLib) (item : Node) (op : UpsertOperation ResourceSelector) :
    Node × Res :=
  applyOperation (matchesTarget lib) applyUpsert item op

/-- The inner loop of `src/cmd` on one document. -/
def runOps (lib : RegexpLib) (operations : List (UpsertOperation ResourceSelector))
    (item : Node) : Node × Res :=
  applyOperations (matchesTarget lib) applyUpsert operations item

/-- Source `Filter`, the two loops over the documents and the resolved operations. -/
def filterLoop (lib : RegexpLib) (operations : List (UpsertOperation ResourceSelector))
    (items : List Node) : List Node × Outcome (List Node) :=
  ((filterItems (matchesTarget lib) applyUpsert operations items).1,
    filterReturn (filterItems (matchesTarget lib) applyUpsert operations items))

/-- Source `Filter` of `src/cmd/kustomize-upsert/main.go`: the documents as left in memory,
and the value returned. -/
def Filter (lib : RegexpLib) (t : UpsertTransformer) (env : EnvConfig) (items : List Node) :
    List Node × Outcome (List Node) :=
  match resolveOperations t env with
  | Outcome.ok operations => filterLoop lib operations items
  | Outcome.error e => (items, Outcome.error e)
  | Outcome.panic => (items, Outcome.panic)
  | Outcome.unmodelled => (items, Outcome.unmodelled)

end Cmd

/-! ## Vocabulary for stating the claims: the node a path leads to -/

/-- The value of the first entry whose key is `name`. -/
def fieldValue (name : Str) : List (Str × Node) → Option Node
  | [] => none
  | (key, v) :: fs => if key = name then some v else fieldValue name fs

/-- Replace the value of the first entry whose key is `name`. -/
def setFieldValue (name : Str) (new : Node) : List (Str × Node) → List (Str × Node)
  | [] => []
  | (key, v) :: fs =>
    if key = name then (key, new) :: fs else (key, v) :: setFieldValue name new fs

/-- The node an already cleaned path leads to in a document, following the same filters as
`pathGetter` but creating nothing (kyaml `Lookup`); `none` when the path does not lead to a
node. A null node at the end of the path is returned as a node, although the lookup of kyaml
answers nil for it; no path goes on through a null node. -/
def lookupNode : List Str → Node → Option Node
  | [], n => some n
  | part :: rest, n =>
    match getFilter Kind.SequenceNode part [] with
    | Except.ok (PathFilter.elementIndexer index) =>
      match n with
      | Node.seq elems =>
        if index = -1 then elems[elems.length - 1]?.bind (lookupNode rest)
        else elems[index.toNat]?.bind (lookupNode rest)
      | _ => none
    | Except.ok (PathFilter.fieldMatcher name _) =>
      match n with
      | Node.map fields => (fieldValue name fields).bind (lookupNode rest)
      | _ => none
    | _ => none

/-- The document with the node an already cleaned path leads to replaced by `new`. -/
def replaceNode (new : Node) : List Str → Node → Node
  | [], _ => new
  | part :: rest, n =>
    match getFilter Kind.SequenceNode part [] with
    | Except.ok (PathFilter.elementIndexer index) =>
      match n with
      | Node.seq elems =>
        let i := if index = -1 then elems.length - 1 else index.toNat
        match elems[i]? with
        | some e => Node.seq (elems.set i (replaceNode new rest e))
        | none => n
      | _ => n
    | Except.ok (PathFilter.fieldMatcher name _) =>
      match n with
      | Node.map fields =>
        match fieldValue name fields with
        | some v => Node.map (setFieldValue name (replaceNode new rest v) fields)
        | none => n
      | _ => n
    | _ => n

/-- The document `{spec: {args: [...]}}` of the spec's duplicate examples. -/
def argsDoc (elems : List String) : Node :=
  Node.map [("spec".toList,
    Node.map [("args".toList, Node.seq (elems.map (fun e => Node.scalar e.toList)))])]

/-- An operation on the path `spec.args`. -/
def argsOp (Sel : Type) (target : Sel) (values : List String) (allowDuplicates : Bool) :
    UpsertOperation Sel :=
  { Target := target, Path := "spec.args".toList, Values := values.map String.toList,
    AllowDuplicates := allowDuplicates }

/-- A chain of lookups, each a `LookupCreate(kind, component)` applied to the pointer the
previous one returned; `k` runs on the last pointer. -/
def chain : List (Kind × Str) → PtrFn → PtrFn
  | [], k => k
  | (kind, component) :: rest, k => pipeLookupCreate kind [component] (chain rest k)

/-- The lookups of `applyUpsert` in `src/main.go` for the components of a path: a mapping is
created for every component but the last, a sequence for the last. -/
def mainSteps (pathComponents : List Str) : List (Kind × Str) :=
  pathComponents.dropLast.map (fun c => (Kind.MappingNode, c))
    ++ [(Kind.SequenceNode, pathComponents.getLast?.getD [])]

/-- How the filter of a path part ends on a scalar node that is not null: with the error of
`getFilter`, or with "wrong Node Kind" from `FieldMatcher`, `ElementIndexer` and
`ElementMatcher`. -/
def scalarFailure (part : Str) : Res :=
  match getFilter Kind.SequenceNode part [] with
  | Except.error e => Outcome.error e
  | Except.ok _ => Outcome.error Err.wrongNodeKind

/-- A path part that the lookup reads as the name of a field, as it is written: not empty, no
surrounding white space, not an integer, not `-`, not `*`, and free of dots and brackets. -/
def plainField (f : Str) : Bool :=
  !f.isEmpty && trimSpace f == f && (atoi f).isNone && f != ['-'] && f != ['*'] &&
    !stringsContains f '.' && !stringsContains f '[' && !stringsContains f ']'

/-- The nested value `{f2: {... {fn: leaf}}}` for the fields `f2 ... fn`; `leaf` itself when
there is no field. -/
def nested (leaf : Node) : List Str → Node
  | [] => leaf
  | f :: fs => Node.map [(f, nested leaf fs)]

/-- The path string `f1.f2...fn`. -/
def joinDots (fields : List Str) : Str :=
  List.intercalate ['.'] fields

/-- The document `{spec: "notAMap"}` of the spec's kind-conflict example. -/
def scalarSpecDoc : Node :=
  Node.map [("spec".toList, Node.scalar "notAMap".toList)]

/-- The document `{spec: null}`. -/
def nullSpecDoc : Node :=
  Node.map [("spec".toList, Node.null "null".toList [])]

/-- The document `{spec: {args: null}}`. -/
def nullArgsDoc : Node :=
  Node.map [("spec".toList, Node.map [("args".toList, Node.null "null".toList [])])]

/-- The document `{spec: {args: "x"}}`, whose array field holds a scalar. -/
def scalarArgsDoc : Node :=
  Node.map [("spec".toList, Node.map [("args".toList, Node.scalar "x".toList)])]

/-- The document `{spec: {args: [{a: b}]}}`, whose array holds a mapping. -/
def mappingArgsDoc : Node :=
  Node.map [("spec".toList, Node.map [("args".toList,
    Node.seq [Node.map [("a".toList, Node.scalar "b".toList)]])])]

/-- A document `{apiVersion: v1, kind: <kind>}`. -/
def kindDoc (kind : String) : Node :=
  Node.map [("apiVersion".toList, Node.scalar "v1".toList),
    ("kind".toList, Node.scalar kind.toList)]

/-- The document `{metadata: [name]}`: its `metadata` is a sequence of one element. -/
def oddMetadataDoc : Node :=
  Node.map [("metadata".toList, Node.seq [Node.scalar "name".toList])]

/-- The expression `^(?:r)$` as the parser builds it. -/
def anchored (r : Rx) : Rx :=
  Rx.cat Rx.beginText (Rx.cat r (Rx.cat Rx.endText Rx.empty))

/-- The expression matches the whole text: a match that starts at the first character and
ends after the last one. -/
def matchesWhole (r : Rx) (s : Str) : Bool :=
  r.run true s (fun _ rest => rest.isEmpty)

/-- A selector field against an identity field: an unset (empty) pattern accepts every text,
and a pattern that compiles to `r` accepts the texts it matches as a whole. -/
def fieldAccepts (pattern : Str) (r : Rx) (text : Str) : Bool :=
  pattern.isEmpty || matchesWhole r text

/-- The document `{apiVersion: apps/v1, kind: Deployment, metadata: {name: web,
namespace: prod}}`. -/
def deploymentDoc : Node :=
  Node.map [("apiVersion".toList, Node.scalar "apps/v1".toList),
    ("kind".toList, Node.scalar "Deployment".toList),
    ("metadata".toList, Node.map [("name".toList, Node.scalar "web".toList),
      ("namespace".toList, Node.scalar "prod".toList)])]

/-- A pointer code `K` that reaches the node the path `P` leads to and runs `k` there; the
node is not null, or it is the node `K` starts at (the path is empty). -/
def Focuses (K k : PtrFn) (P : List Str) : Prop :=
  ∀ n t, lookupNode P n = some t → (t.isNull = false ∨ P = []) →
    K.onNode n = (replaceNode (k.onNode t).1 P n, (k.onNode t).2)

/-- A pointer code `K` that, when the non-empty path `P` leads to a null node, leaves the
document as it is and ends with `r`, as it does on the nil pointer: the lookup of kyaml
returns the nil pointer for a null node. -/
def EndsAtNull (K : PtrFn) (r : Res) (P : List Str) : Prop :=
  K.onNil = r ∧
    ∀ n t, lookupNode P n = some t → t.isNull = true → P ≠ [] → K.onNode n = (n, r)

/-- Pointer code that returns the nil pointer for the nil pointer and a node for a node, null
exactly when the node it was given is null. -/
def PtrFn.Proper (k : PtrFn) : Prop :=
  (k none).1 = none ∧ (∀ n, ∃ n1, (k (some n)).1 = some n1) ∧
    ∀ n, (k.onNode n).1.isNull = n.isNull

/-- Pointer code that, run again on what a successful run left, succeeds and changes
nothing. -/
def PtrFn.Stable (k : PtrFn) : Prop :=
  ∀ p, (k p).2 = Outcome.ok () → k (k p).1 = ((k p).1, Outcome.ok ())

end KustomizeUpsert

/-! ## Properties of the append loop -/

namespace KustomizeUpsert

theorem contains_iff (slice : List Str) (item : Str) :
    contains slice item = true ↔ item ∈ slice := by
  induction slice with
  | nil => simp [contains]
  | cons s rest ih =>
    by_cases h : s = item
    · simp [contains, h]
    · have h2 : ¬ item = s := fun e => h e.symm
      simp [contains, h, h2, ih]

/-- On a sequence the loop never fails: it appends, in order, the values that pass the test. -/
theorem appendValues_seq (allow : Bool) (existing values : List Str) (content : List Node) :
    appendValues allow existing values (some (Node.seq content))
      = (some (Node.seq (content ++
          (values.filter (fun v => allow || !contains existing v)).map newScalarRNode)),
        Outcome.ok ()) := by
  induction values generalizing content with
  | nil => simp [appendValues]
  | cons v rest ih =>
    by_cases h : (allow || !contains existing v) = true
    · rw [appendValues, if_pos h]
      simp only [pipeAppend]
      rw [ih]
      simp [List.filter_cons, h]
    · rw [appendValues, if_neg h, ih]
      simp [List.filter_cons, h]

/-- On the nil pointer the loop does nothing and reports no error. -/
theorem appendValues_nil (allow : Bool) (existing values : List Str) :
    appendValues allow existing values none = (none, Outcome.ok ()) := by
  induction values with
  | nil => simp [appendValues]
  | cons v rest ih =>
    by_cases h : (allow || !contains existing v) = true
    · rw [appendValues, if_pos h]
      simp only [pipeAppend]
      rw [ih]
    · rw [appendValues, if_neg h, ih]

/-- On a node that is neither a sequence nor null the loop leaves the node as it is. -/
theorem appendValues_not_seq (allow : Bool) (existing values : List Str) (n : Node)
    (hn : ∀ content, n ≠ Node.seq content) (hnull : n.isNull = false) :
    (appendValues allow existing values (some n)).1 = some n := by
  induction values with
  | nil => simp [appendValues]
  | cons v rest ih =>
    by_cases h : (allow || !contains existing v) = true
    · rw [appendValues, if_pos h]
      cases n with
      | seq c => exact absurd rfl (hn c)
      | null w c => simp [Node.isNull] at hnull
      | scalar x => simp [pipeAppend]
      | map fs => simp [pipeAppend]
    · rw [appendValues, if_neg h, ih]

/-- On a null node the loop never fails either: the values are added to its `Content`. -/
theorem appendValues_null (allow : Bool) (existing values : List Str) (w : Str)
    (content : List Node) :
    appendValues allow existing values (some (Node.null w content))
      = (some (Node.null w (content ++
          (values.filter (fun v => allow || !contains existing v)).map newScalarRNode)),
        Outcome.ok ()) := by
  induction values generalizing content with
  | nil => simp [appendValues]
  | cons v rest ih =>
    by_cases h : (allow || !contains existing v) = true
    · rw [appendValues, if_pos h]
      simp only [pipeAppend]
      rw [ih]
      simp [List.filter_cons, h]
    · rw [appendValues, if_neg h, ih]
      simp [List.filter_cons, h]

theorem upsertArray_null (values : List Str) (allow : Bool) (w : Str) (content : List Node) :
    upsertArray values allow (some (Node.null w content))
      = (some (Node.null w (content ++
          (values.filter (fun v => allow || !contains (content.map Node.value) v)).map
            newScalarRNode)),
        Outcome.ok ()) := by
  cases allow with
  | false => simp [upsertArray, getArrayValues, elements, appendValues_null]
  | true =>
    simp only [upsertArray, appendValues_null]
    simp

theorem upsertArray_onNil (values : List Str) (allow : Bool) :
    (upsertArray values allow).onNil = Outcome.ok () := by
  cases allow <;> simp [PtrFn.onNil, upsertArray, getArrayValues, appendValues_nil]

theorem upsertArray_seq (values : List Str) (allow : Bool) (content : List Node) :
    upsertArray values allow (some (Node.seq content))
      = (some (Node.seq (content ++
          (values.filter (fun v => allow || !contains (content.map Node.value) v)).map
            newScalarRNode)),
        Outcome.ok ()) := by
  cases allow with
  | false => simp [upsertArray, getArrayValues, elements, appendValues_seq]
  | true =>
    simp only [upsertArray, appendValues_seq]
    simp

/-! ## Path parsing -/

theorem stringsSplit_ne_nil (sep : Char) (s : Str) : stringsSplit sep s ≠ [] := by
  induction s with
  | nil => simp [stringsSplit]
  | cons c cs ih =>
    by_cases h : c = sep
    · simp [stringsSplit, h]
    · cases hs : stringsSplit sep cs with
      | nil => exact absurd hs ih
      | cons p ps => simp [stringsSplit, h, hs]

/-- The pieces of `stringsSplit` joined by the separator give the string back. -/
theorem stringsSplit_join (sep : Char) (s : Str) :
    List.intercalate [sep] (stringsSplit sep s) = s := by
  induction s with
  | nil => simp [stringsSplit, List.intercalate]
  | cons c cs ih =>
    by_cases h : c = sep
    · cases hs : stringsSplit sep cs with
      | nil => exact absurd hs (stringsSplit_ne_nil sep cs)
      | cons p ps =>
        rw [hs] at ih
        simp only [stringsSplit, h, if_true, hs]
        rw [← ih]
        simp [List.intercalate, List.intersperse]
    · cases hs : stringsSplit sep cs with
      | nil => exact absurd hs (stringsSplit_ne_nil sep cs)
      | cons p ps =>
        rw [hs] at ih
        simp only [stringsSplit, h, if_false, hs]
        rw [← ih]
        cases ps <;> simp [List.intercalate, List.intersperse]

/-- No piece of `stringsSplit` contains the separator. -/
theorem stringsSplit_no_sep (sep : Char) (s : Str) :
    ∀ piece ∈ stringsSplit sep s, sep ∉ piece := by
  induction s with
  | nil => simp [stringsSplit]
  | cons c cs ih =>
    by_cases h : c = sep
    · intro piece hp
      simp only [stringsSplit, h, if_true, List.mem_cons] at hp
      rcases hp with rfl | hp
      · simp
      · exact ih piece hp
    · cases hs : stringsSplit sep cs with
      | nil => exact absurd hs (stringsSplit_ne_nil sep cs)
      | cons p ps =>
        rw [hs] at ih
        intro piece hp
        simp only [stringsSplit, h, if_false, hs, List.mem_cons] at hp
        rcases hp with rfl | hp
        · have := ih p (List.mem_cons_self _ _)
          simp only [List.mem_cons, not_or]
          exact ⟨fun e => h e.symm, this⟩
        · exact ih piece (List.mem_cons_of_mem _ hp)

/-- There is one more piece than there are separators. -/
theorem stringsSplit_length (sep : Char) (s : Str) :
    (stringsSplit sep s).length = s.count sep + 1 := by
  induction s with
  | nil => simp [stringsSplit]
  | cons c cs ih =>
    by_cases h : c = sep
    · simp [stringsSplit, h, ih]
    · cases hs : stringsSplit sep cs with
      | nil => exact absurd hs (stringsSplit_ne_nil sep cs)
      | cons p ps =>
        rw [hs] at ih
        simp only [stringsSplit, h, if_false, hs]
        have hc : List.count sep (c :: cs) = List.count sep cs := by
          simp [List.count_cons, h]
        rw [hc]
        simpa using ih

theorem parsePart_plain (part : Str)
    (h : ¬ (stringsContains part '[' = true ∧ stringsContains part ']' = true)) :
    Cmd.parsePart part = some [part] := by
  unfold Cmd.parsePart
  rw [if_neg]
  simpa using h

theorem parseLoop_plain (parts result : List Str)
    (h : ∀ piece ∈ parts,
      ¬ (stringsContains piece '[' = true ∧ stringsContains piece ']' = true)) :
    Cmd.parseLoop parts result = some (result ++ parts) := by
  induction parts generalizing result with
  | nil => simp [Cmd.parseLoop]
  | cons part rest ih =>
    rw [Cmd.parseLoop, parsePart_plain part (h part (List.mem_cons_self _ _))]
    simp only
    rw [ih _ (fun piece hp => h piece (List.mem_cons_of_mem _ hp))]
    simp

theorem parseJSONPath_of_plain (path : Str)
    (h : ∀ piece ∈ stringsSplit '.' path,
      ¬ (stringsContains piece '[' = true ∧ stringsContains piece ']' = true)) :
    Cmd.parseJSONPath path = some (stringsSplit '.' path) := by
  unfold Cmd.parseJSONPath
  rw [parseLoop_plain _ _ h]
  simp

/-- C8: when no piece of the path between dots contains both `[` and `]`, `parseJSONPath`
returns exactly the pieces of splitting the path at the dots, in order and unchanged, empty
pieces included, so one segment more than the path has dots; `a..b` gives `[a, "", b]`. -/
theorem parseJSONPath_plain (path : Str)
    (h : ∀ piece ∈ stringsSplit '.' path,
      ¬ (stringsContains piece '[' = true ∧ stringsContains piece ']' = true)) :
    Cmd.parseJSONPath path = some (stringsSplit '.' path)
      ∧ (stringsSplit '.' path).length = path.count '.' + 1 := by
  refine ⟨?_, stringsSplit_length _ _⟩
  unfold Cmd.parseJSONPath
  rw [parseLoop_plain _ _ h]
  simp

/-- The path `a..b` has no bracket and parses to `[a, "", b]`, three segments for two dots. -/
theorem parseJSONPath_plain_witness :
    (∀ piece ∈ stringsSplit '.' "a..b".toList,
        ¬ (stringsContains piece '[' = true ∧ stringsContains piece ']' = true))
      ∧ Cmd.parseJSONPath "a..b".toList = some ["a".toList, [], "b".toList]
      ∧ (Cmd.parseJSONPath "a..b".toList = some (stringsSplit '.' "a..b".toList)
        ∧ (stringsSplit '.' "a..b".toList).length = "a..b".toList.count '.' + 1) :=
  ⟨by decide, by decide, parseJSONPath_plain "a..b".toList (by decide)⟩

theorem stringsIndex_lt_length (s : Str) (c : Char) :
    stringsIndex s c < (s.length : Int) := by
  induction s with
  | nil => simp [stringsIndex]
  | cons d ds ih =>
    by_cases h : d = c
    · simp only [stringsIndex, h, if_true, List.length_cons]
      omega
    · simp only [stringsIndex, h, if_false, List.length_cons]
      split <;> omega

theorem stringsIndex_nonneg (s : Str) (c : Char) (h : stringsContains s c = true) :
    0 ≤ stringsIndex s c := by
  induction s with
  | nil => simp [stringsContains] at h
  | cons d ds ih =>
    by_cases hd : d = c
    · simp [stringsIndex, hd]
    · have h2 : stringsContains ds c = true := by
        simpa [stringsContains, hd] using h
      have := ih h2
      simp only [stringsIndex, hd, if_false]
      split <;> omega

/-- A piece with both brackets is split when its first `]` comes after its first `[`, into
the text before the first `[` and the text between that `[` and the first `]`; the slice
panics exactly when the first `]` comes before the first `[`. -/
theorem parsePart_brackets (part : Str)
    (h1 : stringsContains part '[' = true) (h2 : stringsContains part ']' = true) :
    (stringsIndex part '[' < stringsIndex part ']' →
        Cmd.parsePart part
          = some [part.take (stringsIndex part '[').toNat,
              (part.take (stringsIndex part ']').toNat).drop
                ((stringsIndex part '[').toNat + 1)])
      ∧ (stringsIndex part ']' < stringsIndex part '[' → Cmd.parsePart part = none) := by
  have a1 := stringsIndex_nonneg part '[' h1
  have a2 := stringsIndex_nonneg part ']' h2
  have b1 := stringsIndex_lt_length part '['
  have b2 := stringsIndex_lt_length part ']'
  have e1 : goSlice part 0 (stringsIndex part '[')
      = some (part.take (stringsIndex part '[').toNat) := by
    unfold goSlice
    rw [if_pos ⟨le_refl _, a1, by omega⟩]
    simp
  constructor
  · intro hlt
    have e2 : goSlice part (stringsIndex part '[' + 1) (stringsIndex part ']')
        = some ((part.take (stringsIndex part ']').toNat).drop
            ((stringsIndex part '[').toNat + 1)) := by
      unfold goSlice
      rw [if_pos ⟨by omega, by omega, by omega⟩]
      have : (stringsIndex part '[' + 1).toNat = (stringsIndex part '[').toNat + 1 := by
        omega
      rw [this]
    unfold Cmd.parsePart
    simp [h1, h2, e1, e2]
  · intro hlt
    have e2 : goSlice part (stringsIndex part '[' + 1) (stringsIndex part ']') = none := by
      unfold goSlice
      rw [if_neg]
      omega
    unfold Cmd.parsePart
    simp [h1, h2, e1, e2]

/-- C6: `parseJSONPath` panics on the path `]a[0`: the piece contains both brackets, the first
`]` is at position 0 and the first `[` at position 2, and the slice `part[3:0]` is out of
bounds; `applyUpsert` on that path panics with the document untouched. -/
theorem parseJSONPath_panics :
    Cmd.parseJSONPath "]a[0".toList = none
      ∧ stringsIndex "]a[0".toList '[' = 2 ∧ stringsIndex "]a[0".toList ']' = 0
      ∧ goSlice "]a[0".toList 3 0 = none
      ∧ Cmd.applyUpsert (Node.map [])
          { Target := {}, Path := "]a[0".toList, Values := [], AllowDuplicates := false }
        = (Node.map [], Outcome.panic) := by
  decide

/-- C7: for the piece `a]b[1]`, which contains both brackets, `parseJSONPath` emits no
segments: the text before the first `[` is `a]b` and the first `]` after it closes `1`, but the
code slices up to the first `]` of the whole piece, `part[4:1]`, and panics; the pieces of
`a.b[2].c` and `containers[0]`, where the first `]` follows the first `[`, are split as
described. -/
theorem parseJSONPath_bracket_before :
    Cmd.parsePart "a]b[1]".toList = none
      ∧ Cmd.parseJSONPath "a]b[1]".toList = none
      ∧ Cmd.parseJSONPath "a]b[1]".toList ≠ some ["a]b".toList, "1".toList]
      ∧ Cmd.parseJSONPath "a.b[2].c".toList
        = some ["a".toList, "b".toList, "2".toList, "c".toList]
      ∧ Cmd.parseJSONPath "containers[0]".toList = some ["containers".toList, "0".toList] := by
  decide

/-! ## Selectors -/

/-- A test of `matchesTarget` that lets the document pass, followed by the rest. -/
theorem bind_test_iff (x rest : Outcome Bool) :
    (x.bind fun d => if d then Outcome.ok false else rest) = Outcome.ok true
      ↔ x = Outcome.ok false ∧ rest = Outcome.ok true := by
  cases x with
  | ok d => cases d <;> simp [Outcome.bind]
  | error e => simp [Outcome.bind]
  | panic => simp [Outcome.bind]
  | unmodelled => simp [Outcome.bind]

/-- A test of `matchesTarget` lets the document pass when the selector field is unset or the
accessor returns the selector field. -/
theorem differs_false_iff (want : Str) (got : Outcome Str) :
    Main.differs want got = Outcome.ok false ↔ (want ≠ [] → got = Outcome.ok want) := by
  unfold Main.differs
  by_cases hw : want = []
  · simp [hw]
  · rw [if_neg hw]
    cases got with
    | ok v => simp [Outcome.bind, hw]
    | error e => simp [Outcome.bind, hw]
    | panic => simp [Outcome.bind, hw]
    | unmodelled => simp [Outcome.bind, hw]

/-- C9: the exact-match `matchesTarget` returns true exactly when every selector field among
`apiVersion`, `kind`, `name` and `namespace` that is set (not empty) equals the field of the
document's identity, as the accessor of the field returns it; an unset field imposes no
condition. -/
theorem matchesTarget_exact_iff (item : Node) (target : Main.ResourceSelector) :
    Main.matchesTarget item target = Outcome.ok true ↔
      (target.APIVersion ≠ [] → getApiVersion item = Outcome.ok target.APIVersion)
      ∧ (target.Kind ≠ [] → getKind item = Outcome.ok target.Kind)
      ∧ (target.Name ≠ [] → getName item = Outcome.ok target.Name)
      ∧ (target.Namespace ≠ [] → getNamespace item = Outcome.ok target.Namespace) := by
  unfold Main.matchesTarget
  rw [bind_test_iff, bind_test_iff, bind_test_iff, bind_test_iff, differs_false_iff,
    differs_false_iff, differs_false_iff, differs_false_iff]
  simp

end KustomizeUpsert

/-! ## The lookup as a focus on the node the path leads to -/

namespace KustomizeUpsert

theorem focusNth_eq (f : Node → Node × Res) (i : Nat) (es : List Node) :
    focusNth f i es = es[i]?.map (fun e => (es.set i (f e).1, (f e).2)) := by
  induction es generalizing i with
  | nil => simp [focusNth]
  | cons e es ih =>
    cases i with
    | zero => simp [focusNth]
    | succ i => simp [focusNth, ih, Option.map_map, Function.comp_def]

theorem focusField_eq (f : Node → Node × Res) (name : Str) (fs : List (Str × Node)) :
    focusField f name fs
      = (fieldValue name fs).map (fun v => (setFieldValue name (f v).1 fs, (f v).2)) := by
  induction fs with
  | nil => simp [focusField, fieldValue]
  | cons kv fs ih =>
    obtain ⟨key, v⟩ := kv
    by_cases h : key = name
    · simp [focusField, fieldValue, setFieldValue, h]
    · simp [focusField, fieldValue, setFieldValue, h, ih, Option.map_map, Function.comp_def]

/-- Which filter a part gets does not depend on the kind to create or on the next part; only
the kind of node a field match would create does. -/
theorem getFilter_eq (create : Kind) (part nextPart : Str) :
    getFilter create part nextPart
      = match getFilter Kind.SequenceNode part [] with
        | Except.ok (PathFilter.fieldMatcher name _) =>
          Except.ok (PathFilter.fieldMatcher name (getPathPartKind nextPart create))
        | r => r := by
  unfold getFilter
  cases atoi part with
  | some idx => by_cases h : idx < 0 <;> simp [h]
  | none =>
    by_cases h1 : part = ['-']
    · simp [h1]
    · by_cases h2 : part = ['*']
      · simp [h2]
      · by_cases h3 : isListIndex part = true
        · by_cases h4 : stringsContains part '=' = true <;> simp [h1, h2, h3, h4]
        · simp [h1, h2, h3]

theorem found_of_not_null (f : Node → Node × Res) (onNil : Res) (m : Node)
    (h : m.isNull = false) : found f onNil m = f m := by
  simp [found, h]

theorem found_of_null (f : Node → Node × Res) (onNil : Res) (m : Node)
    (h : m.isNull = true) : found f onNil m = (m, onNil) := by
  simp [found, h]

/-- A node from which a path leads to a node that is not null is not null itself. -/
theorem isNull_of_lookupNode (parts : List Str) (n t : Node)
    (h : lookupNode parts n = some t) (ht : t.isNull = false) : n.isNull = false := by
  cases parts with
  | nil =>
    simp only [lookupNode, Option.some.injEq] at h
    rw [h]
    exact ht
  | cons part rest =>
    cases n with
    | null w c =>
      rw [lookupNode] at h
      cases hg : getFilter Kind.SequenceNode part [] with
      | error e => simp [hg] at h
      | ok flt => cases flt <;> simp [hg] at h
    | scalar x => rfl
    | seq es => rfl
    | map fs => rfl

/-- When the path leads to a node `t` that is not null, the lookup creates nothing: it runs
the code `k` on `t` and puts the node `k` leaves in the place of `t`; so it does when the
path is empty, whatever the node. -/
theorem pathGetter_of_lookupNode (create : Kind) (k : PtrFn) (parts : List Str) (n t : Node)
    (h : lookupNode parts n = some t) (hor : t.isNull = false ∨ parts = []) :
    pathGetter create parts k n = (replaceNode (k.onNode t).1 parts n, (k.onNode t).2) := by
  induction parts generalizing n with
  | nil =>
    simp only [lookupNode, Option.some.injEq] at h
    subst h
    simp [pathGetter, replaceNode]
  | cons part rest ih =>
    have ht : t.isNull = false := by
      cases hor with
      | inl h1 => exact h1
      | inr h1 => exact absurd h1 (by simp)
    have ih := fun e he => ih e he (Or.inl ht)
    rw [pathGetter, getFilter_eq]
    rw [lookupNode] at h
    rw [replaceNode]
    cases hg : getFilter Kind.SequenceNode part [] with
    | error e => simp [hg] at h
    | ok flt =>
      cases flt with
      | elementMatcher => simp [hg] at h
      | elementIndexer index =>
        simp only [hg] at h ⊢
        cases n with
        | scalar x => simp at h
        | null w c => simp at h
        | map fs => simp at h
        | seq elems =>
          simp only [pathStep] at h ⊢
          by_cases hi : index = -1
          · simp only [hi, if_true] at h ⊢
            cases he : elems[elems.length - 1]? with
            | none => simp [he] at h
            | some e =>
              simp only [he, Option.some_bind] at h
              simp [focusNth_eq, he,
                found_of_not_null _ _ e (isNull_of_lookupNode rest e t h ht), ih e h]
          · simp only [hi, if_false] at h ⊢
            cases he : elems[index.toNat]? with
            | none => simp [he] at h
            | some e =>
              simp only [he, Option.some_bind] at h
              simp [focusNth_eq, he,
                found_of_not_null _ _ e (isNull_of_lookupNode rest e t h ht), ih e h]
      | fieldMatcher name kind =>
        simp only [hg] at h ⊢
        cases n with
        | scalar x => simp at h
        | null w c => simp at h
        | seq es => simp at h
        | map fields =>
          simp only [pathStep] at h ⊢
          cases hv : fieldValue name fields with
          | none => simp [hv] at h
          | some v =>
            simp only [hv, Option.some_bind] at h
            simp [focusField_eq, hv,
              found_of_not_null _ _ v (isNull_of_lookupNode rest v t h ht), ih v h]

theorem lookupNode_append (p q : List Str) (n : Node) :
    lookupNode (p ++ q) n = (lookupNode p n).bind (lookupNode q) := by
  induction p generalizing n with
  | nil => simp [lookupNode]
  | cons part rest ih =>
    simp only [List.cons_append, lookupNode]
    cases getFilter Kind.SequenceNode part [] with
    | error e => simp
    | ok flt =>
      cases flt with
      | elementMatcher => simp
      | elementIndexer index =>
        cases n with
        | scalar x => simp
        | map fs => simp
        | null w c => simp
        | seq elems =>
          simp only
          by_cases hi : index = -1
          · simp only [hi, if_true]
            cases elems[elems.length - 1]? with
            | none => simp
            | some e => simp [ih]
          · simp only [hi, if_false]
            cases elems[index.toNat]? with
            | none => simp
            | some e => simp [ih]
      | fieldMatcher name kind =>
        cases n with
        | scalar x => simp
        | null w c => simp
        | seq es => simp
        | map fields =>
          simp only
          cases fieldValue name fields with
          | none => simp
          | some v => simp [ih]

theorem replaceNode_append (new : Node) (p q : List Str) (n m : Node)
    (h : lookupNode p n = some m) :
    replaceNode new (p ++ q) n = replaceNode (replaceNode new q m) p n := by
  induction p generalizing n with
  | nil =>
    simp only [lookupNode, Option.some.injEq] at h
    subst h
    simp [replaceNode]
  | cons part rest ih =>
    simp only [List.cons_append, replaceNode]
    rw [lookupNode] at h
    cases hg : getFilter Kind.SequenceNode part [] with
    | error e => simp [hg] at h
    | ok flt =>
      cases flt with
      | elementMatcher => simp [hg] at h
      | elementIndexer index =>
        simp only [hg] at h ⊢
        cases n with
        | scalar x => simp at h
        | null w c => simp at h
        | map fs => simp at h
        | seq elems =>
          simp only at h ⊢
          by_cases hi : index = -1
          · simp only [hi, if_true] at h ⊢
            cases he : elems[elems.length - 1]? with
            | none => simp [he] at h
            | some e =>
              simp only [he, Option.some_bind] at h
              simp [ih e h]
          · simp only [hi, if_false] at h ⊢
            cases he : elems[index.toNat]? with
            | none => simp [he] at h
            | some e =>
              simp only [he, Option.some_bind] at h
              simp [ih e h]
      | fieldMatcher name kind =>
        simp only [hg] at h ⊢
        cases n with
        | scalar x => simp at h
        | null w c => simp at h
        | seq es => simp at h
        | map fields =>
          simp only at h ⊢
          cases hv : fieldValue name fields with
          | none => simp [hv] at h
          | some v =>
            simp only [hv, Option.some_bind] at h
            simp [ih v h]

theorem cleanPath_append (p q : List Str) : cleanPath (p ++ q) = cleanPath p ++ cleanPath q := by
  induction p with
  | nil => simp [cleanPath]
  | cons e rest ih =>
    by_cases h : trimSpace e = []
    · simp [cleanPath, h, ih]
    · simp [cleanPath, h, ih]

theorem focuses_nil (k : PtrFn) : Focuses k k [] := by
  intro n t h _
  simp only [lookupNode, Option.some.injEq] at h
  subst h
  simp [replaceNode]

theorem focuses_pipeLookupCreate (create : Kind) (path : List Str) (K k : PtrFn)
    (P : List Str) (hK : Focuses K k P) :
    Focuses (pipeLookupCreate create path K) k (cleanPath path ++ P) := by
  intro n t h hor
  rw [lookupNode_append] at h
  cases hm : lookupNode (cleanPath path) n with
  | none => simp [hm] at h
  | some m =>
    simp only [hm, Option.some_bind] at h
    rw [replaceNode_append _ _ _ _ _ hm]
    have hor1 : m.isNull = false ∨ cleanPath path = [] := by
      cases hor with
      | inl ht => exact Or.inl (isNull_of_lookupNode P m t h ht)
      | inr he => exact Or.inr (List.append_eq_nil.1 he).1
    have hor2 : t.isNull = false ∨ P = [] := by
      cases hor with
      | inl ht => exact Or.inl ht
      | inr he => exact Or.inr (List.append_eq_nil.1 he).2
    have h1 := pathGetter_of_lookupNode create K (cleanPath path) n m hm hor1
    have h2 := hK m t h hor2
    have h3 : (pipeLookupCreate create path K).onNode n
        = pathGetter create (cleanPath path) K n := by
      simp [PtrFn.onNode, pipeLookupCreate]
    rw [h3, h1, h2]

theorem focuses_navigate (K k : PtrFn) (P : List Str) (hK : Focuses K k P)
    (components : List Str) :
    Focuses (Main.navigate K components) k (cleanPath components ++ P) := by
  induction components with
  | nil => simpa [Main.navigate, cleanPath] using hK
  | cons c rest ih =>
    have h := focuses_pipeLookupCreate Kind.MappingNode [c] _ k _ ih
    rw [← List.append_assoc, ← cleanPath_append] at h
    simpa [Main.navigate] using h

/-- In the program of `src/cmd`, when the parsed and cleaned path leads to a node `t` that
is not null, `applyUpsert` runs `upsertArray` on `t` and changes nothing else in the
document. -/
theorem cmd_applyUpsert_of_lookupNode (item t : Node)
    (op : UpsertOperation Cmd.ResourceSelector) (parts : List Str)
    (hp : Cmd.parseJSONPath op.Path = some parts)
    (ht : lookupNode (cleanPath parts) item = some t)
    (hnn : t.isNull = false ∨ cleanPath parts = []) :
    Cmd.applyUpsert item op
      = (replaceNode ((upsertArray op.Values op.AllowDuplicates).onNode t).1
          (cleanPath parts) item,
        ((upsertArray op.Values op.AllowDuplicates).onNode t).2) := by
  unfold Cmd.applyUpsert
  rw [hp]
  have h := focuses_pipeLookupCreate Kind.SequenceNode parts _ _ [] (focuses_nil
    (upsertArray op.Values op.AllowDuplicates)) item t (by simpa using ht)
    (by simpa using hnn)
  simpa using h

/-- In the program of `src/main.go`, when the cleaned components of the path lead to a node
`t` that is not null, `applyUpsert` runs `upsertArray` on `t` and changes nothing else in the
document. -/
theorem main_applyUpsert_of_lookupNode (item t : Node)
    (op : UpsertOperation Main.ResourceSelector)
    (ht : lookupNode (cleanPath (stringsSplit '.' op.Path)) item = some t)
    (hnn : t.isNull = false ∨ cleanPath (stringsSplit '.' op.Path) = []) :
    Main.applyUpsert item op
      = (replaceNode ((upsertArray op.Values op.AllowDuplicates).onNode t).1
          (cleanPath (stringsSplit '.' op.Path)) item,
        ((upsertArray op.Values op.AllowDuplicates).onNode t).2) := by
  unfold Main.applyUpsert
  have hne := stringsSplit_ne_nil '.' op.Path
  have hsplit : stringsSplit '.' op.Path
      = (stringsSplit '.' op.Path).dropLast
        ++ [(stringsSplit '.' op.Path).getLast?.getD []] := by
    conv_lhs => rw [← List.dropLast_append_getLast hne]
    simp [List.getLast?_eq_getLast _ hne]
  have h := focuses_navigate _ _ _
    (focuses_pipeLookupCreate Kind.SequenceNode
      [(stringsSplit '.' op.Path).getLast?.getD []] _ _ [] (focuses_nil
        (upsertArray op.Values op.AllowDuplicates)))
    (stringsSplit '.' op.Path).dropLast item t
    (by
      rw [List.append_nil, ← cleanPath_append, ← hsplit]
      exact ht)
    (by
      rw [List.append_nil, ← cleanPath_append, ← hsplit]
      exact hnn)
  rw [List.append_nil, ← cleanPath_append, ← hsplit] at h
  exact h

theorem setFieldValue_self (name : Str) (v : Node) (fs : List (Str × Node))
    (h : fieldValue name fs = some v) : setFieldValue name v fs = fs := by
  induction fs with
  | nil => simp [setFieldValue]
  | cons kv fs ih =>
    obtain ⟨key, w⟩ := kv
    by_cases hk : key = name
    · simp only [fieldValue, hk, if_true, Option.some.injEq] at h
      simp [setFieldValue, hk, h]
    · simp only [fieldValue, hk, if_false] at h
      simp [setFieldValue, hk, ih h]

theorem set_getElem?_self (l : List Node) (i : Nat) (e : Node) (h : l[i]? = some e) :
    l.set i e = l := by
  induction l generalizing i with
  | nil => simp
  | cons a l ih =>
    cases i with
    | zero =>
      simp only [List.getElem?_cons_zero, Option.some.injEq] at h
      simp [h]
    | succ i =>
      simp only [List.getElem?_cons_succ] at h
      simp [ih i h]

/-- Putting back the node the path leads to changes nothing. -/
theorem replaceNode_self (p : List Str) (n t : Node) (h : lookupNode p n = some t) :
    replaceNode t p n = n := by
  induction p generalizing n with
  | nil =>
    simp only [lookupNode, Option.some.injEq] at h
    simp [replaceNode, h]
  | cons part rest ih =>
    rw [lookupNode] at h
    rw [replaceNode]
    cases hg : getFilter Kind.SequenceNode part [] with
    | error e => simp [hg] at h
    | ok flt =>
      cases flt with
      | elementMatcher => simp [hg] at h
      | elementIndexer index =>
        simp only [hg] at h ⊢
        cases n with
        | scalar x => simp at h
        | map fs => simp at h
        | null w c => simp at h
        | seq elems =>
          simp only at h ⊢
          by_cases hi : index = -1
          · simp only [hi, if_true] at h ⊢
            cases he : elems[elems.length - 1]? with
            | none => simp [he] at h
            | some e =>
              simp only [he, Option.some_bind] at h
              simp only [ih e h, set_getElem?_self elems _ e he]
          · simp only [hi, if_false] at h ⊢
            cases he : elems[index.toNat]? with
            | none => simp [he] at h
            | some e =>
              simp only [he, Option.some_bind] at h
              simp only [ih e h, set_getElem?_self elems _ e he]
      | fieldMatcher name kind =>
        simp only [hg] at h ⊢
        cases n with
        | scalar x => simp at h
        | null w c => simp at h
        | seq es => simp at h
        | map fields =>
          simp only at h ⊢
          cases hv : fieldValue name fields with
          | none => simp [hv] at h
          | some v =>
            simp only [hv, Option.some_bind] at h
            simp [ih v h, setFieldValue_self name v fields hv]

theorem fieldValue_setFieldValue (name : Str) (new v : Node) (fs : List (Str × Node))
    (h : fieldValue name fs = some v) :
    fieldValue name (setFieldValue name new fs) = some new := by
  induction fs with
  | nil => simp [fieldValue] at h
  | cons kv fs ih =>
    obtain ⟨key, w⟩ := kv
    by_cases hk : key = name
    · simp [fieldValue, setFieldValue, hk]
    · simp only [fieldValue, hk, if_false] at h
      simp [fieldValue, setFieldValue, hk, ih h]

/-- After a replacement the path leads to the node that was put there. -/
theorem lookupNode_replaceNode (new : Node) (p : List Str) (n t : Node)
    (h : lookupNode p n = some t) :
    lookupNode p (replaceNode new p n) = some new := by
  induction p generalizing n with
  | nil => simp [lookupNode, replaceNode]
  | cons part rest ih =>
    rw [lookupNode] at h
    rw [replaceNode]
    cases hg : getFilter Kind.SequenceNode part [] with
    | error e => simp [hg] at h
    | ok flt =>
      cases flt with
      | elementMatcher => simp [hg] at h
      | elementIndexer index =>
        simp only [hg] at h ⊢
        cases n with
        | scalar x => simp at h
        | map fs => simp at h
        | null w c => simp at h
        | seq elems =>
          simp only at h ⊢
          by_cases hi : index = -1
          · simp only [hi, if_true] at h ⊢
            cases he : elems[elems.length - 1]? with
            | none => simp [he] at h
            | some e =>
              simp only [he, Option.some_bind] at h
              have hlt : elems.length - 1 < elems.length := by
                rcases List.getElem?_eq_some.1 he with ⟨hl, _⟩
                exact hl
              simp [lookupNode, hg, hi, hlt, ih e h]
          · simp only [hi, if_false] at h ⊢
            cases he : elems[index.toNat]? with
            | none => simp [he] at h
            | some e =>
              simp only [he, Option.some_bind] at h
              have hlt : index.toNat < elems.length := by
                rcases List.getElem?_eq_some.1 he with ⟨hl, _⟩
                exact hl
              simp [lookupNode, hg, hi, hlt, ih e h]
      | fieldMatcher name kind =>
        simp only [hg] at h ⊢
        cases n with
        | scalar x => simp at h
        | null w c => simp at h
        | seq es => simp at h
        | map fields =>
          simp only at h ⊢
          cases hv : fieldValue name fields with
          | none => simp [hv] at h
          | some v =>
            simp only [hv, Option.some_bind] at h
            simp [lookupNode, hg, fieldValue_setFieldValue name _ v fields hv, ih v h]

/-- A node from which a non-empty path leads somewhere is not null. -/
theorem isNull_of_lookupNode_cons (part : Str) (rest : List Str) (n t : Node)
    (h : lookupNode (part :: rest) n = some t) : n.isNull = false := by
  cases n with
  | null w c =>
    rw [lookupNode] at h
    cases hg : getFilter Kind.SequenceNode part [] with
    | error e => simp [hg] at h
    | ok flt => cases flt <;> simp [hg] at h
  | scalar x => rfl
  | seq es => rfl
  | map fs => rfl

/-- When a non-empty beginning of the path leads to a null node, the lookup returns the nil
pointer: nothing is created, the document stays as it is and the code `k` runs on the nil
pointer. -/
theorem pathGetter_null_cons (create : Kind) (k : PtrFn) (q rest : List Str) :
    ∀ (part : Str) (n t : Node), lookupNode (part :: rest) n = some t → t.isNull = true →
      pathGetter create (part :: (rest ++ q)) k n = (n, k.onNil) := by
  induction rest with
  | nil =>
    intro part n t h ht
    rw [pathGetter, getFilter_eq]
    rw [lookupNode] at h
    cases hg : getFilter Kind.SequenceNode part [] with
    | error e => simp [hg] at h
    | ok flt =>
      cases flt with
      | elementMatcher => simp [hg] at h
      | elementIndexer index =>
        simp only [hg] at h ⊢
        cases n with
        | scalar x => simp at h
        | null w c => simp at h
        | map fs => simp at h
        | seq elems =>
          simp only [pathStep] at h ⊢
          by_cases hi : index = -1
          · simp only [hi, if_true] at h ⊢
            cases he : elems[elems.length - 1]? with
            | none => simp [he] at h
            | some e =>
              simp only [he, Option.some_bind, lookupNode, Option.some.injEq] at h
              subst h
              simp [focusNth_eq, he, found_of_null _ _ e ht, set_getElem?_self elems _ e he]
          · simp only [hi, if_false] at h ⊢
            cases he : elems[index.toNat]? with
            | none => simp [he] at h
            | some e =>
              simp only [he, Option.some_bind, lookupNode, Option.some.injEq] at h
              subst h
              simp [focusNth_eq, he, found_of_null _ _ e ht, set_getElem?_self elems _ e he]
      | fieldMatcher name kind =>
        simp only [hg] at h ⊢
        cases n with
        | scalar x => simp at h
        | null w c => simp at h
        | seq es => simp at h
        | map fields =>
          simp only [pathStep] at h ⊢
          cases hv : fieldValue name fields with
          | none => simp [hv] at h
          | some v =>
            simp only [hv, Option.some_bind, lookupNode, Option.some.injEq] at h
            subst h
            simp [focusField_eq, hv, found_of_null _ _ v ht, setFieldValue_self name v fields hv]
  | cons p r ih =>
    intro part n t h ht
    rw [pathGetter, getFilter_eq]
    rw [lookupNode] at h
    cases hg : getFilter Kind.SequenceNode part [] with
    | error e => simp [hg] at h
    | ok flt =>
      cases flt with
      | elementMatcher => simp [hg] at h
      | elementIndexer index =>
        simp only [hg] at h ⊢
        cases n with
        | scalar x => simp at h
        | null w c => simp at h
        | map fs => simp at h
        | seq elems =>
          simp only [pathStep] at h ⊢
          by_cases hi : index = -1
          · simp only [hi, if_true] at h ⊢
            cases he : elems[elems.length - 1]? with
            | none => simp [he] at h
            | some e =>
              simp only [he, Option.some_bind] at h
              simp [focusNth_eq, he,
                found_of_not_null _ _ e (isNull_of_lookupNode_cons p r e t h), ih p e t h ht,
                set_getElem?_self elems _ e he]
          · simp only [hi, if_false] at h ⊢
            cases he : elems[index.toNat]? with
            | none => simp [he] at h
            | some e =>
              simp only [he, Option.some_bind] at h
              simp [focusNth_eq, he,
                found_of_not_null _ _ e (isNull_of_lookupNode_cons p r e t h), ih p e t h ht,
                set_getElem?_self elems _ e he]
      | fieldMatcher name kind =>
        simp only [hg] at h ⊢
        cases n with
        | scalar x => simp at h
        | null w c => simp at h
        | seq es => simp at h
        | map fields =>
          simp only [pathStep] at h ⊢
          cases hv : fieldValue name fields with
          | none => simp [hv] at h
          | some v =>
            simp only [hv, Option.some_bind] at h
            simp [focusField_eq, hv,
              found_of_not_null _ _ v (isNull_of_lookupNode_cons p r v t h), ih p v t h ht,
              setFieldValue_self name v fields hv]

theorem pathGetter_append_of_lookupNode_null (create : Kind) (k : PtrFn)
    (parts q : List Str) (n t : Node) (h : lookupNode parts n = some t)
    (ht : t.isNull = true) (hne : parts ≠ []) :
    pathGetter create (parts ++ q) k n = (n, k.onNil) := by
  cases parts with
  | nil => exact absurd rfl hne
  | cons part rest =>
    rw [List.cons_append]
    exact pathGetter_null_cons create k q rest part n t h ht

theorem pathGetter_of_lookupNode_null (create : Kind) (k : PtrFn) (parts : List Str)
    (n t : Node) (h : lookupNode parts n = some t) (ht : t.isNull = true)
    (hne : parts ≠ []) : pathGetter create parts k n = (n, k.onNil) := by
  have h1 := pathGetter_append_of_lookupNode_null create k parts [] n t h ht hne
  rwa [List.append_nil] at h1

theorem endsAtNull_nil (k : PtrFn) : EndsAtNull k k.onNil [] :=
  ⟨rfl, fun _ _ _ _ hne => absurd rfl hne⟩

theorem endsAtNull_pipeLookupCreate (create : Kind) (path : List Str) (K : PtrFn) (r : Res)
    (P : List Str) (hK : EndsAtNull K r P) :
    EndsAtNull (pipeLookupCreate create path K) r (cleanPath path ++ P) := by
  refine ⟨by simpa [PtrFn.onNil, pipeLookupCreate] using hK.1, ?_⟩
  intro n t h ht hne
  rw [lookupNode_append] at h
  cases hm : lookupNode (cleanPath path) n with
  | none => simp [hm] at h
  | some m =>
    simp only [hm, Option.some_bind] at h
    have h3 : (pipeLookupCreate create path K).onNode n
        = pathGetter create (cleanPath path) K n := by
      simp [PtrFn.onNode, pipeLookupCreate]
    rw [h3]
    cases P with
    | nil =>
      simp only [lookupNode, Option.some.injEq] at h
      subst h
      rw [pathGetter_of_lookupNode_null create K _ n m hm ht (by simpa using hne), hK.1]
    | cons q qs =>
      rw [pathGetter_of_lookupNode create K _ n m hm
          (Or.inl (isNull_of_lookupNode_cons q qs m t h)),
        hK.2 m t h ht (by simp), replaceNode_self _ _ _ hm]

theorem endsAtNull_navigate (K : PtrFn) (r : Res) (P : List Str) (hK : EndsAtNull K r P)
    (components : List Str) :
    EndsAtNull (Main.navigate K components) r (cleanPath components ++ P) := by
  induction components with
  | nil => simpa [Main.navigate, cleanPath] using hK
  | cons c rest ih =>
    have h := endsAtNull_pipeLookupCreate Kind.MappingNode [c] _ r _ ih
    rw [← List.append_assoc, ← cleanPath_append] at h
    simpa [Main.navigate] using h

/-- In the program of `src/cmd`, when the parsed and cleaned path is not empty and leads to
a null node, `applyUpsert` succeeds and leaves the document as it is. -/
theorem cmd_applyUpsert_of_lookupNode_null (item t : Node)
    (op : UpsertOperation Cmd.ResourceSelector) (parts : List Str)
    (hp : Cmd.parseJSONPath op.Path = some parts)
    (ht : lookupNode (cleanPath parts) item = some t) (hnull : t.isNull = true)
    (hne : cleanPath parts ≠ []) :
    Cmd.applyUpsert item op = (item, Outcome.ok ()) := by
  unfold Cmd.applyUpsert
  rw [hp]
  have h := (endsAtNull_pipeLookupCreate Kind.SequenceNode parts _ _ []
    (endsAtNull_nil (upsertArray op.Values op.AllowDuplicates))).2 item t
    (by simpa using ht) hnull (by simpa using hne)
  rw [upsertArray_onNil] at h
  simpa using h

/-- In the program of `src/main.go`, when the cleaned components of the path are not empty
and lead to a null node, `applyUpsert` succeeds and leaves the document as it is. -/
theorem main_applyUpsert_of_lookupNode_null (item t : Node)
    (op : UpsertOperation Main.ResourceSelector)
    (ht : lookupNode (cleanPath (stringsSplit '.' op.Path)) item = some t)
    (hnull : t.isNull = true) (hne : cleanPath (stringsSplit '.' op.Path) ≠ []) :
    Main.applyUpsert item op = (item, Outcome.ok ()) := by
  unfold Main.applyUpsert
  have hnes := stringsSplit_ne_nil '.' op.Path
  have hsplit : stringsSplit '.' op.Path
      = (stringsSplit '.' op.Path).dropLast
        ++ [(stringsSplit '.' op.Path).getLast?.getD []] := by
    conv_lhs => rw [← List.dropLast_append_getLast hnes]
    simp [List.getLast?_eq_getLast _ hnes]
  have h := (endsAtNull_navigate _ _ _
    (endsAtNull_pipeLookupCreate Kind.SequenceNode
      [(stringsSplit '.' op.Path).getLast?.getD []] _ _ [] (endsAtNull_nil
        (upsertArray op.Values op.AllowDuplicates)))
    (stringsSplit '.' op.Path).dropLast).2 item t
    (by
      rw [List.append_nil, ← cleanPath_append, ← hsplit]
      exact ht) hnull
    (by
      rw [List.append_nil, ← cleanPath_append, ← hsplit]
      exact hne)
  rw [upsertArray_onNil] at h
  exact h

/-! ## Array upsert -/

theorem upsertArray_onNode_seq (values : List Str) (allow : Bool) (content : List Node) :
    (upsertArray values allow).onNode (Node.seq content)
      = (Node.seq (content ++
          (values.filter (fun v => allow || !contains (content.map Node.value) v)).map
            newScalarRNode),
        Outcome.ok ()) := by
  simp [PtrFn.onNode, upsertArray_seq]

theorem filter_not_contains (E V : List Str) :
    V.filter (fun v => false || !contains E v) = V.filter (fun v => decide (v ∉ E)) := by
  apply List.filter_congr
  intro v _
  by_cases hv : v ∈ E
  · simp [hv, (contains_iff E v).2 hv]
  · have : contains E v = false := by
      cases hc : contains E v with
      | false => rfl
      | true => exact absurd ((contains_iff E v).1 hc) hv
    simp [hv, this]

theorem map_value_scalar (E : List Str) : (E.map Node.scalar).map Node.value = E := by
  simp [List.map_map, Function.comp_def, Node.value]

/-- C1: with `allowDuplicates=false`, on a sequence whose elements are the scalars `E` the
upsert succeeds and leaves the sequence equal to `E` followed by the values of `V`, in the
order of `V`, that do not occur in `E`. In both programs, when the path of the operation leads
to such a sequence, `applyUpsert` succeeds and the document afterwards is the document with
that sequence replaced by the extended one. -/
theorem upsert_suppresses_duplicates (E V : List Str) (item : Node) (path : Str)
    (parts : List Str) (tc : Cmd.ResourceSelector) (tl : Main.ResourceSelector) :
    upsertArray V false (some (Node.seq (E.map Node.scalar)))
        = (some (Node.seq ((E ++ V.filter (fun v => decide (v ∉ E))).map Node.scalar)),
          Outcome.ok ())
      ∧ (Cmd.parseJSONPath path = some parts →
          lookupNode (cleanPath parts) item = some (Node.seq (E.map Node.scalar)) →
          Cmd.applyUpsert item
              { Target := tc, Path := path, Values := V, AllowDuplicates := false }
            = (replaceNode
                (Node.seq ((E ++ V.filter (fun v => decide (v ∉ E))).map Node.scalar))
                (cleanPath parts) item,
              Outcome.ok ()))
      ∧ (lookupNode (cleanPath (stringsSplit '.' path)) item
            = some (Node.seq (E.map Node.scalar)) →
          Main.applyUpsert item
              { Target := tl, Path := path, Values := V, AllowDuplicates := false }
            = (replaceNode
                (Node.seq ((E ++ V.filter (fun v => decide (v ∉ E))).map Node.scalar))
                (cleanPath (stringsSplit '.' path)) item,
              Outcome.ok ())) := by
  have hseq : ∀ c : List Node, c = E.map Node.scalar →
      c ++ (V.filter (fun v => false || !contains (c.map Node.value) v)).map newScalarRNode
        = (E ++ V.filter (fun v => decide (v ∉ E))).map Node.scalar := by
    intro c hc
    subst hc
    rw [map_value_scalar, filter_not_contains]
    simp [newScalarRNode, List.map_append]
  refine ⟨?_, ?_, ?_⟩
  · rw [upsertArray_seq, hseq _ rfl]
  · intro hp ht
    rw [cmd_applyUpsert_of_lookupNode item _ _ parts hp ht (Or.inl rfl)]
    simp only [upsertArray_onNode_seq]
    rw [hseq _ rfl]
  · intro ht
    rw [main_applyUpsert_of_lookupNode item (Node.seq _) _ ht (Or.inl rfl)]
    simp only [upsertArray_onNode_seq]
    rw [hseq _ rfl]

/-- The duplicate-suppression example of both programs: `[a, b]` with values `[b, c]` becomes
`[a, b, c]`. -/
theorem upsert_suppresses_duplicates_witness :
    Cmd.applyUpsert (argsDoc ["a", "b"]) (argsOp _ {} ["b", "c"] false)
        = (argsDoc ["a", "b", "c"], Outcome.ok ())
      ∧ Main.applyUpsert (argsDoc ["a", "b"]) (argsOp _ {} ["b", "c"] false)
        = (argsDoc ["a", "b", "c"], Outcome.ok ()) :=
  ⟨((upsert_suppresses_duplicates ["a".toList, "b".toList] ["b".toList, "c".toList]
      (argsDoc ["a", "b"]) "spec.args".toList ["spec".toList, "args".toList] {} {}).2.1
      (by decide) (by decide)).trans (by decide),
    ((upsert_suppresses_duplicates ["a".toList, "b".toList] ["b".toList, "c".toList]
      (argsDoc ["a", "b"]) "spec.args".toList ["spec".toList, "args".toList] {} {}).2.2
      (by decide)).trans (by decide)⟩

/-- C3: with `allowDuplicates=true`, on a sequence with content `E` the upsert succeeds and
leaves the sequence equal to `E` followed by every value of `V` as a scalar, in order. In both
programs, when the path of the operation leads to such a sequence, `applyUpsert` succeeds and
the document afterwards is the document with that sequence replaced by the extended one. -/
theorem upsert_allows_duplicates (E : List Node) (V : List Str) (item : Node) (path : Str)
    (parts : List Str) (tc : Cmd.ResourceSelector) (tl : Main.ResourceSelector) :
    upsertArray V true (some (Node.seq E))
        = (some (Node.seq (E ++ V.map Node.scalar)), Outcome.ok ())
      ∧ (Cmd.parseJSONPath path = some parts →
          lookupNode (cleanPath parts) item = some (Node.seq E) →
          Cmd.applyUpsert item
              { Target := tc, Path := path, Values := V, AllowDuplicates := true }
            = (replaceNode (Node.seq (E ++ V.map Node.scalar)) (cleanPath parts) item,
              Outcome.ok ()))
      ∧ (lookupNode (cleanPath (stringsSplit '.' path)) item = some (Node.seq E) →
          Main.applyUpsert item
              { Target := tl, Path := path, Values := V, AllowDuplicates := true }
            = (replaceNode (Node.seq (E ++ V.map Node.scalar))
                (cleanPath (stringsSplit '.' path)) item,
              Outcome.ok ())) := by
  have hseq : E ++ (V.filter (fun v => true || !contains (E.map Node.value) v)).map
      newScalarRNode = E ++ V.map Node.scalar := by
    simp [newScalarRNode]
  refine ⟨?_, ?_, ?_⟩
  · rw [upsertArray_seq, hseq]
  · intro hp ht
    rw [cmd_applyUpsert_of_lookupNode item _ _ parts hp ht (Or.inl rfl)]
    simp only [upsertArray_onNode_seq]
    rw [hseq]
  · intro ht
    rw [main_applyUpsert_of_lookupNode item (Node.seq _) _ ht (Or.inl rfl)]
    simp only [upsertArray_onNode_seq]
    rw [hseq]

/-- The duplicates-allowed example of both programs: `[a, b]` with values `[b, c]` becomes
`[a, b, b, c]`. -/
theorem upsert_allows_duplicates_witness :
    Cmd.applyUpsert (argsDoc ["a", "b"]) (argsOp _ {} ["b", "c"] true)
        = (argsDoc ["a", "b", "b", "c"], Outcome.ok ())
      ∧ Main.applyUpsert (argsDoc ["a", "b"]) (argsOp _ {} ["b", "c"] true)
        = (argsDoc ["a", "b", "b", "c"], Outcome.ok ()) :=
  ⟨((upsert_allows_duplicates [Node.scalar "a".toList, Node.scalar "b".toList]
      ["b".toList, "c".toList]
      (argsDoc ["a", "b"]) "spec.args".toList ["spec".toList, "args".toList] {} {}).2.1
      (by decide) (by decide)).trans (by decide),
    ((upsert_allows_duplicates [Node.scalar "a".toList, Node.scalar "b".toList]
      ["b".toList, "c".toList]
      (argsDoc ["a", "b"]) "spec.args".toList ["spec".toList, "args".toList] {} {}).2.2
      (by decide)).trans (by decide)⟩

theorem upsertArray_ok (values : List Str) (allowDuplicates : Bool)
    (arrayNode : Node) (p : Option Node)
    (h : upsertArray values allowDuplicates (some arrayNode) = (p, Outcome.ok ())) :
    ∃ after, p = some after ∧ after.kind = arrayNode.kind ∧
      arrayNode.content <+: after.content := by
  cases arrayNode with
  | seq c =>
    rw [upsertArray_seq] at h
    refine ⟨_, (congrArg Prod.fst h).symm, rfl, ?_⟩
    simp [Node.content]
  | null w c =>
    rw [upsertArray_null] at h
    refine ⟨_, (congrArg Prod.fst h).symm, rfl, ?_⟩
    simp [Node.content]
  | scalar x =>
    have h1 := appendValues_not_seq allowDuplicates [] values (Node.scalar x) (by simp) rfl
    cases allowDuplicates with
    | false => simp [upsertArray, getArrayValues, elements] at h
    | true =>
      simp only [upsertArray] at h
      simp only [Bool.not_true, Bool.false_eq_true, if_false] at h
      rw [h] at h1
      exact ⟨_, h1, rfl, List.prefix_refl _⟩
  | map fs =>
    have h1 := appendValues_not_seq allowDuplicates [] values (Node.map fs) (by simp) rfl
    cases allowDuplicates with
    | false => simp [upsertArray, getArrayValues, elements] at h
    | true =>
      simp only [upsertArray] at h
      simp only [Bool.not_true, Bool.false_eq_true, if_false] at h
      rw [h] at h1
      exact ⟨_, h1, rfl, List.prefix_refl _⟩

theorem upsertArray_onNode_ok (values : List Str) (allowDuplicates : Bool) (t : Node)
    (h : ((upsertArray values allowDuplicates).onNode t).2 = Outcome.ok ()) :
    ((upsertArray values allowDuplicates).onNode t).1.kind = t.kind ∧
      t.content <+: ((upsertArray values allowDuplicates).onNode t).1.content := by
  have h0 : upsertArray values allowDuplicates (some t)
      = ((upsertArray values allowDuplicates (some t)).1, Outcome.ok ()) := by
    simp only [PtrFn.onNode] at h
    rw [← h]
  obtain ⟨after, ha, hk, hc⟩ := upsertArray_ok values allowDuplicates t _ h0
  simp only [PtrFn.onNode, ha, Option.getD_some]
  exact ⟨hk, hc⟩

/-- C4: whenever the code of `applyUpsert` that follows the lookup succeeds on a node, for
either setting of `allowDuplicates`, the node keeps its kind and the elements it had are an
initial segment of the elements it has afterwards, unchanged and in the same order. In both
programs, when the path leads to a node `t` before a successful `applyUpsert`, it leads
afterwards to a node of the same kind whose elements start with the elements of `t`. -/
theorem upsert_only_appends (item t : Node) (parts : List Str)
    (opc : UpsertOperation Cmd.ResourceSelector)
    (opl : UpsertOperation Main.ResourceSelector) :
    (∀ values allowDuplicates arrayNode p,
        upsertArray values allowDuplicates (some arrayNode) = (p, Outcome.ok ()) →
        ∃ after, p = some after ∧ after.kind = arrayNode.kind ∧
          arrayNode.content <+: after.content)
      ∧ (Cmd.parseJSONPath opc.Path = some parts →
          lookupNode (cleanPath parts) item = some t →
          (Cmd.applyUpsert item opc).2 = Outcome.ok () →
          ∃ after, lookupNode (cleanPath parts) (Cmd.applyUpsert item opc).1 = some after ∧
            after.kind = t.kind ∧ t.content <+: after.content)
      ∧ (lookupNode (cleanPath (stringsSplit '.' opl.Path)) item = some t →
          (Main.applyUpsert item opl).2 = Outcome.ok () →
          ∃ after, lookupNode (cleanPath (stringsSplit '.' opl.Path))
              (Main.applyUpsert item opl).1 = some after ∧
            after.kind = t.kind ∧ t.content <+: after.content) := by
  refine ⟨upsertArray_ok, ?_, ?_⟩
  · intro hp ht hok
    by_cases hnn : t.isNull = false ∨ cleanPath parts = []
    · rw [cmd_applyUpsert_of_lookupNode item t opc parts hp ht hnn] at hok ⊢
      obtain ⟨hk, hc⟩ := upsertArray_onNode_ok _ _ t hok
      exact ⟨_, lookupNode_replaceNode _ _ _ _ ht, hk, hc⟩
    · rw [not_or] at hnn
      rw [cmd_applyUpsert_of_lookupNode_null item t opc parts hp ht (by simpa using hnn.1)
        hnn.2]
      exact ⟨t, ht, rfl, List.prefix_refl _⟩
  · intro ht hok
    by_cases hnn : t.isNull = false ∨ cleanPath (stringsSplit '.' opl.Path) = []
    · rw [main_applyUpsert_of_lookupNode item t opl ht hnn] at hok ⊢
      obtain ⟨hk, hc⟩ := upsertArray_onNode_ok _ _ t hok
      exact ⟨_, lookupNode_replaceNode _ _ _ _ ht, hk, hc⟩
    · rw [not_or] at hnn
      rw [main_applyUpsert_of_lookupNode_null item t opl ht (by simpa using hnn.1) hnn.2]
      exact ⟨t, ht, rfl, List.prefix_refl _⟩

/-- After the examples, `spec.args` still starts with `a`, `b`. -/
theorem upsert_only_appends_witness :
    (∃ after, lookupNode ["spec".toList, "args".toList]
          (Cmd.applyUpsert (argsDoc ["a", "b"]) (argsOp _ {} ["b", "c"] false)).1 = some after ∧
        after.kind = Kind.SequenceNode ∧
        [Node.scalar "a".toList, Node.scalar "b".toList] <+: after.content)
      ∧ (∃ after, lookupNode ["spec".toList, "args".toList]
          (Main.applyUpsert (argsDoc ["a", "b"]) (argsOp _ {} ["b", "c"] true)).1
            = some after ∧
        after.kind = Kind.SequenceNode ∧
        [Node.scalar "a".toList, Node.scalar "b".toList] <+: after.content) :=
  ⟨(upsert_only_appends (argsDoc ["a", "b"])
      (Node.seq [Node.scalar "a".toList, Node.scalar "b".toList])
      ["spec".toList, "args".toList] (argsOp _ {} ["b", "c"] false)
      (argsOp _ {} ["b", "c"] true)).2.1 (by decide) (by decide) (by decide),
    (upsert_only_appends (argsDoc ["a", "b"])
      (Node.seq [Node.scalar "a".toList, Node.scalar "b".toList])
      ["spec".toList, "args".toList] (argsOp _ {} ["b", "c"] false)
      (argsOp _ {} ["b", "c"] true)).2.2 (by decide) (by decide)⟩

/-! ## Idempotence -/

theorem onNode_stable (k : PtrFn) (hp : k.Proper) (hs : k.Stable) (n : Node)
    (h : (k.onNode n).2 = Outcome.ok ()) :
    k.onNode (k.onNode n).1 = ((k.onNode n).1, Outcome.ok ()) := by
  obtain ⟨n1, hn1⟩ := hp.2.1 n
  have h1 : (k (some n)).2 = Outcome.ok () := by simpa [PtrFn.onNode] using h
  have h2 := hs (some n) h1
  rw [hn1] at h2
  simp [PtrFn.onNode, hn1, h2]

theorem setFieldValue_setFieldValue (name : Str) (a b : Node) (fs : List (Str × Node)) :
    setFieldValue name a (setFieldValue name b fs) = setFieldValue name a fs := by
  induction fs with
  | nil => simp [setFieldValue]
  | cons kv fs ih =>
    obtain ⟨key, w⟩ := kv
    by_cases hk : key = name
    · simp [setFieldValue, hk]
    · simp [setFieldValue, hk, ih]

theorem fieldValue_append_new (name : Str) (v : Node) (fs : List (Str × Node))
    (h : fieldValue name fs = none) :
    fieldValue name (fs ++ [(name, v)]) = some v := by
  induction fs with
  | nil => simp [fieldValue]
  | cons kv fs ih =>
    obtain ⟨key, w⟩ := kv
    by_cases hk : key = name
    · simp [fieldValue, hk] at h
    · simp only [fieldValue, hk, if_false] at h
      simp [fieldValue, hk, ih h]

theorem setFieldValue_append_new (name : Str) (a v : Node) (fs : List (Str × Node))
    (h : fieldValue name fs = none) :
    setFieldValue name a (fs ++ [(name, v)]) = fs ++ [(name, a)] := by
  induction fs with
  | nil => simp [setFieldValue]
  | cons kv fs ih =>
    obtain ⟨key, w⟩ := kv
    by_cases hk : key = name
    · simp [fieldValue, hk] at h
    · simp only [fieldValue, hk, if_false] at h
      simp [setFieldValue, hk, ih h]

theorem ofKind_isNull (kind : Kind) : (Node.ofKind kind).isNull = false := by
  cases kind <;> rfl

/-- A step of a lookup returns a sequence for a sequence, a mapping for a mapping, a null node
for a null node. -/
theorem pathStep_isNull (f : Node → Node × Res) (onNil : Res) (flt : Except Err PathFilter)
    (n : Node) : (pathStep f onNil flt n).1.isNull = n.isNull := by
  cases flt with
  | error e => rfl
  | ok flt =>
    cases flt with
    | elementMatcher => cases n <;> rfl
    | elementIndexer index =>
      cases n with
      | scalar x => rfl
      | map fs => rfl
      | null w c =>
        simp only [pathStep]
        by_cases hi : index = -1
        · simp only [hi, if_true]
          cases focusNth (found f onNil) (c.length - 1) c <;> rfl
        · simp only [hi, if_false]
          cases focusNth (found f onNil) index.toNat c <;> rfl
      | seq elems =>
        simp only [pathStep]
        by_cases hi : index = -1
        · simp only [hi, if_true]
          cases focusNth (found f onNil) (elems.length - 1) elems <;> rfl
        · simp only [hi, if_false]
          cases focusNth (found f onNil) index.toNat elems <;> rfl
    | fieldMatcher name kind =>
      cases n with
      | scalar x => rfl
      | null w c => rfl
      | seq es => rfl
      | map fields =>
        simp only [pathStep]
        cases focusField (found f onNil) name fields <;> rfl

theorem pathGetter_isNull (create : Kind) (k : PtrFn)
    (hk : ∀ n, (k.onNode n).1.isNull = n.isNull) (parts : List Str) (n : Node) :
    (pathGetter create parts k n).1.isNull = n.isNull := by
  cases parts with
  | nil => exact hk n
  | cons part rest =>
    rw [pathGetter]
    exact pathStep_isNull _ _ _ n

/-- What happens at a node a filter returned, when it succeeded, happens again on the node it
left, without a change. -/
theorem found_stable (f : Node → Node × Res) (onNil : Res)
    (hf : ∀ m, (f m).2 = Outcome.ok () → f (f m).1 = ((f m).1, Outcome.ok ()))
    (hfn : ∀ m, (f m).1.isNull = m.isNull) (m : Node)
    (h : (found f onNil m).2 = Outcome.ok ()) :
    found f onNil (found f onNil m).1 = ((found f onNil m).1, Outcome.ok ()) := by
  by_cases hm : m.isNull = true
  · rw [found_of_null f onNil m hm] at h ⊢
    simp only at h ⊢
    rw [found_of_null f onNil m hm, h]
  · have hm : m.isNull = false := by simpa using hm
    rw [found_of_not_null f onNil m hm] at h ⊢
    rw [found_of_not_null f onNil _ ((hfn m).trans hm)]
    exact hf m h

/-- One step of a lookup that succeeded, run again on the node it left, finds what it
created and creates nothing more. -/
theorem pathStep_stable (f : Node → Node × Res) (onNil : Res)
    (hf : ∀ m, (f m).2 = Outcome.ok () → f (f m).1 = ((f m).1, Outcome.ok ()))
    (hfn : ∀ m, (f m).1.isNull = m.isNull)
    (flt : Except Err PathFilter) (n : Node)
    (h : (pathStep f onNil flt n).2 = Outcome.ok ()) :
    pathStep f onNil flt (pathStep f onNil flt n).1
      = ((pathStep f onNil flt n).1, Outcome.ok ()) := by
  have hg := found_stable f onNil hf hfn
  cases flt with
  | error e => simp [pathStep] at h
  | ok flt =>
    cases flt with
    | elementMatcher => cases n <;> simp [pathStep] at h
    | elementIndexer index =>
      cases n with
      | scalar x => simp [pathStep] at h
      | map fs => simp [pathStep] at h
      | null w elems =>
        simp only [pathStep] at h ⊢
        by_cases hi : index = -1
        · simp only [hi, if_true, focusNth_eq] at h ⊢
          cases he : elems[elems.length - 1]? with
          | none => simp [he] at h
          | some e =>
            simp only [he, Option.map_some'] at h ⊢
            have hlt : elems.length - 1 < elems.length :=
              (List.getElem?_eq_some.1 he).1
            simp [pathStep, focusNth_eq, hlt, hg e h]
        · simp only [hi, if_false, focusNth_eq] at h ⊢
          cases he : elems[index.toNat]? with
          | none =>
            simp only [he, Option.map_none'] at h ⊢
            simp [pathStep, hi, focusNth_eq, he, h]
          | some e =>
            simp only [he, Option.map_some'] at h ⊢
            have hlt : index.toNat < elems.length :=
              (List.getElem?_eq_some.1 he).1
            simp [pathStep, hi, focusNth_eq, hlt, hg e h]
      | seq elems =>
        simp only [pathStep] at h ⊢
        by_cases hi : index = -1
        · simp only [hi, if_true, focusNth_eq] at h ⊢
          cases he : elems[elems.length - 1]? with
          | none => simp [he] at h
          | some e =>
            simp only [he, Option.map_some'] at h ⊢
            have hlt : elems.length - 1 < elems.length :=
              (List.getElem?_eq_some.1 he).1
            simp [pathStep, focusNth_eq, hlt, hg e h]
        · simp only [hi, if_false, focusNth_eq] at h ⊢
          cases he : elems[index.toNat]? with
          | none =>
            simp only [he, Option.map_none'] at h ⊢
            simp [pathStep, hi, focusNth_eq, he, h]
          | some e =>
            simp only [he, Option.map_some'] at h ⊢
            have hlt : index.toNat < elems.length :=
              (List.getElem?_eq_some.1 he).1
            simp [pathStep, hi, focusNth_eq, hlt, hg e h]
    | fieldMatcher name kind =>
      cases n with
      | scalar x => simp [pathStep] at h
      | null w c =>
        simp only [pathStep] at h ⊢
        rw [h]
      | seq es => simp [pathStep] at h
      | map fields =>
        simp only [pathStep, focusField_eq] at h ⊢
        cases hv : fieldValue name fields with
        | none =>
          simp only [hv, Option.map_none'] at h ⊢
          simp [pathStep, focusField_eq, fieldValue_append_new name _ fields hv,
            setFieldValue_append_new name _ _ fields hv,
            found_of_not_null f onNil _ ((hfn _).trans (ofKind_isNull kind)), hf _ h]
        | some v =>
          simp only [hv, Option.map_some'] at h ⊢
          simp [pathStep, focusField_eq, fieldValue_setFieldValue name _ v fields hv,
            setFieldValue_setFieldValue, hg v h]

/-- A lookup that succeeded, run again on the document it left, finds every node it created
and creates nothing more. -/
theorem pathGetter_stable (create : Kind) (k : PtrFn) (hp : k.Proper) (hs : k.Stable)
    (parts : List Str) (n : Node)
    (h : (pathGetter create parts k n).2 = Outcome.ok ()) :
    pathGetter create parts k (pathGetter create parts k n).1
      = ((pathGetter create parts k n).1, Outcome.ok ()) := by
  induction parts generalizing n with
  | nil => exact onNode_stable k hp hs n h
  | cons part rest ih =>
    rw [pathGetter] at h
    have hstep : ∀ m, pathGetter create (part :: rest) k m
        = pathStep (pathGetter create rest k) k.onNil
            (getFilter create part (rest.headD [])) m := by
      intro m
      rw [pathGetter]
    rw [hstep n, hstep]
    exact pathStep_stable _ _ ih (pathGetter_isNull create k hp.2.2 rest) _ n h

theorem pipeLookupCreate_proper (create : Kind) (path : List Str) (k : PtrFn)
    (hk : ∀ n, (k.onNode n).1.isNull = n.isNull) :
    (pipeLookupCreate create path k).Proper :=
  ⟨rfl, fun _ => ⟨_, rfl⟩, fun n => by
    simpa [PtrFn.onNode, pipeLookupCreate] using pathGetter_isNull create k hk _ n⟩

theorem pipeLookupCreate_stable (create : Kind) (path : List Str) (k : PtrFn)
    (hp : k.Proper) (hs : k.Stable) : (pipeLookupCreate create path k).Stable := by
  intro p h
  cases p with
  | none =>
    simp only [pipeLookupCreate] at h ⊢
    rw [h]
  | some n =>
    simp only [pipeLookupCreate] at h ⊢
    rw [pathGetter_stable create k hp hs _ n h]

theorem navigate_proper (k : PtrFn) (hp : k.Proper) (components : List Str) :
    (Main.navigate k components).Proper := by
  induction components with
  | nil => simpa [Main.navigate] using hp
  | cons c rest ih => exact pipeLookupCreate_proper _ _ _ ih.2.2

theorem navigate_stable (k : PtrFn) (hp : k.Proper) (hs : k.Stable)
    (components : List Str) : (Main.navigate k components).Stable := by
  induction components with
  | nil => simpa [Main.navigate] using hs
  | cons c rest ih =>
    exact pipeLookupCreate_stable _ _ _ (navigate_proper k hp rest) ih

theorem upsertArray_proper (values : List Str) (allow : Bool) :
    (upsertArray values allow).Proper := by
  have hnode : ∀ n, ∃ n1, (upsertArray values allow (some n)).1 = some n1
      ∧ n1.isNull = n.isNull := by
    intro n
    cases n with
    | seq c => exact ⟨_, congrArg Prod.fst (upsertArray_seq values allow c), rfl⟩
    | null w c => exact ⟨_, congrArg Prod.fst (upsertArray_null values allow w c), rfl⟩
    | scalar x =>
      cases allow with
      | false =>
        exact ⟨Node.scalar x, by simp [upsertArray, getArrayValues, elements], rfl⟩
      | true =>
        exact ⟨Node.scalar x, by
          simpa [upsertArray] using
            appendValues_not_seq true [] values (Node.scalar x) (by simp) rfl, rfl⟩
    | map fs =>
      cases allow with
      | false => exact ⟨Node.map fs, by simp [upsertArray, getArrayValues, elements], rfl⟩
      | true =>
        exact ⟨Node.map fs, by
          simpa [upsertArray] using
            appendValues_not_seq true [] values (Node.map fs) (by simp) rfl, rfl⟩
  refine ⟨?_, fun n => ⟨_, (hnode n).choose_spec.1⟩, ?_⟩
  · cases allow <;> simp [upsertArray, getArrayValues, appendValues_nil]
  · intro n
    obtain ⟨n1, h1, h2⟩ := hnode n
    simp [PtrFn.onNode, h1, h2]

/-- After an upsert without duplicates every value is among the `Value`s of the elements, so
the same upsert appends nothing more. -/
theorem filter_after_upsert (values : List Str) (content : List Node) :
    values.filter (fun v => false || !contains
        ((content ++ (values.filter
          (fun v => false || !contains (content.map Node.value) v)).map newScalarRNode).map
            Node.value) v) = [] := by
  rw [List.filter_eq_nil_iff]
  intro v hv
  simp only [Bool.false_or, Bool.not_eq_true', Bool.not_eq_false]
  rw [contains_iff]
  by_cases hc : contains (content.map Node.value) v = true
  · rw [contains_iff] at hc
    simp only [List.map_append, List.mem_append]
    exact Or.inl hc
  · simp only [List.map_append, List.mem_append]
    right
    simp only [List.map_map, List.mem_map, List.mem_filter, Function.comp_apply]
    refine ⟨v, ⟨hv, ?_⟩, rfl⟩
    simpa using hc

theorem upsertArray_stable (values : List Str) : (upsertArray values false).Stable := by
  intro p h
  cases p with
  | none =>
    have h0 : upsertArray values false none = (none, Outcome.ok ()) := by
      simp [upsertArray, getArrayValues, appendValues_nil]
    rw [h0]
    exact h0
  | some n =>
    cases n with
    | seq c =>
      rw [upsertArray_seq] at h ⊢
      simp only
      rw [upsertArray_seq, filter_after_upsert]
      simp
    | null w c =>
      rw [upsertArray_null] at h ⊢
      simp only
      rw [upsertArray_null, filter_after_upsert]
      simp
    | scalar x => simp [upsertArray, getArrayValues, elements] at h
    | map fs => simp [upsertArray, getArrayValues, elements] at h

/-- C2: with `allowDuplicates=false`, for every document, path and list of values, when
`applyUpsert` succeeds, applying the same operation to the document it left succeeds again and
leaves that document as it is; this holds in both programs. -/
theorem upsert_idempotent (item : Node) (path : Str) (values : List Str)
    (tc : Cmd.ResourceSelector) (tl : Main.ResourceSelector) :
    ((Cmd.applyUpsert item
          { Target := tc, Path := path, Values := values, AllowDuplicates := false }).2
        = Outcome.ok () →
      Cmd.applyUpsert
          (Cmd.applyUpsert item
            { Target := tc, Path := path, Values := values, AllowDuplicates := false }).1
          { Target := tc, Path := path, Values := values, AllowDuplicates := false }
        = ((Cmd.applyUpsert item
            { Target := tc, Path := path, Values := values, AllowDuplicates := false }).1,
          Outcome.ok ()))
    ∧ ((Main.applyUpsert item
          { Target := tl, Path := path, Values := values, AllowDuplicates := false }).2
        = Outcome.ok () →
      Main.applyUpsert
          (Main.applyUpsert item
            { Target := tl, Path := path, Values := values, AllowDuplicates := false }).1
          { Target := tl, Path := path, Values := values, AllowDuplicates := false }
        = ((Main.applyUpsert item
            { Target := tl, Path := path, Values := values, AllowDuplicates := false }).1,
          Outcome.ok ())) := by
  constructor
  · intro h
    unfold Cmd.applyUpsert at h ⊢
    cases hparse : Cmd.parseJSONPath path with
    | none => simp [hparse] at h
    | some parts =>
      simp only [hparse] at h ⊢
      exact onNode_stable _ (pipeLookupCreate_proper _ _ _ (upsertArray_proper _ _).2.2)
        (pipeLookupCreate_stable _ _ _ (upsertArray_proper _ _) (upsertArray_stable _)) item h
  · intro h
    unfold Main.applyUpsert at h ⊢
    exact onNode_stable _
      (navigate_proper _ (pipeLookupCreate_proper _ _ _ (upsertArray_proper _ _).2.2) _)
      (navigate_stable _ (pipeLookupCreate_proper _ _ _ (upsertArray_proper _ _).2.2)
        (pipeLookupCreate_stable _ _ _ (upsertArray_proper _ _) (upsertArray_stable _)) _)
      item h

/-- The values `[x, x]` on `{}` give `{spec: {args: [x, x]}}`, and a second application in
either program leaves that document as it is. -/
theorem upsert_idempotent_witness :
    Cmd.applyUpsert (Node.map [])
        { Target := {}, Path := "spec.args".toList, Values := ["x".toList, "x".toList],
          AllowDuplicates := false }
      = (argsDoc ["x", "x"], Outcome.ok ())
    ∧ Cmd.applyUpsert (argsDoc ["x", "x"])
        { Target := {}, Path := "spec.args".toList, Values := ["x".toList, "x".toList],
          AllowDuplicates := false }
      = (argsDoc ["x", "x"], Outcome.ok ())
    ∧ Main.applyUpsert (argsDoc ["x", "x"])
        { Target := {}, Path := "spec.args".toList, Values := ["x".toList, "x".toList],
          AllowDuplicates := false }
      = (argsDoc ["x", "x"], Outcome.ok ()) :=
  ⟨by decide,
    (upsert_idempotent (Node.map []) "spec.args".toList ["x".toList, "x".toList] {} {}).1
      (by decide),
    (upsert_idempotent (Node.map []) "spec.args".toList ["x".toList, "x".toList] {} {}).2
      (by decide)⟩

/-! ## Wildcard selector -/

/-- A `Content` slice of even length is read to its end without a panic. -/
theorem getMapFieldValue_even (field : Str) :
    ∀ (n : Nat) (content : List Node), content.length = 2 * n →
      ∃ r, getMapFieldValue field content = Outcome.ok r := by
  intro n
  induction n with
  | zero =>
    intro content h
    cases content with
    | nil => exact ⟨none, rfl⟩
    | cons c cs => simp at h
  | succ n ih =>
    intro content h
    cases content with
    | nil => exact ⟨none, rfl⟩
    | cons key rest =>
      cases rest with
      | nil => simp at h; omega
      | cons v rest2 =>
        simp only [getMapFieldValue]
        by_cases hk : key.value = field
        · exact ⟨some v, by rw [if_pos hk]⟩
        · rw [if_neg hk]
          exact ih rest2 (by simp only [List.length_cons] at h; omega)

/-- The accessors read the identity of a document whose `Content` and whose `metadata`, if
it has one that is not empty, are of even length, which holds of mappings and scalars. -/
theorem fromRNode_ok (item : Node) (n : Nat) (hitem : item.content.length = 2 * n)
    (hmeta : ∀ md, getMetaData item = Outcome.ok (some md) →
      ∃ m, md.content.length = 2 * m) :
    ∃ id, Cmd.fromRNode item = Outcome.ok id := by
  have hfield : ∀ field, ∃ v, getStringField field item.content = Outcome.ok v := by
    intro field
    obtain ⟨r, hr⟩ := getMapFieldValue_even field n item.content hitem
    cases r with
    | none => exact ⟨[], by simp [getStringField, hr, Outcome.bind]⟩
    | some v => exact ⟨v.value, by simp [getStringField, hr, Outcome.bind]⟩
  have hmd : ∃ r, getMetaData item = Outcome.ok r := by
    unfold getMetaData
    by_cases hn : item.isNull = true
    · exact ⟨none, by rw [if_pos hn]⟩
    · rw [if_neg hn]
      obtain ⟨r, hr⟩ := getMapFieldValue_even "metadata".toList n item.content hitem
      rw [hr]
      cases r with
      | none => exact ⟨none, rfl⟩
      | some md =>
        by_cases he : isYNodeNilOrEmpty md = true
        · exact ⟨none, by simp [Outcome.bind, he]⟩
        · exact ⟨some md, by simp [Outcome.bind, he]⟩
  have hms : ∀ fName, ∃ v, getMetaStringField fName item = Outcome.ok v := by
    intro fName
    obtain ⟨r, hr⟩ := hmd
    unfold getMetaStringField
    rw [hr]
    cases r with
    | none => exact ⟨[], rfl⟩
    | some md =>
      obtain ⟨m, hm⟩ := hmeta md hr
      obtain ⟨r2, hr2⟩ := getMapFieldValue_even fName m md.content hm
      cases r2 with
      | none => exact ⟨[], by simp [Outcome.bind, hr2]⟩
      | some v =>
        by_cases he : isYNodeNilOrEmpty v = true
        · exact ⟨[], by simp [Outcome.bind, hr2, he]⟩
        · exact ⟨v.value, by simp [Outcome.bind, hr2, he]⟩
  obtain ⟨a, ha⟩ := hfield "apiVersion".toList
  obtain ⟨k, hk⟩ := hfield "kind".toList
  obtain ⟨nm, hnm⟩ := hms "name".toList
  obtain ⟨ns, hns⟩ := hms "namespace".toList
  unfold Cmd.fromRNode getApiVersion getKind getName getNamespace
  rw [ha, hk, hnm, hns]
  exact ⟨_, rfl⟩

/-- C10: the selector with every field unset. The exact-match `matchesTarget` returns true on
every document, whatever its identity; it calls no accessor. The regex-capable
`matchesTarget` returns true, without error, on every document whose identity
`resid.FromRNode` reads, with the modelled `regexp` package and with every `regexp`
implementation that compiles the empty pattern; such are the documents whose `Content` and
whose `metadata` are of even length, mappings and scalars among them. It reads the identity
of every document before it looks at the selector, and does not return when an accessor
panics: so on `{metadata: [name]}`, where the name has no value next to it. The exact-match
`matchesTarget` panics on that document when the selector sets a name. -/
theorem wildcard_selector_matches (item : Node) :
    Main.matchesTarget item {} = Outcome.ok true
      ∧ (∀ id, Cmd.fromRNode item = Outcome.ok id →
          Cmd.matchesTarget goRegexp item {} = Outcome.ok true)
      ∧ (∀ (lib : RegexpLib) (r : lib.Regexp) (id : Cmd.ResId),
          lib.compile [] = Outcome.ok r → Cmd.fromRNode item = Outcome.ok id →
          Cmd.matchesTarget lib item {} = Outcome.ok true)
      ∧ (∀ n, item.content.length = 2 * n →
          (∀ md, getMetaData item = Outcome.ok (some md) → ∃ m, md.content.length = 2 * m) →
          Cmd.matchesTarget goRegexp item {} = Outcome.ok true)
      ∧ Cmd.matchesTarget goRegexp oddMetadataDoc {} = Outcome.panic
      ∧ Main.matchesTarget oddMetadataDoc { Name := "web".toList } = Outcome.panic := by
  have hgen : ∀ (lib : RegexpLib) (r : lib.Regexp) (id : Cmd.ResId),
      lib.compile [] = Outcome.ok r → Cmd.fromRNode item = Outcome.ok id →
      Cmd.matchesTarget lib item {} = Outcome.ok true := by
    intro lib r id h hid
    simp [Cmd.matchesTarget, hid, Outcome.bind, Cmd.newSelectorRegex, Cmd.anchorRegex, h,
      Cmd.matchGvk, Cmd.matchName, Cmd.matchNamespace]
  refine ⟨?_, fun id hid => hgen goRegexp Rx.empty id rfl hid, hgen, ?_, by decide,
    by decide⟩
  · simp [Main.matchesTarget, Main.differs, Outcome.bind]
  · intro n hitem hmeta
    obtain ⟨id, hid⟩ := fromRNode_ok item n hitem hmeta
    exact hgen goRegexp Rx.empty id rfl hid

/-- The modelled `regexp` package compiles the empty pattern, the accessors read the identity
of the example document, and the unset selector matches it. -/
theorem wildcard_selector_matches_witness :
    goRegexp.compile [] = Outcome.ok Rx.empty
      ∧ Cmd.matchesTarget goRegexp (argsDoc ["a"]) {} = Outcome.ok true :=
  ⟨rfl, (wildcard_selector_matches (argsDoc ["a"])).2.2.1 goRegexp Rx.empty
    { Gvk := { Group := [], Version := [], Kind := [] }, Name := [], Namespace := [] }
    rfl (by decide)⟩

end KustomizeUpsert

/-! ## Lookups as chains -/

namespace KustomizeUpsert

theorem chain_append (a b : List (Kind × Str)) (k : PtrFn) :
    chain (a ++ b) k = chain a (chain b k) := by
  induction a with
  | nil => rfl
  | cons x rest ih =>
    obtain ⟨kind, c⟩ := x
    simp [chain, ih]

theorem navigate_eq_chain (k : PtrFn) (components : List Str) :
    Main.navigate k components
      = chain (components.map (fun c => (Kind.MappingNode, c))) k := by
  induction components with
  | nil => rfl
  | cons c rest ih => simp [Main.navigate, chain, ih]

/-- The program of `src/main.go` is the chain of the lookups of its path components. -/
theorem main_applyUpsert_eq_chain (item : Node) (op : UpsertOperation Main.ResourceSelector) :
    Main.applyUpsert item op
      = (chain (mainSteps (stringsSplit '.' op.Path))
          (upsertArray op.Values op.AllowDuplicates)).onNode item := by
  unfold Main.applyUpsert mainSteps
  simp only [navigate_eq_chain, chain_append]
  rfl

/-- The components a chain walks are the components of the path. -/
theorem mainSteps_components (pathComponents : List Str) (h : pathComponents ≠ []) :
    (mainSteps pathComponents).map Prod.snd = pathComponents := by
  unfold mainSteps
  simp only [List.map_append, List.map_map, List.map_cons, List.map_nil]
  have : (Prod.snd ∘ fun c : Str => (Kind.MappingNode, c)) = id := by
    funext c
    rfl
  rw [this, List.map_id, List.getLast?_eq_getLast _ h]
  simpa using List.dropLast_append_getLast h

theorem onNode_pipeLookupCreate (create : Kind) (path : List Str) (k : PtrFn) (n : Node) :
    (pipeLookupCreate create path k).onNode n = pathGetter create (cleanPath path) k n := by
  simp [PtrFn.onNode, pipeLookupCreate]

/-- When the first part of the path leads to a node `t` that is not null, the lookup creates
nothing on the way: it continues from `t` with the rest of the path. -/
theorem pathGetter_append_of_lookupNode (create : Kind) (k : PtrFn) (p q : List Str)
    (n t : Node) (h : lookupNode p n = some t) (ht : t.isNull = false) :
    pathGetter create (p ++ q) k n
      = (replaceNode (pathGetter create q k t).1 p n, (pathGetter create q k t).2) := by
  induction p generalizing n with
  | nil =>
    simp only [lookupNode, Option.some.injEq] at h
    subst h
    simp [replaceNode]
  | cons part rest ih =>
    rw [List.cons_append, pathGetter, getFilter_eq]
    rw [lookupNode] at h
    rw [replaceNode]
    cases hg : getFilter Kind.SequenceNode part [] with
    | error e => simp [hg] at h
    | ok flt =>
      cases flt with
      | elementMatcher => simp [hg] at h
      | elementIndexer index =>
        simp only [hg] at h ⊢
        cases n with
        | scalar x => simp at h
        | map fs => simp at h
        | null w c => simp at h
        | seq elems =>
          simp only [pathStep] at h ⊢
          by_cases hi : index = -1
          · simp only [hi, if_true] at h ⊢
            cases he : elems[elems.length - 1]? with
            | none => simp [he] at h
            | some e =>
              simp only [he, Option.some_bind] at h
              simp [focusNth_eq, he,
                found_of_not_null _ _ e (isNull_of_lookupNode rest e t h ht), ih e h]
          · simp only [hi, if_false] at h ⊢
            cases he : elems[index.toNat]? with
            | none => simp [he] at h
            | some e =>
              simp only [he, Option.some_bind] at h
              simp [focusNth_eq, he,
                found_of_not_null _ _ e (isNull_of_lookupNode rest e t h ht), ih e h]
      | fieldMatcher name kind =>
        simp only [hg] at h ⊢
        cases n with
        | scalar x => simp at h
        | null w c => simp at h
        | seq es => simp at h
        | map fields =>
          simp only [pathStep] at h ⊢
          cases hv : fieldValue name fields with
          | none => simp [hv] at h
          | some v =>
            simp only [hv, Option.some_bind] at h
            simp [focusField_eq, hv,
              found_of_not_null _ _ v (isNull_of_lookupNode rest v t h ht), ih v h]

/-- On a scalar the filter of any path part fails and leaves the scalar as it is. -/
theorem pathGetter_scalar (create : Kind) (k : PtrFn) (part : Str) (rest : List Str)
    (v : Str) :
    pathGetter create (part :: rest) k (Node.scalar v)
      = (Node.scalar v, scalarFailure part) := by
  rw [pathGetter, getFilter_eq]
  unfold scalarFailure
  cases hg : getFilter Kind.SequenceNode part [] with
  | error e => simp [pathStep]
  | ok flt => cases flt <;> simp [pathStep]

theorem scalarFailure_ne_ok (part : Str) : scalarFailure part ≠ Outcome.ok () := by
  unfold scalarFailure
  cases hg : getFilter Kind.SequenceNode part [] with
  | error e => simp
  | ok flt => cases flt <;> simp

theorem scalarFailure_error (part : Str) : ∃ e, scalarFailure part = Outcome.error e := by
  unfold scalarFailure
  cases hg : getFilter Kind.SequenceNode part [] with
  | error e => exact ⟨e, rfl⟩
  | ok flt => exact ⟨_, rfl⟩

theorem chain_onNil (steps : List (Kind × Str)) (k : PtrFn) :
    (chain steps k).onNil = k.onNil := by
  induction steps with
  | nil => rfl
  | cons x rest ih =>
    obtain ⟨kind, c⟩ := x
    simpa [chain, PtrFn.onNil, pipeLookupCreate] using ih

theorem endsAtNull_chain (steps : List (Kind × Str)) (k : PtrFn) :
    EndsAtNull (chain steps k) k.onNil (cleanPath (steps.map Prod.snd)) := by
  induction steps with
  | nil => simpa [chain, cleanPath] using endsAtNull_nil k
  | cons x rest ih =>
    obtain ⟨kind, c⟩ := x
    have h := endsAtNull_pipeLookupCreate kind [c] _ _ _ ih
    rw [← cleanPath_append] at h
    simpa [chain] using h

theorem focuses_chain (steps : List (Kind × Str)) (k : PtrFn) :
    Focuses (chain steps k) k (cleanPath (steps.map Prod.snd)) := by
  induction steps with
  | nil => simpa [chain, cleanPath] using focuses_nil k
  | cons x rest ih =>
    obtain ⟨kind, c⟩ := x
    have h := focuses_pipeLookupCreate kind [c] _ k _ ih
    rw [← cleanPath_append] at h
    simpa [chain] using h

/-- When the components of the first lookups lead to a node `t`, the chain creates nothing on
the way and continues from `t` with the remaining lookups. -/
theorem chain_append_of_lookupNode (a b : List (Kind × Str)) (k : PtrFn) (n t : Node)
    (h : lookupNode (cleanPath (a.map Prod.snd)) n = some t) (ht : t.isNull = false) :
    (chain (a ++ b) k).onNode n
      = (replaceNode ((chain b k).onNode t).1 (cleanPath (a.map Prod.snd)) n,
          ((chain b k).onNode t).2) := by
  rw [chain_append]
  exact focuses_chain a (chain b k) n t h (Or.inl ht)

theorem chain_blank (steps : List (Kind × Str)) (k : PtrFn) (n : Node)
    (h : cleanPath (steps.map Prod.snd) = []) :
    (chain steps k).onNode n = k.onNode n := by
  induction steps with
  | nil => rfl
  | cons x rest ih =>
    obtain ⟨kind, c⟩ := x
    simp only [List.map_cons, cleanPath] at h
    by_cases hc : trimSpace c = []
    · simp only [hc, if_true] at h
      rw [chain, onNode_pipeLookupCreate]
      simp only [cleanPath, hc, if_true, pathGetter]
      exact ih h
    · simp [hc] at h

/-- On a scalar a chain with a component left fails and leaves the scalar as it is. -/
theorem chain_scalar (steps : List (Kind × Str)) (k : PtrFn) (v : Str) (next : Str)
    (post : List Str) (h : cleanPath (steps.map Prod.snd) = next :: post) :
    (chain steps k).onNode (Node.scalar v) = (Node.scalar v, scalarFailure next) := by
  induction steps with
  | nil => simp [cleanPath] at h
  | cons x rest ih =>
    obtain ⟨kind, c⟩ := x
    simp only [List.map_cons, cleanPath] at h
    rw [chain, onNode_pipeLookupCreate]
    by_cases hc : trimSpace c = []
    · simp only [hc, if_true] at h
      simp only [cleanPath, hc, if_true, pathGetter]
      exact ih h
    · simp only [hc, if_false, List.cons.injEq] at h
      simp only [cleanPath, hc, if_false]
      rw [pathGetter_scalar, h.1]

theorem cleanPath_split (l : List (Kind × Str)) (pre q : List Str)
    (h : cleanPath (l.map Prod.snd) = pre ++ q) :
    ∃ a b, l = a ++ b ∧ cleanPath (a.map Prod.snd) = pre ∧ cleanPath (b.map Prod.snd) = q := by
  induction l generalizing pre with
  | nil =>
    have h0 : pre ++ q = [] := by simpa [cleanPath] using h.symm
    have hp : pre = [] := (List.append_eq_nil.1 h0).1
    have hq : q = [] := (List.append_eq_nil.1 h0).2
    exact ⟨[], [], rfl, by simp [cleanPath, hp], by simp [cleanPath, hq]⟩
  | cons x rest ih =>
    obtain ⟨kind, c⟩ := x
    simp only [List.map_cons, cleanPath] at h
    by_cases hc : trimSpace c = []
    · simp only [hc, if_true] at h
      obtain ⟨a, b, hab, ha, hb⟩ := ih pre h
      refine ⟨(kind, c) :: a, b, by simp [hab], ?_, hb⟩
      simp [cleanPath, hc, ha]
    · simp only [hc, if_false] at h
      cases pre with
      | nil =>
        refine ⟨[], (kind, c) :: rest, rfl, by simp [cleanPath], ?_⟩
        simpa [cleanPath, hc] using h
      | cons p pre1 =>
        simp only [List.cons_append, List.cons.injEq] at h
        obtain ⟨a, b, hab, ha, hb⟩ := ih pre1 h.2
        refine ⟨(kind, c) :: a, b, by simp [hab], ?_, hb⟩
        simp [cleanPath, hc, ha, ← h.1]

/-! ## The segments of `parseJSONPath` are never `[name=value]` parts -/

theorem stringsContains_iff (s : Str) (c : Char) : stringsContains s c = true ↔ c ∈ s := by
  unfold stringsContains
  rw [List.any_eq_true]
  constructor
  · rintro ⟨d, hd, he⟩
    have : d = c := by simpa using he
    exact this ▸ hd
  · intro h
    exact ⟨c, h, by simp⟩

theorem isListIndex_mem (p : Str) (h : isListIndex p = true) : '[' ∈ p ∧ ']' ∈ p := by
  simp only [isListIndex, Bool.and_eq_true, beq_iff_eq] at h
  exact ⟨List.mem_of_mem_head? h.1, List.mem_of_mem_getLast? h.2⟩

theorem mem_of_mem_trimSpace (s : Str) (c : Char) (h : c ∈ trimSpace s) : c ∈ s := by
  unfold trimSpace at h
  exact (List.dropWhile_sublist _).subset ((List.rdropWhile_prefix _ _).sublist.subset h)

theorem mem_cleanPath (parts : List Str) (seg : Str) (h : seg ∈ cleanPath parts) :
    ∃ p ∈ parts, seg = trimSpace p := by
  induction parts with
  | nil => simp [cleanPath] at h
  | cons e rest ih =>
    by_cases he : trimSpace e = []
    · simp only [cleanPath, he, if_true] at h
      obtain ⟨p, hp, hs⟩ := ih h
      exact ⟨p, List.mem_cons_of_mem _ hp, hs⟩
    · simp only [cleanPath, he, if_false, List.mem_cons] at h
      rcases h with rfl | h
      · exact ⟨e, List.mem_cons_self _ _, rfl⟩
      · obtain ⟨p, hp, hs⟩ := ih h
        exact ⟨p, List.mem_cons_of_mem _ hp, hs⟩

/-- The text before the first occurrence of a character does not contain it. -/
theorem not_mem_take_stringsIndex (s : Str) (c : Char) :
    c ∉ s.take (stringsIndex s c).toNat := by
  induction s with
  | nil => simp
  | cons d ds ih =>
    by_cases h : d = c
    · simp [stringsIndex, h]
    · simp only [stringsIndex, h, if_false]
      by_cases hneg : stringsIndex ds c < 0
      · simp [hneg]
      · simp only [hneg, if_false]
        have hnn : 0 ≤ stringsIndex ds c := by omega
        have ht : (stringsIndex ds c + 1).toNat = (stringsIndex ds c).toNat + 1 := by omega
        rw [ht, List.take_succ_cons]
        simp only [List.mem_cons, not_or]
        exact ⟨fun e => h e.symm, ih⟩

theorem parsePart_segments (part : Str) (segs : List Str)
    (h : Cmd.parsePart part = some segs) :
    ∀ seg ∈ segs, ¬ ('[' ∈ seg ∧ ']' ∈ seg) := by
  unfold Cmd.parsePart at h
  by_cases hb : (stringsContains part '[' && stringsContains part ']') = true
  · rw [if_pos hb] at h
    unfold goSlice at h
    by_cases h1 : 0 ≤ (0 : Int) ∧ (0 : Int) ≤ stringsIndex part '[' ∧
        stringsIndex part '[' ≤ (part.length : Int)
    · rw [if_pos h1] at h
      by_cases h2 : 0 ≤ stringsIndex part '[' + 1 ∧
          stringsIndex part '[' + 1 ≤ stringsIndex part ']' ∧
          stringsIndex part ']' ≤ (part.length : Int)
      · rw [if_pos h2] at h
        simp only [Option.some.injEq] at h
        subst h
        intro seg hseg
        simp only [List.mem_cons, List.mem_singleton, List.not_mem_nil, or_false] at hseg
        rcases hseg with rfl | rfl
        · intro hc
          have := not_mem_take_stringsIndex part '['
          simp only [Int.toNat_zero, List.drop_zero] at hc
          exact this hc.1
        · intro hc
          exact not_mem_take_stringsIndex part ']' (List.mem_of_mem_drop hc.2)
      · rw [if_neg h2] at h
        simp at h
    · rw [if_neg h1] at h
      simp at h
  · rw [if_neg hb] at h
    simp only [Option.some.injEq] at h
    subst h
    intro seg hseg
    simp only [List.mem_singleton] at hseg
    subst hseg
    intro hc
    apply hb
    simp [stringsContains_iff, hc.1, hc.2]

theorem parseLoop_segments (pieces result out : List Str)
    (h : Cmd.parseLoop pieces result = some out)
    (hr : ∀ seg ∈ result, ¬ ('[' ∈ seg ∧ ']' ∈ seg)) :
    ∀ seg ∈ out, ¬ ('[' ∈ seg ∧ ']' ∈ seg) := by
  induction pieces generalizing result with
  | nil =>
    simp only [Cmd.parseLoop, Option.some.injEq] at h
    subst h
    exact hr
  | cons part rest ih =>
    rw [Cmd.parseLoop] at h
    cases hp : Cmd.parsePart part with
    | none => simp [hp] at h
    | some segs =>
      simp only [hp] at h
      apply ih _ h
      intro seg hseg
      rcases List.mem_append.1 hseg with h1 | h1
      · exact hr seg h1
      · exact parsePart_segments part segs hp seg h1

/-- No cleaned segment of a parsed path starts with `[` and ends with `]`. -/
theorem parseJSONPath_not_listIndex (path : Str) (parts : List Str)
    (h : Cmd.parseJSONPath path = some parts) :
    ∀ seg ∈ cleanPath parts, isListIndex seg = false := by
  intro seg hseg
  obtain ⟨p, hp, hs⟩ := mem_cleanPath parts seg hseg
  have hP := parseLoop_segments _ [] parts h (by simp) p hp
  cases hl : isListIndex seg with
  | false => rfl
  | true =>
    exfalso
    have hm := isListIndex_mem seg hl
    rw [hs] at hm
    exact hP ⟨mem_of_mem_trimSpace p _ hm.1, mem_of_mem_trimSpace p _ hm.2⟩

/-! ## Kind conflicts -/

/-- C11, as stated, fails for the null scalar: on `{spec: null}` an operation with path
`spec.args` and values `[x]` returns no error in either program; the lookup stops at the null
and returns the nil pointer, nothing is appended and the document stays `{spec: null}`. -/
theorem null_field_gives_no_error :
    Cmd.applyUpsert nullSpecDoc (argsOp _ {} ["x"] false) = (nullSpecDoc, Outcome.ok ())
      ∧ Main.applyUpsert nullSpecDoc (argsOp _ {} ["x"] false)
        = (nullSpecDoc, Outcome.ok ()) := by
  decide

/-- C11, amended: when a part of the path that is not the last leads to a scalar that is not
null, `applyUpsert` returns an error and the document is left as it was, the scalar included,
in both programs; `{spec: "notAMap"}` with path `spec.args` fails with "wrong Node Kind".
When it leads to a null, `applyUpsert` returns no error, appends nothing and leaves the
document as it was, in both programs. -/
theorem kind_conflict_intermediate (item : Node) (v : Str) (pre post : List Str) (next : Str)
    (path : Str) (parts : List Str) (values : List Str) (allowDuplicates : Bool)
    (tc : Cmd.ResourceSelector) (tm : Main.ResourceSelector) (w : Str) (c : List Node) :
    (Cmd.parseJSONPath path = some parts →
        cleanPath parts = pre ++ next :: post →
        lookupNode pre item = some (Node.scalar v) →
        ∃ e, Cmd.applyUpsert item
            { Target := tc, Path := path, Values := values,
              AllowDuplicates := allowDuplicates }
          = (item, Outcome.error e))
      ∧ (cleanPath (stringsSplit '.' path) = pre ++ next :: post →
        lookupNode pre item = some (Node.scalar v) →
        ∃ e, Main.applyUpsert item
            { Target := tm, Path := path, Values := values,
              AllowDuplicates := allowDuplicates }
          = (item, Outcome.error e))
      ∧ (Cmd.parseJSONPath path = some parts →
        cleanPath parts = pre ++ next :: post → pre ≠ [] →
        lookupNode pre item = some (Node.null w c) →
        Cmd.applyUpsert item
            { Target := tc, Path := path, Values := values,
              AllowDuplicates := allowDuplicates }
          = (item, Outcome.ok ()))
      ∧ (cleanPath (stringsSplit '.' path) = pre ++ next :: post → pre ≠ [] →
        lookupNode pre item = some (Node.null w c) →
        Main.applyUpsert item
            { Target := tm, Path := path, Values := values,
              AllowDuplicates := allowDuplicates }
          = (item, Outcome.ok ())) := by
  refine ⟨?_, ?_, ?_, ?_⟩
  · intro hp hsplit hl
    obtain ⟨e, he⟩ := scalarFailure_error next
    refine ⟨e, ?_⟩
    unfold Cmd.applyUpsert
    simp only [hp]
    rw [onNode_pipeLookupCreate, hsplit,
      pathGetter_append_of_lookupNode _ _ _ _ _ _ hl rfl,
      pathGetter_scalar, replaceNode_self _ _ _ hl, he]
  · intro hsplit hl
    obtain ⟨e, he⟩ := scalarFailure_error next
    refine ⟨e, ?_⟩
    rw [main_applyUpsert_eq_chain]
    simp only
    have hcomp := mainSteps_components (stringsSplit '.' path) (stringsSplit_ne_nil _ _)
    rw [← hcomp] at hsplit
    obtain ⟨a, b, hab, ha, hb⟩ := cleanPath_split _ _ _ hsplit
    rw [hab]
    rw [← ha] at hl
    rw [chain_append_of_lookupNode a b _ item _ hl rfl, chain_scalar b _ v next post hb,
      replaceNode_self _ _ _ hl, he]
  · intro hp hsplit hne hl
    unfold Cmd.applyUpsert
    simp only [hp]
    rw [onNode_pipeLookupCreate, hsplit,
      pathGetter_append_of_lookupNode_null _ _ _ _ _ _ hl rfl hne, upsertArray_onNil]
  · intro hsplit hne hl
    rw [main_applyUpsert_eq_chain]
    simp only
    have hcomp := mainSteps_components (stringsSplit '.' path) (stringsSplit_ne_nil _ _)
    rw [← hcomp] at hsplit
    obtain ⟨a, b, hab, ha, hb⟩ := cleanPath_split _ _ _ hsplit
    rw [hab, chain_append]
    rw [← ha] at hl hne
    rw [(endsAtNull_chain a (chain b _)).2 item _ hl rfl hne, chain_onNil, upsertArray_onNil]

/-- The kind-conflict example: `{spec: "notAMap"}` with path `spec.args` fails in both
programs and stays as it was; `{spec: null}` stays as it was without an error. -/
theorem kind_conflict_intermediate_witness :
    Cmd.applyUpsert scalarSpecDoc (argsOp _ {} ["--flag"] false)
        = (scalarSpecDoc, Outcome.error Err.wrongNodeKind)
      ∧ Main.applyUpsert scalarSpecDoc (argsOp _ {} ["--flag"] false)
        = (scalarSpecDoc, Outcome.error Err.wrongNodeKind)
      ∧ (∃ e, Cmd.applyUpsert scalarSpecDoc (argsOp _ {} ["--flag"] false)
          = (scalarSpecDoc, Outcome.error e))
      ∧ (∃ e, Main.applyUpsert scalarSpecDoc (argsOp _ {} ["--flag"] false)
          = (scalarSpecDoc, Outcome.error e))
      ∧ Main.applyUpsert nullSpecDoc (argsOp _ {} ["--flag"] false)
        = (nullSpecDoc, Outcome.ok ()) :=
  ⟨by decide, by decide,
    (kind_conflict_intermediate scalarSpecDoc "notAMap".toList ["spec".toList] []
      "args".toList "spec.args".toList ["spec".toList, "args".toList]
      ["--flag".toList] false {} {} [] []).1 (by decide) (by decide) (by decide),
    (kind_conflict_intermediate scalarSpecDoc "notAMap".toList ["spec".toList] []
      "args".toList "spec.args".toList ["spec".toList, "args".toList]
      ["--flag".toList] false {} {} [] []).2.1 (by decide) (by decide),
    (kind_conflict_intermediate nullSpecDoc [] ["spec".toList] []
      "args".toList "spec.args".toList ["spec".toList, "args".toList]
      ["--flag".toList] false {} {} "null".toList []).2.2.2 (by decide) (by decide)
      (by decide)⟩

/-- On a node that is neither a sequence nor null the code after the lookup changes nothing;
it fails with "wrong Node Kind" when it reads the elements (`allowDuplicates=false`) or
appends a first value, and succeeds when duplicates are allowed and there is no value. -/
theorem upsertArray_onNode_not_seq (values : List Str) (allowDuplicates : Bool) (t : Node)
    (ht : ∀ content, t ≠ Node.seq content) (hnull : t.isNull = false) :
    (upsertArray values allowDuplicates).onNode t
      = (t, if allowDuplicates && values.isEmpty then Outcome.ok ()
            else Outcome.error Err.wrongNodeKind) := by
  cases t with
  | seq c => exact absurd rfl (ht c)
  | null w c => simp [Node.isNull] at hnull
  | scalar x =>
    cases allowDuplicates with
    | false => simp [PtrFn.onNode, upsertArray, getArrayValues, elements]
    | true =>
      cases values with
      | nil => simp [PtrFn.onNode, upsertArray, appendValues]
      | cons v rest => simp [PtrFn.onNode, upsertArray, appendValues, pipeAppend]
  | map fs =>
    cases allowDuplicates with
    | false => simp [PtrFn.onNode, upsertArray, getArrayValues, elements]
    | true =>
      cases values with
      | nil => simp [PtrFn.onNode, upsertArray, appendValues]
      | cons v rest => simp [PtrFn.onNode, upsertArray, appendValues, pipeAppend]

/-- C12, as stated, fails: on `{spec: {args: "x"}}` an operation with path `spec.args`, no
values and `allowDuplicates=true` succeeds in both programs; and on `{spec: {args: null}}`
an operation with values `[x]` and `allowDuplicates=false` succeeds in both programs, the
document staying as it was. -/
theorem terminal_scalar_succeeds :
    Cmd.applyUpsert scalarArgsDoc (argsOp _ {} [] true) = (scalarArgsDoc, Outcome.ok ())
      ∧ Main.applyUpsert scalarArgsDoc (argsOp _ {} [] true)
        = (scalarArgsDoc, Outcome.ok ())
      ∧ Cmd.applyUpsert nullArgsDoc (argsOp _ {} ["x"] false) = (nullArgsDoc, Outcome.ok ())
      ∧ Main.applyUpsert nullArgsDoc (argsOp _ {} ["x"] false)
        = (nullArgsDoc, Outcome.ok ()) := by
  decide

/-- C12, amended: when the path ends at an existing node that is neither a sequence nor null,
`applyUpsert` never coerces the node (the document stays as it was), and in both programs it
returns the error "wrong Node Kind" whenever `allowDuplicates` is false or the values list
is not empty; with `allowDuplicates=true` and an empty values list it succeeds. When the
path is not empty and ends at a null node, `applyUpsert` succeeds for every values list and
either setting of `allowDuplicates`, and the document stays as it was. -/
theorem kind_conflict_terminal (item t : Node) (path : Str) (parts : List Str)
    (values : List Str) (allowDuplicates : Bool)
    (tc : Cmd.ResourceSelector) (tm : Main.ResourceSelector)
    (ht : ∀ content, t ≠ Node.seq content) :
    (t.isNull = false → Cmd.parseJSONPath path = some parts →
        lookupNode (cleanPath parts) item = some t →
        Cmd.applyUpsert item
            { Target := tc, Path := path, Values := values,
              AllowDuplicates := allowDuplicates }
          = (item, if allowDuplicates && values.isEmpty then Outcome.ok ()
                   else Outcome.error Err.wrongNodeKind))
      ∧ (t.isNull = false →
        lookupNode (cleanPath (stringsSplit '.' path)) item = some t →
        Main.applyUpsert item
            { Target := tm, Path := path, Values := values,
              AllowDuplicates := allowDuplicates }
          = (item, if allowDuplicates && values.isEmpty then Outcome.ok ()
                   else Outcome.error Err.wrongNodeKind))
      ∧ (t.isNull = true → Cmd.parseJSONPath path = some parts →
        cleanPath parts ≠ [] → lookupNode (cleanPath parts) item = some t →
        Cmd.applyUpsert item
            { Target := tc, Path := path, Values := values,
              AllowDuplicates := allowDuplicates }
          = (item, Outcome.ok ()))
      ∧ (t.isNull = true → cleanPath (stringsSplit '.' path) ≠ [] →
        lookupNode (cleanPath (stringsSplit '.' path)) item = some t →
        Main.applyUpsert item
            { Target := tm, Path := path, Values := values,
              AllowDuplicates := allowDuplicates }
          = (item, Outcome.ok ())) := by
  refine ⟨?_, ?_, ?_, ?_⟩
  · intro hnull hp hl
    rw [cmd_applyUpsert_of_lookupNode item t _ parts hp hl (Or.inl hnull)]
    simp only [upsertArray_onNode_not_seq values allowDuplicates t ht hnull]
    rw [replaceNode_self _ _ _ hl]
  · intro hnull hl
    rw [main_applyUpsert_of_lookupNode item t _ hl (Or.inl hnull)]
    simp only [upsertArray_onNode_not_seq values allowDuplicates t ht hnull]
    rw [replaceNode_self _ _ _ hl]
  · intro hnull hp hne hl
    exact cmd_applyUpsert_of_lookupNode_null item t _ parts hp hl hnull hne
  · intro hnull hne hl
    exact main_applyUpsert_of_lookupNode_null item t _ hl hnull hne

/-- On `{spec: {args: "x"}}` with path `spec.args`: an error for values `[a]` with duplicates
allowed, and an error for no values with `allowDuplicates=false`; on `{spec: {args: null}}`
no error for values `[a]`. -/
theorem kind_conflict_terminal_witness :
    Cmd.applyUpsert scalarArgsDoc (argsOp _ {} ["a"] true)
        = (scalarArgsDoc, Outcome.error Err.wrongNodeKind)
      ∧ Main.applyUpsert scalarArgsDoc (argsOp _ {} [] false)
        = (scalarArgsDoc, Outcome.error Err.wrongNodeKind)
      ∧ Cmd.applyUpsert nullArgsDoc (argsOp _ {} ["a"] false)
        = (nullArgsDoc, Outcome.ok ()) :=
  ⟨(kind_conflict_terminal scalarArgsDoc (Node.scalar "x".toList) "spec.args".toList
      ["spec".toList, "args".toList] ["a".toList] true {} {} (by simp)).1
      rfl (by decide) (by decide),
    (kind_conflict_terminal scalarArgsDoc (Node.scalar "x".toList) "spec.args".toList
      ["spec".toList, "args".toList] [] false {} {} (by simp)).2.1 rfl (by decide),
    (kind_conflict_terminal nullArgsDoc (Node.null "null".toList []) "spec.args".toList
      ["spec".toList, "args".toList] ["a".toList] false {} {} (by simp)).2.2.1
      rfl (by decide) (by decide) (by decide)⟩

/-! ## Path creation -/

theorem stringsSplit_no_dot (sep : Char) (s : Str) (h : sep ∉ s) :
    stringsSplit sep s = [s] := by
  induction s with
  | nil => rfl
  | cons c cs ih =>
    simp only [List.mem_cons, not_or] at h
    have hc : ¬ c = sep := fun e => h.1 e.symm
    simp [stringsSplit, hc, ih h.2]

theorem stringsSplit_append_sep (sep : Char) (a b : Str) (h : sep ∉ a) :
    stringsSplit sep (a ++ sep :: b) = a :: stringsSplit sep b := by
  induction a with
  | nil => simp [stringsSplit]
  | cons c cs ih =>
    simp only [List.mem_cons, not_or] at h
    have hc : ¬ c = sep := fun e => h.1 e.symm
    simp [stringsSplit, hc, ih h.2]

/-- Splitting `f1.f2...fn` at the dots gives the names back when no name contains a dot. -/
theorem stringsSplit_joinDots (f : Str) (fs : List Str)
    (h : ∀ g ∈ f :: fs, '.' ∉ g) :
    stringsSplit '.' (joinDots (f :: fs)) = f :: fs := by
  induction fs generalizing f with
  | nil =>
    simpa [joinDots, List.intercalate] using
      stringsSplit_no_dot '.' f (h f (List.mem_cons_self _ _))
  | cons g rest ih =>
    have hj : joinDots (f :: g :: rest) = f ++ '.' :: joinDots (g :: rest) := by
      simp [joinDots, List.intercalate, List.intersperse]
    rw [hj, stringsSplit_append_sep '.' f _ (h f (List.mem_cons_self _ _)),
      ih g (fun x hx => h x (List.mem_cons_of_mem _ hx))]

theorem plainField_spec (f : Str) (h : plainField f = true) :
    f ≠ [] ∧ trimSpace f = f ∧ atoi f = none ∧ f ≠ ['-'] ∧ f ≠ ['*'] ∧
      '.' ∉ f ∧ '[' ∉ f ∧ ']' ∉ f := by
  unfold plainField at h
  simp only [Bool.and_eq_true, Bool.not_eq_true', beq_iff_eq, bne_iff_ne, ne_eq,
    Option.isNone_iff_eq_none, List.isEmpty_eq_false] at h
  obtain ⟨⟨⟨⟨⟨⟨⟨h1, h2⟩, h3⟩, h4⟩, h5⟩, h6⟩, h7⟩, h8⟩ := h
  have k6 : '.' ∉ f := fun hm => by
    have := (stringsContains_iff f '.').2 hm
    rw [h6] at this
    exact Bool.noConfusion this
  have k7 : '[' ∉ f := fun hm => by
    have := (stringsContains_iff f '[').2 hm
    rw [h7] at this
    exact Bool.noConfusion this
  have k8 : ']' ∉ f := fun hm => by
    have := (stringsContains_iff f ']').2 hm
    rw [h8] at this
    exact Bool.noConfusion this
  exact ⟨h1, h2, h3, h4, h5, k6, k7, k8⟩

theorem isListIndex_plain (f : Str) (h : plainField f = true) : isListIndex f = false := by
  cases hl : isListIndex f with
  | false => rfl
  | true => exact absurd (isListIndex_mem f hl).1 (plainField_spec f h).2.2.2.2.2.2.1

/-- A plain part is looked up as a field of that name. -/
theorem getFilter_plain (create : Kind) (f nextPart : Str) (h : plainField f = true) :
    getFilter create f nextPart
      = Except.ok (PathFilter.fieldMatcher f (getPathPartKind nextPart create)) := by
  obtain ⟨-, -, h3, h4, h5, -, -, -⟩ := plainField_spec f h
  unfold getFilter
  simp [h3, h4, h5, isListIndex_plain f h]

/-- Before a plain part a missing field is created as a mapping. -/
theorem getPathPartKind_plain (create : Kind) (f : Str) (h : plainField f = true) :
    getPathPartKind f create = Kind.MappingNode := by
  obtain ⟨h1, -, h3, h4, -, -, -, -⟩ := plainField_spec f h
  unfold getPathPartKind isIdxNumber
  simp [h3, h4, h1, isListIndex_plain f h]

theorem getPathPartKind_nil (create : Kind) : getPathPartKind [] create = create := by
  unfold getPathPartKind isIdxNumber isListIndex atoi
  simp

theorem cleanPath_plain (fs : List Str) (h : ∀ f ∈ fs, plainField f = true) :
    cleanPath fs = fs := by
  induction fs with
  | nil => rfl
  | cons f rest ih =>
    obtain ⟨h1, h2, -⟩ := plainField_spec f (h f (List.mem_cons_self _ _))
    have hne : ¬ trimSpace f = [] := by rw [h2]; exact h1
    rw [cleanPath, if_neg hne, h2, ih (fun g hg => h g (List.mem_cons_of_mem _ hg))]

/-- On a new empty sequence every value is appended, repeats included, for either setting of
`allowDuplicates`. -/
theorem upsertArray_onNode_empty (values : List Str) (allowDuplicates : Bool) :
    (upsertArray values allowDuplicates).onNode (Node.seq [])
      = (Node.seq (values.map Node.scalar), Outcome.ok ()) := by
  rw [upsertArray_onNode_seq]
  simp [contains, newScalarRNode]

theorem focusField_none (f : Node → Node × Res) (name : Str) (fields : List (Str × Node))
    (h : fieldValue name fields = none) : focusField f name fields = none := by
  rw [focusField_eq, h]
  rfl

/-- The walk of `src/cmd` from a new node down plain fields that do not exist yet creates
the nested mappings and, at the end, the sequence of the values. -/
theorem pathGetter_create_plain (values : List Str) (allowDuplicates : Bool)
    (fs : List Str) (h : ∀ f ∈ fs, plainField f = true) :
    pathGetter Kind.SequenceNode fs (upsertArray values allowDuplicates)
        (Node.ofKind (getPathPartKind (fs.headD []) Kind.SequenceNode))
      = (nested (Node.seq (values.map Node.scalar)) fs, Outcome.ok ()) := by
  induction fs with
  | nil =>
    simp only [List.headD_nil, getPathPartKind_nil, Node.ofKind, pathGetter, nested]
    exact upsertArray_onNode_empty values allowDuplicates
  | cons f rest ih =>
    have hf := h f (List.mem_cons_self _ _)
    have hk : getPathPartKind ((f :: rest).headD []) Kind.SequenceNode = Kind.MappingNode := by
      simpa using getPathPartKind_plain Kind.SequenceNode f hf
    have hm : Node.ofKind Kind.MappingNode = Node.map [] := rfl
    rw [hk, hm, pathGetter, getFilter_plain _ _ _ hf]
    simp only [pathStep, focusField, nested, List.nil_append]
    rw [ih (fun g hg => h g (List.mem_cons_of_mem _ hg))]

/-- The chain of `src/main.go` on a mapping that lacks the first of its plain fields creates
the nested mappings and, at the end, the sequence of the values. -/
theorem chain_create_plain (values : List Str) (allowDuplicates : Bool)
    (f : Str) (fs : List Str) (fields : List (Str × Node))
    (h : ∀ g ∈ f :: fs, plainField g = true) (hmiss : fieldValue f fields = none) :
    (chain (mainSteps (f :: fs)) (upsertArray values allowDuplicates)).onNode (Node.map fields)
      = (Node.map (fields ++ [(f, nested (Node.seq (values.map Node.scalar)) fs)]),
          Outcome.ok ()) := by
  induction fs generalizing f fields with
  | nil =>
    have hf := h f (List.mem_cons_self _ _)
    have hs : mainSteps [f] = [(Kind.SequenceNode, f)] := by simp [mainSteps]
    rw [hs, chain, chain, onNode_pipeLookupCreate, cleanPath_plain [f] (by simpa using hf),
      pathGetter, getFilter_plain _ _ _ hf]
    have hq : Node.ofKind Kind.SequenceNode = Node.seq [] := rfl
    simp only [List.headD_nil, getPathPartKind_nil, pathStep,
      focusField_none _ _ _ hmiss, hq, pathGetter, nested]
    rw [upsertArray_onNode_empty]
  | cons g rest ih =>
    have hf := h f (List.mem_cons_self _ _)
    have hs : mainSteps (f :: g :: rest) = (Kind.MappingNode, f) :: mainSteps (g :: rest) := by
      simp [mainSteps]
    rw [hs, chain, onNode_pipeLookupCreate, cleanPath_plain [f] (by simpa using hf),
      pathGetter, getFilter_plain _ _ _ hf]
    have hm : Node.ofKind Kind.MappingNode = Node.map [] := rfl
    simp only [List.headD_nil, getPathPartKind_nil, pathStep,
      focusField_none _ _ _ hmiss, hm, pathGetter]
    rw [ih g [] (fun x hx => h x (List.mem_cons_of_mem _ hx)) rfl]
    simp [nested]

/-- C13, as stated, fails: the field name `0` is not empty and has no bracket, yet on `{}`
with path `spec.0` and values `[x]` the program of `src/cmd` reads `0` as a position, creates
`spec` as an empty sequence and appends nothing, and the program of `src/main.go` fails after
creating `spec` as an empty mapping; neither leaves `{spec: {0: [x]}}`. -/
theorem numeric_field_not_created :
    Cmd.applyUpsert (Node.map [])
        { Target := {}, Path := "spec.0".toList, Values := ["x".toList],
          AllowDuplicates := false }
      = (Node.map [("spec".toList, Node.seq [])], Outcome.ok ())
    ∧ Main.applyUpsert (Node.map [])
        { Target := {}, Path := "spec.0".toList, Values := ["x".toList],
          AllowDuplicates := false }
      = (Node.map [("spec".toList, Node.map [])], Outcome.error Err.wrongNodeKind)
    ∧ Node.map [("spec".toList, Node.seq [])]
      ≠ Node.map ([] ++ [("spec".toList,
          nested (Node.seq [Node.scalar "x".toList]) ["0".toList])]) := by
  decide

/-- In the program of `src/cmd`, on a mapping that lacks the first field of a path of plain
field names, `applyUpsert` adds the nested entry that ends in the sequence of the values. -/
theorem cmd_applyUpsert_create_plain (fields : List (Str × Node)) (f1 : Str) (fs : List Str)
    (op : UpsertOperation Cmd.ResourceSelector)
    (hpath : op.Path = joinDots (f1 :: fs))
    (hplain : ∀ g ∈ f1 :: fs, plainField g = true)
    (hmiss : fieldValue f1 fields = none) :
    Cmd.applyUpsert (Node.map fields) op
      = (Node.map (fields ++ [(f1, nested (Node.seq (op.Values.map Node.scalar)) fs)]),
          Outcome.ok ()) := by
  have hsplit : stringsSplit '.' (joinDots (f1 :: fs)) = f1 :: fs :=
    stringsSplit_joinDots f1 fs (fun g hg => (plainField_spec g (hplain g hg)).2.2.2.2.2.1)
  have hparse : Cmd.parseJSONPath (joinDots (f1 :: fs)) = some (f1 :: fs) := by
    have h := parseJSONPath_of_plain (joinDots (f1 :: fs)) (by
      rw [hsplit]
      intro piece hp hc
      have hb := (plainField_spec piece (hplain piece hp)).2.2.2.2.2.2.1
      exact hb ((stringsContains_iff piece '[').1 hc.1))
    rw [h, hsplit]
  have hf := hplain f1 (List.mem_cons_self _ _)
  unfold Cmd.applyUpsert
  simp only [hpath, hparse]
  rw [onNode_pipeLookupCreate, cleanPath_plain _ hplain, pathGetter,
    getFilter_plain _ _ _ hf]
  simp only [pathStep, focusField_none _ _ _ hmiss]
  rw [pathGetter_create_plain op.Values op.AllowDuplicates fs
    (fun g hg => hplain g (List.mem_cons_of_mem _ hg))]

/-- In the program of `src/main.go`, on a mapping that lacks the first field of a path of
plain field names, `applyUpsert` adds the nested entry that ends in the sequence of the
values. -/
theorem main_applyUpsert_create_plain (fields : List (Str × Node)) (f1 : Str) (fs : List Str)
    (op : UpsertOperation Main.ResourceSelector)
    (hpath : op.Path = joinDots (f1 :: fs))
    (hplain : ∀ g ∈ f1 :: fs, plainField g = true)
    (hmiss : fieldValue f1 fields = none) :
    Main.applyUpsert (Node.map fields) op
      = (Node.map (fields ++ [(f1, nested (Node.seq (op.Values.map Node.scalar)) fs)]),
          Outcome.ok ()) := by
  have hsplit : stringsSplit '.' (joinDots (f1 :: fs)) = f1 :: fs :=
    stringsSplit_joinDots f1 fs (fun g hg => (plainField_spec g (hplain g hg)).2.2.2.2.2.1)
  rw [main_applyUpsert_eq_chain]
  simp only [hpath, hsplit]
  exact chain_create_plain op.Values op.AllowDuplicates f1 fs fields hplain hmiss

/-- C13, amended: for every mapping document that lacks the first field of a path
`f1.f2...fn` whose field names are plain (not empty, no surrounding white space, not an
integer, not `-` or `*`, no dot or bracket) and every values list `V`, for either setting of
`allowDuplicates`, `applyUpsert` succeeds in both programs and the document afterwards is the
original with the single entry `f1 -> {f2 -> ... {fn -> V as a sequence of scalars}}` added
at the end. -/
theorem path_creation (fields : List (Str × Node)) (f1 : Str) (fs : List Str)
    (values : List Str) (allowDuplicates : Bool)
    (tc : Cmd.ResourceSelector) (tm : Main.ResourceSelector)
    (hplain : ∀ g ∈ f1 :: fs, plainField g = true)
    (hmiss : fieldValue f1 fields = none) :
    Cmd.applyUpsert (Node.map fields)
        { Target := tc, Path := joinDots (f1 :: fs), Values := values,
          AllowDuplicates := allowDuplicates }
      = (Node.map (fields ++ [(f1, nested (Node.seq (values.map Node.scalar)) fs)]),
          Outcome.ok ())
    ∧ Main.applyUpsert (Node.map fields)
        { Target := tm, Path := joinDots (f1 :: fs), Values := values,
          AllowDuplicates := allowDuplicates }
      = (Node.map (fields ++ [(f1, nested (Node.seq (values.map Node.scalar)) fs)]),
          Outcome.ok ()) := by
  exact ⟨cmd_applyUpsert_create_plain fields f1 fs _ rfl hplain hmiss,
    main_applyUpsert_create_plain fields f1 fs _ rfl hplain hmiss⟩

/-- The path-creation example: `{}` with path `spec.args` and values `[--flag]` becomes
`{spec: {args: [--flag]}}` in both programs. -/
theorem path_creation_witness :
    Cmd.applyUpsert (Node.map []) (argsOp _ {} ["--flag"] false)
        = (argsDoc ["--flag"], Outcome.ok ())
      ∧ Main.applyUpsert (Node.map []) (argsOp _ {} ["--flag"] false)
        = (argsDoc ["--flag"], Outcome.ok ()) :=
  ⟨((path_creation [] "spec".toList ["args".toList] ["--flag".toList] false {} {}
      (by decide) (by decide)).1).trans (by decide),
    ((path_creation [] "spec".toList ["args".toList] ["--flag".toList] false {} {}
      (by decide) (by decide)).2).trans (by decide)⟩

/-! ## Operations without values -/

/-- Without values the code after the lookup leaves the node it is given as it is. -/
theorem upsertArray_nil_onNode (allowDuplicates : Bool) (t : Node) :
    ((upsertArray [] allowDuplicates).onNode t).1 = t := by
  cases allowDuplicates with
  | true => simp [PtrFn.onNode, upsertArray, appendValues]
  | false =>
    cases t <;> simp [PtrFn.onNode, upsertArray, getArrayValues, elements, appendValues]

/-- C5, as stated, fails: on the empty document `{}` an operation with path `spec.args` and
no values succeeds in both programs and leaves `{spec: {args: []}}`, not `{}`. -/
theorem empty_values_creates_path :
    Cmd.applyUpsert (Node.map []) (argsOp _ {} [] false) = (argsDoc [], Outcome.ok ())
      ∧ Main.applyUpsert (Node.map []) (argsOp _ {} [] false) = (argsDoc [], Outcome.ok ())
      ∧ argsDoc [] ≠ Node.map [] := by
  decide

/-- C5, amended: an operation whose values list is empty appends nothing. In both programs,
for either setting of `allowDuplicates`, the document after it equals the document before
whenever its path already leads to a node of the document, and it succeeds when that node is
a sequence. It is not a no-op when the path does not exist: on a mapping document that lacks
the first field of a path `f1.f2...fn` of plain field names it succeeds and adds the entry
`f1 -> {f2 -> ... {fn -> []}}`, so `{}` with path `spec.args` becomes `{spec: {args: []}}`. -/
theorem empty_values_noop_on_existing (item t : Node) (elems : List Node) (path : Str)
    (parts : List Str) (allowDuplicates : Bool)
    (tc : Cmd.ResourceSelector) (tl : Main.ResourceSelector)
    (fields : List (Str × Node)) (f1 : Str) (fs : List Str) :
    (Cmd.parseJSONPath path = some parts →
        lookupNode (cleanPath parts) item = some (Node.seq elems) →
        Cmd.applyUpsert item
            { Target := tc, Path := path, Values := [], AllowDuplicates := allowDuplicates }
          = (item, Outcome.ok ()))
      ∧ (lookupNode (cleanPath (stringsSplit '.' path)) item = some (Node.seq elems) →
        Main.applyUpsert item
            { Target := tl, Path := path, Values := [], AllowDuplicates := allowDuplicates }
          = (item, Outcome.ok ()))
      ∧ (Cmd.parseJSONPath path = some parts →
        lookupNode (cleanPath parts) item = some t →
        (Cmd.applyUpsert item
            { Target := tc, Path := path, Values := [],
              AllowDuplicates := allowDuplicates }).1 = item)
      ∧ (lookupNode (cleanPath (stringsSplit '.' path)) item = some t →
        (Main.applyUpsert item
            { Target := tl, Path := path, Values := [],
              AllowDuplicates := allowDuplicates }).1 = item)
      ∧ ((∀ g ∈ f1 :: fs, plainField g = true) → fieldValue f1 fields = none →
        Cmd.applyUpsert (Node.map fields)
            { Target := tc, Path := joinDots (f1 :: fs), Values := [],
              AllowDuplicates := allowDuplicates }
          = (Node.map (fields ++ [(f1, nested (Node.seq []) fs)]), Outcome.ok ()))
      ∧ ((∀ g ∈ f1 :: fs, plainField g = true) → fieldValue f1 fields = none →
        Main.applyUpsert (Node.map fields)
            { Target := tl, Path := joinDots (f1 :: fs), Values := [],
              AllowDuplicates := allowDuplicates }
          = (Node.map (fields ++ [(f1, nested (Node.seq []) fs)]), Outcome.ok ()))
      ∧ Cmd.applyUpsert (Node.map []) (argsOp _ tc [] allowDuplicates)
          = (argsDoc [], Outcome.ok ())
      ∧ Main.applyUpsert (Node.map []) (argsOp _ tl [] allowDuplicates)
          = (argsDoc [], Outcome.ok ()) := by
  have hk : (upsertArray [] allowDuplicates).onNode (Node.seq elems)
      = (Node.seq elems, Outcome.ok ()) := by
    rw [upsertArray_onNode_seq]
    simp
  refine ⟨?_, ?_, ?_, ?_, ?_, ?_, ?_, ?_⟩
  · intro hp ht
    rw [cmd_applyUpsert_of_lookupNode item _ _ parts hp ht (Or.inl rfl)]
    simp only [hk]
    rw [replaceNode_self _ _ _ ht]
  · intro ht
    rw [main_applyUpsert_of_lookupNode item (Node.seq _) _ ht (Or.inl rfl)]
    simp only [hk]
    rw [replaceNode_self _ _ _ ht]
  · intro hp ht
    by_cases hnn : t.isNull = false ∨ cleanPath parts = []
    · rw [cmd_applyUpsert_of_lookupNode item t _ parts hp ht hnn]
      simp only [upsertArray_nil_onNode]
      exact replaceNode_self _ _ _ ht
    · rw [not_or] at hnn
      rw [cmd_applyUpsert_of_lookupNode_null item t _ parts hp ht (by simpa using hnn.1)
        hnn.2]
  · intro ht
    by_cases hnn : t.isNull = false ∨ cleanPath (stringsSplit '.' path) = []
    · rw [main_applyUpsert_of_lookupNode item t _ ht hnn]
      simp only [upsertArray_nil_onNode]
      exact replaceNode_self _ _ _ ht
    · rw [not_or] at hnn
      rw [main_applyUpsert_of_lookupNode_null item t _ ht (by simpa using hnn.1) hnn.2]
  · intro hplain hmiss
    exact cmd_applyUpsert_create_plain fields f1 fs _ rfl hplain hmiss
  · intro hplain hmiss
    exact main_applyUpsert_create_plain fields f1 fs _ rfl hplain hmiss
  · cases allowDuplicates <;> rfl
  · cases allowDuplicates <;> rfl

/-- On `{spec: {args: [a, b]}}` an operation without values changes nothing; on
`{kind: Pod}` an operation without values on the path `spec.args` adds
`spec: {args: []}`. -/
theorem empty_values_noop_on_existing_witness :
    Cmd.applyUpsert (argsDoc ["a", "b"]) (argsOp _ {} [] false)
        = (argsDoc ["a", "b"], Outcome.ok ())
      ∧ Main.applyUpsert (argsDoc ["a", "b"]) (argsOp _ {} [] true)
        = (argsDoc ["a", "b"], Outcome.ok ())
      ∧ Cmd.applyUpsert (Node.map [("kind".toList, Node.scalar "Pod".toList)])
          (argsOp _ {} [] false)
        = (Node.map [("kind".toList, Node.scalar "Pod".toList),
            ("spec".toList, Node.map [("args".toList, Node.seq [])])], Outcome.ok ()) :=
  ⟨(empty_values_noop_on_existing (argsDoc ["a", "b"]) (Node.map [])
      [Node.scalar "a".toList, Node.scalar "b".toList] "spec.args".toList
      ["spec".toList, "args".toList] false {} {} [] [] []).1 (by decide) (by decide),
    (empty_values_noop_on_existing (argsDoc ["a", "b"]) (Node.map [])
      [Node.scalar "a".toList, Node.scalar "b".toList] "spec.args".toList
      ["spec".toList, "args".toList] true {} {} [] [] []).2.1 (by decide),
    ((empty_values_noop_on_existing (Node.map []) (Node.map []) [] [] [] false {} {}
      [("kind".toList, Node.scalar "Pod".toList)] "spec".toList
      ["args".toList]).2.2.2.2.1 (by decide) (by decide)).trans (by decide)⟩

/-! ## The dedup snapshot -/

/-- A value that is not the `Value` of an element passes the dedup test. -/
theorem passes_of_not_mem (allow : Bool) (existing : List Str) (v : Str) (h : v ∉ existing) :
    (allow || !contains existing v) = true := by
  cases hc : contains existing v with
  | false => simp
  | true => exact absurd ((contains_iff existing v).1 hc) h

theorem filter_all_new (allow : Bool) (existing values : List Str)
    (h : ∀ v ∈ values, v ∉ existing) :
    values.filter (fun v => allow || !contains existing v) = values := by
  rw [List.filter_eq_self]
  intro v hv
  exact passes_of_not_mem allow existing v (h v hv)

theorem count_scalar_map (v : Str) (l : List Str) :
    (l.map Node.scalar).count (Node.scalar v) = l.count v := by
  induction l with
  | nil => rfl
  | cons a rest ih =>
    by_cases h : a = v
    · subst h
      simp [ih]
    · have h2 : ¬ Node.scalar a = Node.scalar v := fun e => h (by injection e)
      simp [List.count_cons, h, h2, ih]

theorem count_scalar_zero (v : Str) (content : List Node)
    (h : v ∉ content.map Node.value) : content.count (Node.scalar v) = 0 := by
  rw [List.count_eq_zero]
  intro hm
  exact h (List.mem_map.2 ⟨Node.scalar v, hm, rfl⟩)

/-- C15, as stated, fails: in the array `[[a]]`, whose only element is a sequence, the empty
string does not occur, yet with the values `["", ""]` and `allowDuplicates=false` nothing is
appended, because the `Value` of the sequence element is the empty string and the snapshot
holds it: the empty string occurs 0 times afterwards and 2 times in the values list. -/
theorem snapshot_holds_value_of_sequence :
    Node.scalar [] ∉ [Node.seq [Node.scalar "a".toList]]
      ∧ upsertArray [[], []] false (some (Node.seq [Node.seq [Node.scalar "a".toList]]))
        = (some (Node.seq [Node.seq [Node.scalar "a".toList]]), Outcome.ok ())
      ∧ [Node.seq [Node.scalar "a".toList]].count (Node.scalar []) = 0
      ∧ ([[], []] : List Str).count [] = 2
      ∧ Cmd.applyUpsert
          (Node.map [("spec".toList, Node.map [("args".toList,
            Node.seq [Node.seq [Node.scalar "a".toList]])])])
          (argsOp _ {} ["", ""] false)
        = (Node.map [("spec".toList, Node.map [("args".toList,
            Node.seq [Node.seq [Node.scalar "a".toList]])])], Outcome.ok ()) := by
  decide

/-- C15, amended: with `allowDuplicates=false`, for every sequence and every value `v` that
is not the `Value` of one of its elements (for a sequence of string scalars: that does not
occur in it), the upsert succeeds and the number of occurrences of the scalar `v` afterwards
is the number of occurrences of `v` in the values list; the same holds for `applyUpsert` of
`src/cmd` when the path leads to the sequence. Existing `[]` with values `[x, x]` gives
`[x, x]`. When `v` is the `Value` of an element (the empty string is the `Value` of every
mapping and sequence element), no `v` is appended and its number of occurrences stays what
it was. -/
theorem snapshot_dedup_counts (content : List Node) (values : List Str) (v : Str)
    (item : Node) (path : Str) (parts : List Str) (tc : Cmd.ResourceSelector) :
    (v ∉ content.map Node.value →
        ∃ after, upsertArray values false (some (Node.seq content))
          = (some (Node.seq after), Outcome.ok ())
        ∧ after.count (Node.scalar v) = values.count v)
      ∧ (v ∉ content.map Node.value →
          Cmd.parseJSONPath path = some parts →
          lookupNode (cleanPath parts) item = some (Node.seq content) →
          ∃ after, Cmd.applyUpsert item
                { Target := tc, Path := path, Values := values, AllowDuplicates := false }
              = (replaceNode (Node.seq after) (cleanPath parts) item, Outcome.ok ())
            ∧ after.count (Node.scalar v) = values.count v)
      ∧ upsertArray ["x".toList, "x".toList] false (some (Node.seq []))
          = (some (Node.seq [Node.scalar "x".toList, Node.scalar "x".toList]),
            Outcome.ok ())
      ∧ (v ∈ content.map Node.value →
        ∃ after, upsertArray values false (some (Node.seq content))
          = (some (Node.seq after), Outcome.ok ())
        ∧ after.count (Node.scalar v) = content.count (Node.scalar v)) := by
  have hnew : newScalarRNode = Node.scalar := rfl
  have hcount : v ∉ content.map Node.value → (content ++ (values.filter
      (fun w => false || !contains (content.map Node.value) w)).map newScalarRNode).count
        (Node.scalar v) = values.count v := by
    intro hv
    rw [List.count_append, count_scalar_zero v content hv, Nat.zero_add]
    rw [hnew, count_scalar_map]
    exact List.count_filter (passes_of_not_mem false _ v hv)
  refine ⟨fun hv => ⟨_, upsertArray_seq values false content, hcount hv⟩, ?_, by decide, ?_⟩
  · intro hv hp hl
    refine ⟨_, ?_, hcount hv⟩
    rw [cmd_applyUpsert_of_lookupNode item _ _ parts hp hl (Or.inl rfl)]
    simp only [upsertArray_onNode_seq]
  · intro hv
    refine ⟨_, upsertArray_seq values false content, ?_⟩
    rw [List.count_append, hnew, count_scalar_map]
    have hzero : (values.filter
        (fun w => false || !contains (content.map Node.value) w)).count v = 0 := by
      rw [List.count_eq_zero]
      intro hm
      have h1 := (List.mem_filter.1 hm).2
      have h2 : contains (content.map Node.value) v = true := (contains_iff _ _).2 hv
      simp [h2] at h1
    rw [hzero, Nat.add_zero]

/-- For the values `[x, x]` on `{spec: {args: [a]}}` the value `x`, absent before, occurs
twice afterwards. -/
theorem snapshot_dedup_counts_witness :
    "x".toList ∉ [Node.scalar "a".toList].map Node.value
      ∧ ∃ after, Cmd.applyUpsert (argsDoc ["a"]) (argsOp _ {} ["x", "x"] false)
            = (replaceNode (Node.seq after) (cleanPath ["spec".toList, "args".toList])
                (argsDoc ["a"]), Outcome.ok ())
          ∧ after.count (Node.scalar "x".toList) = ["x".toList, "x".toList].count "x".toList :=
  ⟨by decide,
    (snapshot_dedup_counts [Node.scalar "a".toList] ["x".toList, "x".toList] "x".toList
      (argsDoc ["a"]) "spec.args".toList ["spec".toList, "args".toList] {}).2.1
      (by decide) (by decide) (by decide)⟩

/-- C17, as stated, fails: in the array `[{}]`, whose only element is an empty mapping, the
empty string does not occur, yet with the values `[""]` and `allowDuplicates=false` the array
afterwards is `[{}]` and not `[{}, ""]`: the `Value` of the mapping is the empty string. -/
theorem order_lost_on_value_of_mapping :
    Node.scalar [] ∉ [Node.map []]
      ∧ upsertArray [[]] false (some (Node.seq [Node.map []]))
        = (some (Node.seq [Node.map []]), Outcome.ok ())
      ∧ Node.seq [Node.map []] ≠ Node.seq ([Node.map []] ++ [Node.scalar []])
      ∧ Cmd.applyUpsert
          (Node.map [("spec".toList, Node.map [("args".toList, Node.seq [Node.map []])])])
          (argsOp _ {} [""] false)
        = (Node.map [("spec".toList, Node.map [("args".toList, Node.seq [Node.map []])])],
          Outcome.ok ()) := by
  decide

/-- C17, amended: for every sequence and every values list none of whose values is the
`Value` of an element (for a sequence of string scalars `E`: none occurs in `E`; a mapping or
sequence element has the `Value` `""`), the upsert leaves the sequence followed by all the
values as scalars, in the listed order, for either setting of `allowDuplicates`; the same
holds for `applyUpsert` of both programs when the path leads to the sequence. With
`allowDuplicates=true` this holds for every values list. -/
theorem upsert_preserves_order (content : List Node) (E values : List Str)
    (allowDuplicates : Bool) (item : Node) (path : Str) (parts : List Str)
    (tc : Cmd.ResourceSelector) (tm : Main.ResourceSelector) :
    ((∀ v ∈ values, v ∉ content.map Node.value) →
        upsertArray values allowDuplicates (some (Node.seq content))
          = (some (Node.seq (content ++ values.map Node.scalar)), Outcome.ok ()))
      ∧ ((∀ v ∈ values, v ∉ E) →
        upsertArray values allowDuplicates (some (Node.seq (E.map Node.scalar)))
          = (some (Node.seq ((E ++ values).map Node.scalar)), Outcome.ok ()))
      ∧ ((∀ v ∈ values, v ∉ content.map Node.value) →
        Cmd.parseJSONPath path = some parts →
        lookupNode (cleanPath parts) item = some (Node.seq content) →
        Cmd.applyUpsert item
            { Target := tc, Path := path, Values := values,
              AllowDuplicates := allowDuplicates }
          = (replaceNode (Node.seq (content ++ values.map Node.scalar)) (cleanPath parts)
              item, Outcome.ok ()))
      ∧ ((∀ v ∈ values, v ∉ content.map Node.value) →
        lookupNode (cleanPath (stringsSplit '.' path)) item = some (Node.seq content) →
        Main.applyUpsert item
            { Target := tm, Path := path, Values := values,
              AllowDuplicates := allowDuplicates }
          = (replaceNode (Node.seq (content ++ values.map Node.scalar))
              (cleanPath (stringsSplit '.' path)) item, Outcome.ok ()))
      ∧ upsertArray values true (some (Node.seq content))
          = (some (Node.seq (content ++ values.map Node.scalar)), Outcome.ok ()) := by
  have hnew : newScalarRNode = Node.scalar := rfl
  refine ⟨?_, ?_, ?_, ?_, ?_⟩
  rotate_right
  · rw [upsertArray_seq, hnew]
    simp
  · intro h
    rw [upsertArray_seq, filter_all_new _ _ _ h, hnew]
  · intro h
    rw [upsertArray_seq, map_value_scalar, filter_all_new _ _ _ h, hnew, List.map_append]
  · intro h hp hl
    rw [cmd_applyUpsert_of_lookupNode item _ _ parts hp hl (Or.inl rfl)]
    simp only [upsertArray_onNode_seq]
    rw [filter_all_new _ _ _ h, hnew]
  · intro h hl
    rw [main_applyUpsert_of_lookupNode item (Node.seq _) _ hl (Or.inl rfl)]
    simp only [upsertArray_onNode_seq]
    rw [filter_all_new _ _ _ h, hnew]

/-- The values `[v1, v2, v3]` on `{spec: {args: [a, b]}}` give `[a, b, v1, v2, v3]` in both
programs, with and without duplicates allowed. -/
theorem upsert_preserves_order_witness :
    Cmd.applyUpsert (argsDoc ["a", "b"]) (argsOp _ {} ["v1", "v2", "v3"] false)
        = (argsDoc ["a", "b", "v1", "v2", "v3"], Outcome.ok ())
      ∧ Main.applyUpsert (argsDoc ["a", "b"]) (argsOp _ {} ["v1", "v2", "v3"] true)
        = (argsDoc ["a", "b", "v1", "v2", "v3"], Outcome.ok ()) :=
  ⟨((upsert_preserves_order [Node.scalar "a".toList, Node.scalar "b".toList] []
      ["v1".toList, "v2".toList, "v3".toList] false (argsDoc ["a", "b"])
      "spec.args".toList ["spec".toList, "args".toList] {} {}).2.2.1
      (by decide) (by decide) (by decide)).trans (by decide),
    ((upsert_preserves_order [Node.scalar "a".toList, Node.scalar "b".toList] []
      ["v1".toList, "v2".toList, "v3".toList] true (argsDoc ["a", "b"])
      "spec.args".toList ["spec".toList, "args".toList] {} {}).2.2.2.1
      (by decide) (by decide)).trans (by decide)⟩

/-! ## Elements that are not scalars -/

theorem value_of_not_scalar (e : Node) (h : e.kind ≠ Kind.ScalarNode) : e.value = [] := by
  cases e with
  | scalar x => exact absurd rfl h
  | null w c => exact absurd rfl h
  | seq c => rfl
  | map fs => rfl

theorem values_of_not_scalar (content : List Node)
    (h : ∀ e ∈ content, e.kind ≠ Kind.ScalarNode) :
    ∀ w ∈ content.map Node.value, w = [] := by
  intro w hw
  obtain ⟨e, he, rfl⟩ := List.mem_map.1 hw
  exact value_of_not_scalar e (h e he)

/-- C16, as stated, fails for the empty string: the `Value` of a mapping is the empty string,
so on the sequence `[{a: b}]` the value `""` is found in the snapshot and is not appended, in
the code after the lookup and in `applyUpsert` of `src/cmd` on `{spec: {args: [{a: b}]}}`. -/
theorem empty_string_matches_mapping :
    getArrayValues (some (Node.seq [Node.map [("a".toList, Node.scalar "b".toList)]]))
        = Except.ok [[]]
      ∧ upsertArray [[]] false
          (some (Node.seq [Node.map [("a".toList, Node.scalar "b".toList)]]))
        = (some (Node.seq [Node.map [("a".toList, Node.scalar "b".toList)]]), Outcome.ok ())
      ∧ Cmd.applyUpsert mappingArgsDoc (argsOp _ {} [""] false)
        = (mappingArgsDoc, Outcome.ok ())
      ∧ Node.seq [Node.map [("a".toList, Node.scalar "b".toList)]]
        ≠ Node.seq [Node.map [("a".toList, Node.scalar "b".toList)], Node.scalar []] :=
  ⟨rfl, by decide, by decide, by decide⟩

/-- C16, amended: for every sequence whose elements are all mappings or sequences (none is
of the scalar kind) and every list of non-empty string values, the upsert with
`allowDuplicates=false` appends every value and leaves the existing elements untouched, also
in `applyUpsert` of `src/cmd` when the path leads to the sequence. The empty string is
appended to an empty sequence, and is not appended when the sequence has an element, whose
`Value` is the empty string. -/
theorem dedup_ignores_non_scalars (content : List Node) (values : List Str)
    (item : Node) (path : Str) (parts : List Str) (tc : Cmd.ResourceSelector)
    (hcontent : ∀ e ∈ content, e.kind ≠ Kind.ScalarNode)
    (hvalues : ∀ v ∈ values, v ≠ []) :
    upsertArray values false (some (Node.seq content))
        = (some (Node.seq (content ++ values.map Node.scalar)), Outcome.ok ())
      ∧ (Cmd.parseJSONPath path = some parts →
          lookupNode (cleanPath parts) item = some (Node.seq content) →
          Cmd.applyUpsert item
              { Target := tc, Path := path, Values := values, AllowDuplicates := false }
            = (replaceNode (Node.seq (content ++ values.map Node.scalar)) (cleanPath parts)
                item, Outcome.ok ()))
      ∧ upsertArray [[]] false (some (Node.seq []))
          = (some (Node.seq [Node.scalar []]), Outcome.ok ())
      ∧ (content ≠ [] →
          upsertArray [[]] false (some (Node.seq content))
            = (some (Node.seq content), Outcome.ok ())) := by
  have hnew : newScalarRNode = Node.scalar := rfl
  have hall : ∀ v ∈ values, v ∉ content.map Node.value := by
    intro v hv hm
    exact hvalues v hv (values_of_not_scalar content hcontent v hm)
  refine ⟨?_, ?_, by decide, ?_⟩
  · rw [upsertArray_seq, filter_all_new _ _ _ hall, hnew]
  · intro hp hl
    rw [cmd_applyUpsert_of_lookupNode item _ _ parts hp hl (Or.inl rfl)]
    simp only [upsertArray_onNode_seq]
    rw [filter_all_new _ _ _ hall, hnew]
  · intro hne
    rw [upsertArray_seq]
    have hmem : ([] : Str) ∈ content.map Node.value := by
      cases content with
      | nil => exact absurd rfl hne
      | cons e rest =>
        have := value_of_not_scalar e (hcontent e (List.mem_cons_self _ _))
        simp [this]
    have hc : contains (content.map Node.value) [] = true := (contains_iff _ _).2 hmem
    simp [List.filter_cons, hc]

/-- On `{spec: {args: [{a: b}]}}` the value `q` is appended after the mapping. -/
theorem dedup_ignores_non_scalars_witness :
    Cmd.applyUpsert mappingArgsDoc (argsOp _ {} ["q"] false)
      = (Node.map [("spec".toList, Node.map [("args".toList,
          Node.seq [Node.map [("a".toList, Node.scalar "b".toList)],
            Node.scalar "q".toList])])], Outcome.ok ()) :=
  ((dedup_ignores_non_scalars [Node.map [("a".toList, Node.scalar "b".toList)]]
    ["q".toList] mappingArgsDoc "spec.args".toList ["spec".toList, "args".toList] {}
    (by decide) (by decide)).2.1 (by decide) (by decide)).trans (by decide)

/-! ## Regex anchoring -/

theorem matchFrom_beginText_false (x : Rx) (s : Str) :
    matchFrom (Rx.cat Rx.beginText x) false s = false := by
  induction s with
  | nil => simp [matchFrom, Rx.run]
  | cons c cs ih => simp [matchFrom, Rx.run, ih]

/-- An anchored expression matches a text exactly when the expression matches the whole
text, from its first character to its last. -/
theorem matchString_anchored (r : Rx) (s : Str) :
    regexpMatchString (anchored r) s = r.run true s (fun _ rest => rest.isEmpty) := by
  have hk : (fun (_ : Bool) (s1 : Str) => s1.isEmpty && true)
      = fun _ rest => rest.isEmpty := by
    funext b s1
    simp
  unfold regexpMatchString anchored
  cases s with
  | nil =>
    simp only [matchFrom, Rx.run, Bool.true_and]
    rw [hk]
  | cons c cs =>
    simp only [matchFrom, matchFrom_beginText_false, Bool.or_false, Rx.run, Bool.true_and]
    rw [hk]

/-- One step of `parseAtom` on a pattern that is not empty. -/
theorem parseAtom_cons (fuel : Nat) (c : Char) (cs : Str) :
    parseAtom (fuel + 1) (c :: cs) =
      if c == '(' then
        match cs with
        | '?' :: ':' :: inner =>
          (match parseAlt fuel inner with
            | ParseResult.ok a (')' :: rest) => ParseResult.ok a rest
            | ParseResult.ok _ [] => ParseResult.bad
            | ParseResult.ok _ _ => ParseResult.unmodelled
            | r => r)
        | '?' :: _ => ParseResult.unmodelled
        | inner =>
          (match parseAlt fuel inner with
            | ParseResult.ok a (')' :: rest) => ParseResult.ok a rest
            | ParseResult.ok _ [] => ParseResult.bad
            | ParseResult.ok _ _ => ParseResult.unmodelled
            | r => r)
      else if c == '.' then ParseResult.ok Rx.anyNotNL cs
      else if c == '^' then ParseResult.ok Rx.beginText cs
      else if c == '$' then ParseResult.ok Rx.endText cs
      else if isRep c then ParseResult.bad
      else if c == Char.ofNat 92 then
        match cs with
        | d :: rest => if isMeta d then ParseResult.ok (Rx.char d) rest else ParseResult.unmodelled
        | [] => ParseResult.bad
      else if isMeta c then ParseResult.unmodelled
      else ParseResult.ok (Rx.char c) cs := by
  rfl

theorem isRep_paren : isRep ')' = false := by decide

/-- A piece of a pattern that parses keeps its parse when more fuel is given and when the
pattern goes on with `)`: the parser stops at the same place. -/
theorem parse_extend (t : Str) : ∀ fuel : Nat,
    (∀ s r rest k, parseAlt fuel s = ParseResult.ok r rest →
      parseAlt (fuel + k) (s ++ ')' :: t) = ParseResult.ok r (rest ++ ')' :: t))
    ∧ (∀ s r rest k, parseConcat fuel s = ParseResult.ok r rest →
      parseConcat (fuel + k) (s ++ ')' :: t) = ParseResult.ok r (rest ++ ')' :: t))
    ∧ (∀ s r rest k, parseRepeat fuel s = ParseResult.ok r rest →
      parseRepeat (fuel + k) (s ++ ')' :: t) = ParseResult.ok r (rest ++ ')' :: t))
    ∧ (∀ s r rest k, parseAtom fuel s = ParseResult.ok r rest →
      parseAtom (fuel + k) (s ++ ')' :: t) = ParseResult.ok r (rest ++ ')' :: t)) := by
  intro fuel
  induction fuel with
  | zero =>
    refine ⟨?_, ?_, ?_, ?_⟩ <;> intro s r rest k h
    · simp [parseAlt] at h
    · simp [parseConcat] at h
    · simp [parseRepeat] at h
    · simp [parseAtom] at h
  | succ fuel ih =>
    obtain ⟨ihAlt, ihConcat, ihRepeat, ihAtom⟩ := ih
    have hf : ∀ k, fuel + 1 + k = (fuel + k) + 1 := fun k => by omega
    refine ⟨?_, ?_, ?_, ?_⟩
    · intro s r rest k h
      rw [hf, parseAlt]
      rw [parseAlt] at h
      cases hc : parseConcat fuel s with
      | bad => simp [hc] at h
      | unmodelled => simp [hc] at h
      | ok a tail =>
        rw [ihConcat s a tail k hc]
        rw [hc] at h
        cases tail with
        | nil =>
          simp only [ParseResult.ok.injEq] at h
          simp [h.1, ← h.2]
        | cons c tl =>
          by_cases hbar : c = '|'
          · subst hbar
            simp only at h
            simp only [List.cons_append]
            cases hp : parseAlt fuel tl with
            | bad => simp [hp] at h
            | unmodelled => simp [hp] at h
            | ok b rest2 =>
              rw [hp] at h
              simp only [ParseResult.ok.injEq] at h
              rw [ihAlt tl b rest2 k hp]
              simp [h.1, h.2]
          · simp only [List.cons_append]
            have h1 : (match ParseResult.ok a (c :: tl) with
                | ParseResult.ok a ('|' :: rest) =>
                  match parseAlt fuel rest with
                  | ParseResult.ok b rest2 => ParseResult.ok (Rx.alt a b) rest2
                  | r => r
                | r => r) = ParseResult.ok a (c :: tl) := by
              split
              · rename_i heq
                simp only [ParseResult.ok.injEq, List.cons.injEq] at heq
                exact absurd heq.2.1 hbar
              · rfl
            rw [h1] at h
            simp only [ParseResult.ok.injEq] at h
            split
            · rename_i heq
              simp only [ParseResult.ok.injEq, List.cons.injEq] at heq
              exact absurd heq.2.1 hbar
            · simp [h.1, ← h.2]
    · intro s r rest k h
      rw [hf]
      cases s with
      | nil =>
        simp only [parseConcat, ParseResult.ok.injEq] at h
        simp [parseConcat, h.1, ← h.2]
      | cons c cs =>
        rw [parseConcat] at h
        rw [List.cons_append, parseConcat]
        by_cases hstop : (c == '|' || c == ')') = true
        · rw [if_pos hstop] at h ⊢
          simp only [ParseResult.ok.injEq] at h
          simp [h.1, ← h.2]
        · rw [if_neg hstop] at h ⊢
          cases hr : parseRepeat fuel (c :: cs) with
          | bad => simp [hr] at h
          | unmodelled => simp [hr] at h
          | ok a rest1 =>
            rw [hr] at h
            simp only at h
            have h1 := ihRepeat (c :: cs) a rest1 k hr
            rw [List.cons_append] at h1
            rw [h1]
            simp only
            cases hc2 : parseConcat fuel rest1 with
            | bad => simp [hc2] at h
            | unmodelled => simp [hc2] at h
            | ok b rest2 =>
              rw [hc2] at h
              simp only [ParseResult.ok.injEq] at h
              rw [ihConcat rest1 b rest2 k hc2]
              simp [h.1, h.2]
    · intro s r rest k h
      rw [hf, parseRepeat]
      rw [parseRepeat] at h
      cases ha : parseAtom fuel s with
      | bad => simp [ha] at h
      | unmodelled => simp [ha] at h
      | ok a tail =>
        rw [ihAtom s a tail k ha]
        rw [ha] at h
        cases tail with
        | nil =>
          simp only [ParseResult.ok.injEq] at h
          simp [isRep_paren, h.1, ← h.2]
        | cons c rest0 =>
          simp only [List.cons_append]
          simp only at h
          by_cases hrep : isRep c = true
          · simp only [hrep, if_true] at h ⊢
            cases rest0 with
            | nil =>
              simp only [ParseResult.ok.injEq] at h
              simp [isRep_paren, h.1, ← h.2]
            | cons d rest1 =>
              by_cases hq : d = '?'
              · subst hq
                simp only [List.cons_append] at h ⊢
                cases rest1 with
                | nil =>
                  simp only [ParseResult.ok.injEq] at h
                  simp [isRep_paren, h.1, ← h.2]
                | cons e rest2 =>
                  by_cases he : isRep e = true
                  · simp [he] at h
                  · simp [he] at h
                    simp [he, h.1, ← h.2]
              · simp only [List.cons_append]
                split at h
                · rename_i heq
                  simp only [List.cons.injEq] at heq
                  exact absurd heq.1 hq
                · rename_i heq
                  simp only [List.cons.injEq] at heq
                  rw [← heq.1] at h
                  by_cases hd : isRep d = true
                  · simp [hd] at h
                  · simp [hd] at h
                    simp [hd, h.1, ← h.2]
                · rename_i heq
                  simp at heq
          · simp [hrep] at h
            simp [hrep, h.1, ← h.2]
    · intro s r rest k h
      cases s with
      | nil =>
        have h2 : parseAtom (fuel + 1) [] = ParseResult.unmodelled := rfl
        rw [h2] at h
        cases h
      | cons c cs =>
        rw [parseAtom_cons] at h
        rw [hf, List.cons_append, parseAtom_cons]
        have hgroup : ∀ inner : Str,
            (match parseAlt fuel inner with
              | ParseResult.ok a (')' :: rest) => ParseResult.ok a rest
              | ParseResult.ok _ [] => ParseResult.bad
              | ParseResult.ok _ _ => ParseResult.unmodelled
              | r => r) = ParseResult.ok r rest →
            (match parseAlt (fuel + k) (inner ++ ')' :: t) with
              | ParseResult.ok a (')' :: rest) => ParseResult.ok a rest
              | ParseResult.ok _ [] => ParseResult.bad
              | ParseResult.ok _ _ => ParseResult.unmodelled
              | r => r) = ParseResult.ok r (rest ++ ')' :: t) := by
          intro inner hin
          cases hpa : parseAlt fuel inner with
          | bad => simp [hpa] at hin
          | unmodelled => simp [hpa] at hin
          | ok a tail =>
            rw [hpa] at hin
            rw [ihAlt inner a tail k hpa]
            cases tail with
            | nil => simp at hin
            | cons e tl =>
              by_cases he : e = ')'
              · subst he
                simp only [ParseResult.ok.injEq] at hin
                simp [hin.1, ← hin.2]
              · exfalso
                split at hin
                · rename_i heq
                  simp only [ParseResult.ok.injEq, List.cons.injEq] at heq
                  exact he heq.2.1
                · rename_i heq
                  simp at heq
                · simp at hin
                · rename_i hx
                  exact hx a (e :: tl) rfl
        by_cases hp : (c == '(') = true
        · simp only [hp, if_true] at h ⊢
          split at h
          · simp only [List.cons_append]
            exact hgroup _ h
          · simp at h
          · rename_i hx1 hx2
            cases cs with
            | nil =>
              exfalso
              cases fuel with
              | zero => simp [parseAlt] at h
              | succ f =>
                cases f with
                | zero => simp [parseAlt, parseConcat] at h
                | succ f2 => simp [parseAlt, parseConcat] at h
            | cons e tl =>
              simp only [List.cons_append]
              have he : e ≠ '?' := fun hq => hx2 tl (by rw [hq])
              split
              · rename_i heq
                simp only [List.cons.injEq] at heq
                exact absurd heq.1 he
              · rename_i heq
                simp only [List.cons.injEq] at heq
                exact absurd heq.1 he
              · exact hgroup _ h
        · rw [if_neg hp] at h ⊢
          by_cases h1 : (c == '.') = true
          · rw [if_pos h1] at h ⊢
            simp only [ParseResult.ok.injEq] at h
            simp [h.1, ← h.2]
          rw [if_neg h1] at h ⊢
          by_cases h2 : (c == '^') = true
          · rw [if_pos h2] at h ⊢
            simp only [ParseResult.ok.injEq] at h
            simp [h.1, ← h.2]
          rw [if_neg h2] at h ⊢
          by_cases h3 : (c == '$') = true
          · rw [if_pos h3] at h ⊢
            simp only [ParseResult.ok.injEq] at h
            simp [h.1, ← h.2]
          rw [if_neg h3] at h ⊢
          by_cases h4 : isRep c = true
          · rw [if_pos h4] at h
            cases h
          rw [if_neg h4] at h ⊢
          by_cases h5 : (c == Char.ofNat 92) = true
          · rw [if_pos h5] at h ⊢
            cases cs with
            | nil => cases h
            | cons d rest0 =>
              simp only [List.cons_append]
              simp only at h
              by_cases h6 : isMeta d = true
              · rw [if_pos h6] at h ⊢
                simp only [ParseResult.ok.injEq] at h
                simp [h.1, ← h.2]
              · rw [if_neg h6] at h
                cases h
          rw [if_neg h5] at h ⊢
          by_cases h7 : isMeta c = true
          · rw [if_pos h7] at h
            cases h
          rw [if_neg h7] at h ⊢
          simp only [ParseResult.ok.injEq] at h
          simp [h.1, ← h.2]


theorem parseAlt_of_compile (p : Str) (r : Rx) (h : regexpCompile p = Outcome.ok r) :
    parseAlt (4 * p.length + 8) p = ParseResult.ok r [] := by
  unfold regexpCompile at h
  split at h
  · rename_i r0 heq
    simp only [Outcome.ok.injEq] at h
    rw [heq, h]
  all_goals cases h

/-- Compiling the anchored form of a non-empty pattern that compiles gives the anchored
expression. -/
theorem regexpCompile_anchorRegex (p : Str) (r : Rx) (hne : p ≠ [])
    (h : regexpCompile p = Outcome.ok r) :
    regexpCompile (Cmd.anchorRegex p) = Outcome.ok (anchored r) := by
  have hp := parseAlt_of_compile p r h
  have hext := (parse_extend ['$'] (4 * p.length + 8)).1 p r [] 19 hp
  have hlen : 4 * (Cmd.anchorRegex p).length + 8 = 4 * p.length + 8 + 23 + 1 := by
    simp [Cmd.anchorRegex, hne]
    omega
  have hs : Cmd.anchorRegex p = '^' :: '(' :: '?' :: ':' :: (p ++ [')', '$']) := by
    simp [Cmd.anchorRegex, hne]
  have h1 : parseAtom (4 * p.length + 8 + 19 + 1) ('(' :: '?' :: ':' :: (p ++ [')', '$']))
      = ParseResult.ok r ['$'] := by
    rw [parseAtom_cons]
    simp only [beq_self_eq_true, if_true]
    rw [hext]
    rfl
  have h2 : parseRepeat (4 * p.length + 8 + 20 + 1) ('(' :: '?' :: ':' :: (p ++ [')', '$']))
      = ParseResult.ok r ['$'] := by
    rw [parseRepeat, h1]
    rfl
  have h3 : parseConcat (4 * p.length + 8 + 20 + 1) ['$']
      = ParseResult.ok (Rx.cat Rx.endText Rx.empty) [] := by
    rfl
  have h4 : parseConcat (4 * p.length + 8 + 21 + 1) ('(' :: '?' :: ':' :: (p ++ [')', '$']))
      = ParseResult.ok (Rx.cat r (Rx.cat Rx.endText Rx.empty)) [] := by
    rw [parseConcat]
    rw [if_neg (by decide), h2]
    simp only
    rw [h3]
  have h5 : parseRepeat (4 * p.length + 8 + 21 + 1)
      ('^' :: '(' :: '?' :: ':' :: (p ++ [')', '$']))
      = ParseResult.ok Rx.beginText ('(' :: '?' :: ':' :: (p ++ [')', '$'])) := by
    rfl
  have h6 : parseConcat (4 * p.length + 8 + 22 + 1)
      ('^' :: '(' :: '?' :: ':' :: (p ++ [')', '$']))
      = ParseResult.ok (anchored r) [] := by
    rw [parseConcat]
    rw [if_neg (by decide), h5]
    simp only
    rw [h4]
    rfl
  unfold regexpCompile
  rw [hlen, hs, parseAlt, h6]

theorem regexpCompile_nil : regexpCompile [] = Outcome.ok Rx.empty := by decide

/-- What the selector field `p` is compiled to. -/
theorem compile_field (p : Str) (r : Rx) (h : regexpCompile p = Outcome.ok r) :
    goRegexp.compile (Cmd.anchorRegex p)
      = Outcome.ok (if p = [] then Rx.empty else anchored r) := by
  by_cases hp : p = []
  · subst hp
    simp only [if_true]
    exact regexpCompile_nil
  · simp only [if_neg hp]
    exact regexpCompile_anchorRegex p r hp h

theorem newSelectorRegex_of_compile (sel : Cmd.ResourceSelector) (g v k n ns : Rx)
    (hg : regexpCompile sel.Group = Outcome.ok g)
    (hv : regexpCompile sel.Version = Outcome.ok v)
    (hk : regexpCompile sel.Kind = Outcome.ok k)
    (hn : regexpCompile sel.Name = Outcome.ok n)
    (hns : regexpCompile sel.Namespace = Outcome.ok ns) :
    Cmd.newSelectorRegex goRegexp sel
      = Outcome.ok { selector := sel,
                     gsr := if sel.Group = [] then Rx.empty else anchored g,
                     vsr := if sel.Version = [] then Rx.empty else anchored v,
                     ksr := if sel.Kind = [] then Rx.empty else anchored k,
                     nameRegex := if sel.Name = [] then Rx.empty else anchored n,
                     namespaceRegex :=
                       if sel.Namespace = [] then Rx.empty else anchored ns } := by
  unfold Cmd.newSelectorRegex
  rw [compile_field _ _ hg, compile_field _ _ hv, compile_field _ _ hk, compile_field _ _ hn,
    compile_field _ _ hns]

theorem gvk_field_check (p : Str) (r : Rx) (x : Str) :
    (p.length > 0 ∧
        ¬ goRegexp.matchString (if p = [] then Rx.empty else anchored r) x = true)
      ↔ fieldAccepts p r x = false := by
  cases p with
  | nil => simp [fieldAccepts]
  | cons c cs =>
    simp only [List.length_cons, gt_iff_lt, Nat.zero_lt_succ, true_and, if_neg (List.cons_ne_nil c cs)]
    show ¬ regexpMatchString (anchored r) x = true ↔ _
    rw [matchString_anchored]
    simp [fieldAccepts, matchesWhole]

theorem name_field_check (p : Str) (r : Rx) (x : Str) :
    (if p = [] then true
      else goRegexp.matchString (if p = [] then Rx.empty else anchored r) x)
      = fieldAccepts p r x := by
  cases p with
  | nil => simp [fieldAccepts]
  | cons c cs =>
    simp only [if_neg (List.cons_ne_nil c cs)]
    show regexpMatchString (anchored r) x = _
    rw [matchString_anchored]
    simp [fieldAccepts, matchesWhole]

theorem matchesTarget_whole (item : Node) (id : Cmd.ResId) (sel : Cmd.ResourceSelector)
    (g v k n ns : Rx)
    (hid : Cmd.fromRNode item = Outcome.ok id)
    (hg : regexpCompile sel.Group = Outcome.ok g)
    (hv : regexpCompile sel.Version = Outcome.ok v)
    (hk : regexpCompile sel.Kind = Outcome.ok k)
    (hn : regexpCompile sel.Name = Outcome.ok n)
    (hns : regexpCompile sel.Namespace = Outcome.ok ns) :
    Cmd.matchesTarget goRegexp item sel
      = Outcome.ok (fieldAccepts sel.Group g id.Gvk.Group
          && fieldAccepts sel.Version v id.Gvk.Version
          && fieldAccepts sel.Kind k id.Gvk.Kind
          && fieldAccepts sel.Name n id.Name
          && fieldAccepts sel.Namespace ns id.Namespace) := by
  unfold Cmd.matchesTarget
  rw [hid, newSelectorRegex_of_compile sel g v k n ns hg hv hk hn hns]
  simp only [Outcome.bind, Cmd.matchGvk, Cmd.matchName, Cmd.matchNamespace,
    gvk_field_check, name_field_check]
  cases fieldAccepts sel.Group g id.Gvk.Group <;>
  cases fieldAccepts sel.Version v id.Gvk.Version <;>
  cases fieldAccepts sel.Kind k id.Gvk.Kind <;>
  cases fieldAccepts sel.Name n id.Name <;>
  cases fieldAccepts sel.Namespace ns id.Namespace <;> rfl

theorem starLoop_mono (step : Bool → Str → (Bool → Str → Bool) → Bool)
    (hstep : ∀ (b : Bool) (s : Str) (k1 k2 : Bool → Str → Bool),
      (∀ b1 t, k1 b1 t = true → k2 b1 t = true) → step b s k1 = true → step b s k2 = true)
    (fuel : Nat) : ∀ (b : Bool) (s : Str) (k1 k2 : Bool → Str → Bool),
      (∀ b1 t, k1 b1 t = true → k2 b1 t = true) →
      starLoop step fuel b s k1 = true → starLoop step fuel b s k2 = true := by
  induction fuel with
  | zero =>
    intro b s k1 k2 hk h
    simp only [starLoop] at h ⊢
    exact hk _ _ h
  | succ fuel ih =>
    intro b s k1 k2 hk h
    simp only [starLoop, Bool.or_eq_true] at h ⊢
    rcases h with h | h
    · exact Or.inl (hk _ _ h)
    · refine Or.inr (hstep b s _ _ ?_ h)
      intro b1 t ht
      simp only [Bool.and_eq_true] at ht ⊢
      exact ⟨ht.1, ih b1 t k1 k2 hk ht.2⟩

/-- A match stays a match when what may follow it is widened. -/
theorem run_mono (r : Rx) : ∀ (b : Bool) (s : Str) (k1 k2 : Bool → Str → Bool),
    (∀ b1 t, k1 b1 t = true → k2 b1 t = true) →
    r.run b s k1 = true → r.run b s k2 = true := by
  induction r with
  | empty =>
    intro b s k1 k2 hk h
    simp only [Rx.run] at h ⊢
    exact hk _ _ h
  | char c =>
    intro b s k1 k2 hk h
    cases s with
    | nil => simp [Rx.run] at h
    | cons d ds =>
      simp only [Rx.run, Bool.and_eq_true] at h ⊢
      exact ⟨h.1, hk _ _ h.2⟩
  | anyNotNL =>
    intro b s k1 k2 hk h
    cases s with
    | nil => simp [Rx.run] at h
    | cons d ds =>
      simp only [Rx.run, Bool.and_eq_true] at h ⊢
      exact ⟨h.1, hk _ _ h.2⟩
  | beginText =>
    intro b s k1 k2 hk h
    simp only [Rx.run, Bool.and_eq_true] at h ⊢
    exact ⟨h.1, hk _ _ h.2⟩
  | endText =>
    intro b s k1 k2 hk h
    simp only [Rx.run, Bool.and_eq_true] at h ⊢
    exact ⟨h.1, hk _ _ h.2⟩
  | cat a b iha ihb =>
    intro b0 s k1 k2 hk h
    simp only [Rx.run] at h ⊢
    exact iha b0 s _ _ (fun b1 t ht => ihb b1 t k1 k2 hk ht) h
  | alt a b iha ihb =>
    intro b0 s k1 k2 hk h
    simp only [Rx.run, Bool.or_eq_true] at h ⊢
    rcases h with h | h
    · exact Or.inl (iha b0 s k1 k2 hk h)
    · exact Or.inr (ihb b0 s k1 k2 hk h)
  | star a iha =>
    intro b0 s k1 k2 hk h
    simp only [Rx.run] at h ⊢
    exact starLoop_mono a.run iha _ b0 s k1 k2 hk h
  | plus a iha =>
    intro b0 s k1 k2 hk h
    simp only [Rx.run] at h ⊢
    exact iha b0 s _ _ (fun b1 t ht => starLoop_mono a.run iha _ b1 t k1 k2 hk ht) h
  | opt a iha =>
    intro b0 s k1 k2 hk h
    simp only [Rx.run, Bool.or_eq_true] at h ⊢
    rcases h with h | h
    · exact Or.inl (hk _ _ h)
    · exact Or.inr (iha b0 s k1 k2 hk h)

/-- A pattern that matches the whole text occurs in the text. -/
theorem matchString_of_matchesWhole (r : Rx) (s : Str) (h : matchesWhole r s = true) :
    regexpMatchString r s = true := by
  unfold matchesWhole at h
  have h2 := run_mono r true s _ (fun _ _ => true) (fun _ _ _ => rfl) h
  unfold regexpMatchString
  cases s with
  | nil => simpa [matchFrom] using h2
  | cons c cs => simp [matchFrom, h2]

/-- C19: in the regex-capable `matchesTarget` a selector field is matched against the whole
identity field, not a substring. For every document whose identity `resid.FromRNode` reads
and every selector whose five patterns compile, `matchesTarget` returns without error, and
its answer is true exactly when each of group, version, kind, name and namespace is unset or
its pattern matches the whole of the identity field of the document. A pattern that matches the whole text also occurs in it, and
not the other way round: the selectors `{kind: "^Foo.*$"}` and `{kind: "Foo.*"}` match a
document of kind `FooBar` and do not match a document of kind `XFooBar`, although the pattern
`Foo.*` itself, not anchored, occurs in `XFooBar`. A non-empty pattern is compiled as
`^(?:pattern)$`, and such an expression matches exactly when the pattern matches the whole
text. -/
theorem regex_anchoring (item : Node) (id : Cmd.ResId) (sel : Cmd.ResourceSelector)
    (g v k n ns : Rx)
    (hid : Cmd.fromRNode item = Outcome.ok id)
    (hg : regexpCompile sel.Group = Outcome.ok g)
    (hv : regexpCompile sel.Version = Outcome.ok v)
    (hk : regexpCompile sel.Kind = Outcome.ok k)
    (hn : regexpCompile sel.Name = Outcome.ok n)
    (hns : regexpCompile sel.Namespace = Outcome.ok ns) :
    Cmd.matchesTarget goRegexp item sel
        = Outcome.ok (fieldAccepts sel.Group g id.Gvk.Group
            && fieldAccepts sel.Version v id.Gvk.Version
            && fieldAccepts sel.Kind k id.Gvk.Kind
            && fieldAccepts sel.Name n id.Name
            && fieldAccepts sel.Namespace ns id.Namespace)
      ∧ (∀ (p : Str) (r : Rx), p ≠ [] → regexpCompile p = Outcome.ok r →
          regexpCompile (Cmd.anchorRegex p) = Outcome.ok (anchored r))
      ∧ (∀ (r : Rx) (s : Str), matchesWhole r s = true → regexpMatchString r s = true)
      ∧ Cmd.matchesTarget goRegexp (kindDoc "FooBar") { Kind := "^Foo.*$".toList }
        = Outcome.ok true
      ∧ Cmd.matchesTarget goRegexp (kindDoc "XFooBar") { Kind := "^Foo.*$".toList }
        = Outcome.ok false
      ∧ Cmd.matchesTarget goRegexp (kindDoc "FooBar") { Kind := "Foo.*".toList }
        = Outcome.ok true
      ∧ Cmd.matchesTarget goRegexp (kindDoc "XFooBar") { Kind := "Foo.*".toList }
        = Outcome.ok false
      ∧ Cmd.anchorRegex "Foo.*".toList = "^(?:Foo.*)$".toList
      ∧ (∃ r, regexpCompile "Foo.*".toList = Outcome.ok r
          ∧ regexpCompile (Cmd.anchorRegex "Foo.*".toList) = Outcome.ok (anchored r)
          ∧ regexpMatchString r "XFooBar".toList = true
          ∧ regexpMatchString (anchored r) "XFooBar".toList = false)
      ∧ ∀ (r : Rx) (s : Str),
          regexpMatchString (anchored r) s = r.run true s (fun _ rest => rest.isEmpty) := by
  refine ⟨matchesTarget_whole item id sel g v k n ns hid hg hv hk hn hns,
    fun p r hne h => regexpCompile_anchorRegex p r hne h, matchString_of_matchesWhole,
    by decide, by decide, by decide, by decide, by decide, ?_, matchString_anchored⟩
  refine ⟨Rx.cat (Rx.char 'F') (Rx.cat (Rx.char 'o') (Rx.cat (Rx.char 'o')
    (Rx.cat (Rx.star Rx.anyNotNL) Rx.empty))), by decide, by decide, by decide, by decide⟩

/-- The selector `{group: apps, version: v1, kind: "Deploy.*", name: web, namespace: rod}`
does not match the deployment `web` of the namespace `prod`, although `rod` occurs in
`prod`. -/
theorem regex_anchoring_witness :
    Cmd.matchesTarget goRegexp deploymentDoc
        { Group := "apps".toList, Version := "v1".toList, Kind := "Deploy.*".toList,
          Name := "web".toList, Namespace := "rod".toList } = Outcome.ok false
      ∧ regexpMatchString
          (Rx.cat (Rx.char 'r') (Rx.cat (Rx.char 'o') (Rx.cat (Rx.char 'd') Rx.empty)))
          "prod".toList = true :=
  ⟨(regex_anchoring deploymentDoc
      { Gvk := { Group := "apps".toList, Version := "v1".toList,
                 Kind := "Deployment".toList },
        Name := "web".toList, Namespace := "prod".toList }
      { Group := "apps".toList, Version := "v1".toList, Kind := "Deploy.*".toList,
        Name := "web".toList, Namespace := "rod".toList }
      (Rx.cat (Rx.char 'a') (Rx.cat (Rx.char 'p') (Rx.cat (Rx.char 'p')
        (Rx.cat (Rx.char 's') Rx.empty))))
      (Rx.cat (Rx.char 'v') (Rx.cat (Rx.char '1') Rx.empty))
      (Rx.cat (Rx.char 'D') (Rx.cat (Rx.char 'e') (Rx.cat (Rx.char 'p') (Rx.cat (Rx.char 'l')
        (Rx.cat (Rx.char 'o') (Rx.cat (Rx.char 'y') (Rx.cat (Rx.star Rx.anyNotNL)
          Rx.empty)))))))
      (Rx.cat (Rx.char 'w') (Rx.cat (Rx.char 'e') (Rx.cat (Rx.char 'b') Rx.empty)))
      (Rx.cat (Rx.char 'r') (Rx.cat (Rx.char 'o') (Rx.cat (Rx.char 'd') Rx.empty)))
      (by decide) (by decide) (by decide) (by decide) (by decide) (by decide)).1.trans
      (by decide),
    by decide⟩

/-! ## The pass over documents and operations -/

section Pass

variable {Sel : Type} (M : Node → Sel → Outcome Bool)
  (A : Node → UpsertOperation Sel → Node × Res)

theorem applyOperations_append (ops1 ops2 : List (UpsertOperation Sel)) (item : Node) :
    applyOperations M A (ops1 ++ ops2) item
      = if (applyOperations M A ops1 item).2 = Outcome.ok () then
          applyOperations M A ops2 (applyOperations M A ops1 item).1
        else applyOperations M A ops1 item := by
  induction ops1 generalizing item with
  | nil => simp [applyOperations]
  | cons op rest ih =>
    simp only [List.cons_append, applyOperations]
    rcases hstep : applyOperation M A item op with ⟨item1, r⟩
    cases r with
    | ok u =>
      cases u
      simp only
      exact ih item1
    | error e => simp
    | panic => simp
    | unmodelled => simp

theorem applyOperations_single_step (op : UpsertOperation Sel) (item : Node) :
    applyOperations M A [op] item = applyOperation M A item op := by
  simp only [applyOperations]
  rcases hstep : applyOperation M A item op with ⟨item1, r⟩
  cases r with
  | ok u => cases u; rfl
  | error e => rfl
  | panic => rfl
  | unmodelled => rfl

/-- The operations of one document all succeed exactly when every step does, each step being
taken on the document as the operations before it left it. -/
theorem applyOperations_ok_iff (ops : List (UpsertOperation Sel)) (item : Node) :
    (applyOperations M A ops item).2 = Outcome.ok () ↔
      ∀ pre op post, ops = pre ++ op :: post →
        (applyOperation M A (applyOperations M A pre item).1 op).2 = Outcome.ok () := by
  induction ops generalizing item with
  | nil =>
    constructor
    · intro _ pre op post h
      simp at h
    · intro _
      rfl
  | cons op0 rest ih =>
    constructor
    · intro h pre op post hsplit
      cases pre with
      | nil =>
        simp only [List.nil_append, List.cons.injEq] at hsplit
        obtain ⟨rfl, -⟩ := hsplit
        simp only [applyOperations] at h ⊢
        rcases hstep : applyOperation M A item op0 with ⟨item1, r⟩
        rw [hstep] at h
        cases r with
        | ok u => rfl
        | error e => simp at h
        | panic => simp at h
        | unmodelled => simp at h
      | cons p pre1 =>
        simp only [List.cons_append, List.cons.injEq] at hsplit
        obtain ⟨rfl, hrest⟩ := hsplit
        simp only [applyOperations] at h ⊢
        rcases hstep : applyOperation M A item op0 with ⟨item1, r⟩
        rw [hstep] at h
        cases r with
        | ok u =>
          cases u
          simp only at h ⊢
          exact (ih item1).1 h pre1 op post hrest
        | error e => simp at h
        | panic => simp at h
        | unmodelled => simp at h
    · intro h
      have h0 := h [] op0 rest rfl
      simp only [applyOperations] at h0 ⊢
      rcases hstep : applyOperation M A item op0 with ⟨item1, r⟩
      rw [hstep] at h0
      simp only at h0
      subst h0
      simp only
      apply (ih item1).2
      intro pre op post hsplit
      have := h (op0 :: pre) op post (by simp [hsplit])
      simpa [applyOperations, hstep] using this

/-- The first failing step ends the loop of a document: the operations after it are not run,
and the document stays as that step left it. -/
theorem applyOperations_first_failure (pre post : List (UpsertOperation Sel))
    (op : UpsertOperation Sel) (item : Node)
    (hpre : (applyOperations M A pre item).2 = Outcome.ok ())
    (hfail : (applyOperation M A (applyOperations M A pre item).1 op).2 ≠ Outcome.ok ()) :
    applyOperations M A (pre ++ op :: post) item
      = applyOperation M A (applyOperations M A pre item).1 op := by
  rw [applyOperations_append, if_pos hpre]
  generalize (applyOperations M A pre item).1 = d at hfail ⊢
  rw [applyOperations]
  rcases hstep : applyOperation M A d op with ⟨item1, r⟩
  rw [hstep] at hfail
  cases r with
  | ok u => exact absurd rfl hfail
  | error e => rfl
  | panic => rfl
  | unmodelled => rfl

/-- The pass succeeds exactly when the operations of every document succeed. -/
theorem filterItems_ok_iff (ops : List (UpsertOperation Sel)) (items : List Node) :
    (filterItems M A ops items).2 = Outcome.ok () ↔
      ∀ item ∈ items, (applyOperations M A ops item).2 = Outcome.ok () := by
  induction items with
  | nil => simp [filterItems]
  | cons item rest ih =>
    simp only [filterItems, List.mem_cons, forall_eq_or_imp]
    rcases hrun : applyOperations M A ops item with ⟨item1, r⟩
    cases r with
    | ok u =>
      cases u
      simp only [true_and]
      exact ih
    | error e => simp
    | panic => simp
    | unmodelled => simp

/-- After a pass without failure the documents are, in order, the documents the operations
left. -/
theorem filterItems_ok (ops : List (UpsertOperation Sel)) (items : List Node)
    (h : ∀ item ∈ items, (applyOperations M A ops item).2 = Outcome.ok ()) :
    filterItems M A ops items
      = (items.map (fun item => (applyOperations M A ops item).1), Outcome.ok ()) := by
  induction items with
  | nil => rfl
  | cons item rest ih =>
    have h1 := h item (List.mem_cons_self _ _)
    have h2 := ih (fun d hd => h d (List.mem_cons_of_mem _ hd))
    simp only [filterItems, List.map_cons]
    rcases hrun : applyOperations M A ops item with ⟨item1, r⟩
    rw [hrun] at h1
    simp only at h1
    subst h1
    simp only [h2]

theorem filterItems_cons_ok (ops : List (UpsertOperation Sel)) (item : Node)
    (rest : List Node) (h : (applyOperations M A ops item).2 = Outcome.ok ()) :
    filterItems M A ops (item :: rest)
      = ((applyOperations M A ops item).1 :: (filterItems M A ops rest).1,
          (filterItems M A ops rest).2) := by
  rw [filterItems]
  rcases hrun : applyOperations M A ops item with ⟨item1, r⟩
  rw [hrun] at h
  simp only at h
  rw [h]

/-- The first failing document ends the pass: the documents before it are as their
operations left them, the failing document is as its failing step left it, and the documents
after it are untouched. -/
theorem filterItems_first_failure (ops : List (UpsertOperation Sel))
    (dpre dpost : List Node) (item : Node)
    (hpre : ∀ d ∈ dpre, (applyOperations M A ops d).2 = Outcome.ok ())
    (hfail : (applyOperations M A ops item).2 ≠ Outcome.ok ()) :
    filterItems M A ops (dpre ++ item :: dpost)
      = (dpre.map (fun d => (applyOperations M A ops d).1)
          ++ (applyOperations M A ops item).1 :: dpost,
        (applyOperations M A ops item).2) := by
  induction dpre with
  | nil =>
    rw [List.nil_append, filterItems, List.map_nil, List.nil_append]
    rcases hrun : applyOperations M A ops item with ⟨item1, r⟩
    rw [hrun] at hfail
    cases r with
    | ok u => exact absurd rfl hfail
    | error e => rfl
    | panic => rfl
    | unmodelled => rfl
  | cons d rest ih =>
    have h1 := hpre d (List.mem_cons_self _ _)
    have h2 := ih (fun x hx => hpre x (List.mem_cons_of_mem _ hx))
    rw [List.cons_append, filterItems, h2]
    rcases hrun : applyOperations M A ops d with ⟨d1, r⟩
    rw [hrun] at h1
    simp only at h1
    subst h1
    simp [hrun]

/-- A document that no operation matches goes through the loop unchanged. -/
theorem applyOperations_no_match (ops : List (UpsertOperation Sel)) (item : Node)
    (h : ∀ op ∈ ops, M item op.Target = Outcome.ok false) :
    applyOperations M A ops item = (item, Outcome.ok ()) := by
  induction ops with
  | nil => rfl
  | cons op rest ih =>
    have h1 := h op (List.mem_cons_self _ _)
    simp only [applyOperations, applyOperation, h1]
    exact ih (fun o ho => h o (List.mem_cons_of_mem _ ho))

/-- When the operations of a document do not all succeed, one of them is the first to
fail, and the loop ends as that step does. -/
theorem applyOperations_failure (ops : List (UpsertOperation Sel)) (item : Node)
    (h : (applyOperations M A ops item).2 ≠ Outcome.ok ()) :
    ∃ pre op post, ops = pre ++ op :: post ∧
      (applyOperations M A pre item).2 = Outcome.ok () ∧
      (applyOperation M A (applyOperations M A pre item).1 op).2
        = (applyOperations M A ops item).2 := by
  induction ops generalizing item with
  | nil => exact absurd rfl h
  | cons op0 rest ih =>
    by_cases hstep : (applyOperation M A item op0).2 = Outcome.ok ()
    · have hrun : applyOperations M A (op0 :: rest) item
          = applyOperations M A rest (applyOperation M A item op0).1 := by
        have h1 := applyOperations_append M A [op0] rest item
        rw [applyOperations_single_step M A op0 item] at h1
        simpa [hstep] using h1
      rw [hrun] at h ⊢
      obtain ⟨pre, op, post, h1, h2, h3⟩ := ih _ h
      refine ⟨op0 :: pre, op, post, by rw [h1]; rfl, ?_, ?_⟩
      · have hp := applyOperations_append M A [op0] pre item
        rw [applyOperations_single_step M A op0 item] at hp
        have hp2 : applyOperations M A (op0 :: pre) item
            = applyOperations M A pre (applyOperation M A item op0).1 := by
          simpa [hstep] using hp
        rw [hp2]
        exact h2
      · have hp := applyOperations_append M A [op0] pre item
        rw [applyOperations_single_step M A op0 item] at hp
        have hp2 : applyOperations M A (op0 :: pre) item
            = applyOperations M A pre (applyOperation M A item op0).1 := by
          simpa [hstep] using hp
        rw [hp2]
        exact h3
    · refine ⟨[], op0, rest, rfl, rfl, ?_⟩
      have h1 := applyOperations_first_failure M A [] rest op0 item rfl hstep
      simp only [List.nil_append] at h1
      rw [h1]

/-- When the pass does not succeed, one document is the first whose operations fail, and
the pass ends as the loop of that document does. -/
theorem filterItems_failure (ops : List (UpsertOperation Sel)) (items : List Node)
    (h : (filterItems M A ops items).2 ≠ Outcome.ok ()) :
    ∃ dpre item dpost, items = dpre ++ item :: dpost ∧
      (∀ d ∈ dpre, (applyOperations M A ops d).2 = Outcome.ok ()) ∧
      (applyOperations M A ops item).2 = (filterItems M A ops items).2 := by
  induction items with
  | nil => exact absurd rfl h
  | cons item rest ih =>
    by_cases hrun : (applyOperations M A ops item).2 = Outcome.ok ()
    · have h1 := filterItems_cons_ok M A ops item rest hrun
      rw [h1] at h ⊢
      obtain ⟨dpre, d, dpost, k1, k2, k3⟩ := ih h
      refine ⟨item :: dpre, d, dpost, by rw [k1]; rfl, ?_, k3⟩
      intro x hx
      rcases List.mem_cons.1 hx with hx | hx
      · rw [hx]
        exact hrun
      · exact k2 x hx
    · refine ⟨[], item, rest, rfl, by simp, ?_⟩
      have h1 := filterItems_first_failure M A ops [] rest item (by simp) hrun
      simp only [List.nil_append] at h1
      rw [h1]

/-- The pass ends as its first failing step does, and it fails only when a step does. -/
theorem filterItems_failure_iff (ops : List (UpsertOperation Sel)) (items : List Node)
    (r : Res) (hr : r ≠ Outcome.ok ()) :
    (filterItems M A ops items).2 = r ↔ FirstFailure M A ops items r := by
  constructor
  · intro h
    have hne : (filterItems M A ops items).2 ≠ Outcome.ok () := by
      rw [h]
      exact hr
    obtain ⟨dpre, item, dpost, k1, k2, k3⟩ := filterItems_failure M A ops items hne
    have hne2 : (applyOperations M A ops item).2 ≠ Outcome.ok () := by
      rw [k3]
      exact hne
    obtain ⟨pre, op, post, j1, j2, j3⟩ := applyOperations_failure M A ops item hne2
    exact ⟨hr, dpre, item, dpost, pre, op, post, k1, j1, k2, j2, by rw [j3, k3, h]⟩
  · rintro ⟨_, dpre, item, dpost, pre, op, post, k1, j1, k2, j2, j3⟩
    have hne : (applyOperation M A (applyOperations M A pre item).1 op).2 ≠ Outcome.ok () := by
      rw [j3]
      exact hr
    have hitem := applyOperations_first_failure M A pre post op item j2 hne
    rw [← j1] at hitem
    have hne2 : (applyOperations M A ops item).2 ≠ Outcome.ok () := by
      rw [hitem]
      exact hne
    have h1 := filterItems_first_failure M A ops dpre dpost item k2 hne2
    rw [k1, h1, hitem, j3]

end Pass

theorem filterReturn_error_iff (r : List Node × Res) (e : Err) :
    filterReturn r = Outcome.error e ↔ r.2 = Outcome.error e := by
  obtain ⟨docs, res⟩ := r
  cases res with
  | ok u => cases u; simp [filterReturn]
  | error e1 => simp [filterReturn]
  | panic => simp [filterReturn]
  | unmodelled => simp [filterReturn]

theorem filterReturn_panic_iff (r : List Node × Res) :
    filterReturn r = Outcome.panic ↔ r.2 = Outcome.panic := by
  obtain ⟨docs, res⟩ := r
  cases res with
  | ok u => cases u; simp [filterReturn]
  | error e1 => simp [filterReturn]
  | panic => simp [filterReturn]
  | unmodelled => simp [filterReturn]

theorem filterReturn_ok (docs : List Node) :
    filterReturn (docs, Outcome.ok ()) = Outcome.ok docs := rfl

theorem filterReturn_ok_iff (r : List Node × Res) :
    (∃ out, filterReturn r = Outcome.ok out) ↔ r.2 = Outcome.ok () := by
  obtain ⟨docs, res⟩ := r
  cases res with
  | ok u => cases u; simp [filterReturn]
  | error e => simp [filterReturn]
  | panic => simp [filterReturn]
  | unmodelled => simp [filterReturn]

/-- The pass of either program: it returns the documents exactly when every step succeeds,
and otherwise stops at the first failing step. -/
theorem filterItems_spec {Sel : Type} (M : Node → Sel → Outcome Bool)
    (A : Node → UpsertOperation Sel → Node × Res)
    (ops : List (UpsertOperation Sel)) (items : List Node) :
    ((∃ out, filterReturn (filterItems M A ops items) = Outcome.ok out) ↔
        ∀ item ∈ items, ∀ pre op post, ops = pre ++ op :: post →
          (applyOperation M A (applyOperations M A pre item).1 op).2 = Outcome.ok ())
      ∧ ((∀ item ∈ items, ∀ pre op post, ops = pre ++ op :: post →
            (applyOperation M A (applyOperations M A pre item).1 op).2 = Outcome.ok ()) →
          filterItems M A ops items
              = (items.map (fun item => (applyOperations M A ops item).1), Outcome.ok ())
            ∧ filterReturn (filterItems M A ops items)
              = Outcome.ok (items.map (fun item => (applyOperations M A ops item).1)))
      ∧ (∀ dpre item dpost pre op post e,
          items = dpre ++ item :: dpost → ops = pre ++ op :: post →
          (∀ d ∈ dpre, (applyOperations M A ops d).2 = Outcome.ok ()) →
          (applyOperations M A pre item).2 = Outcome.ok () →
          (applyOperation M A (applyOperations M A pre item).1 op).2 = Outcome.error e →
          filterItems M A ops items
              = (dpre.map (fun d => (applyOperations M A ops d).1)
                  ++ (applyOperation M A (applyOperations M A pre item).1 op).1 :: dpost,
                Outcome.error e)
            ∧ filterReturn (filterItems M A ops items) = Outcome.error e) := by
  have hall : (∀ item ∈ items, ∀ pre op post, ops = pre ++ op :: post →
      (applyOperation M A (applyOperations M A pre item).1 op).2 = Outcome.ok ()) ↔
      ∀ item ∈ items, (applyOperations M A ops item).2 = Outcome.ok () := by
    constructor
    · intro h item hi
      exact (applyOperations_ok_iff M A ops item).2 (h item hi)
    · intro h item hi
      exact (applyOperations_ok_iff M A ops item).1 (h item hi)
  refine ⟨?_, ?_, ?_⟩
  · rw [filterReturn_ok_iff, filterItems_ok_iff, hall]
  · intro h
    have h1 := filterItems_ok M A ops items (hall.1 h)
    exact ⟨h1, by rw [h1]; rfl⟩
  · intro dpre item dpost pre op post e hitems hops hpre hpreops hfail
    have hne : (applyOperation M A (applyOperations M A pre item).1 op).2 ≠ Outcome.ok () := by
      rw [hfail]
      simp
    have hitem := applyOperations_first_failure M A pre post op item hpreops hne
    rw [← hops] at hitem
    have hne2 : (applyOperations M A ops item).2 ≠ Outcome.ok () := by
      rw [hitem]
      exact hne
    have h1 := filterItems_first_failure M A ops dpre dpost item hpre hne2
    rw [← hitems, hitem, hfail] at h1
    exact ⟨h1, by rw [h1]; rfl⟩

/-- C18: in both programs the pass over the documents (in order) and the operations (in
configured order) returns the documents without error exactly when every matching and upsert
step succeeds, each step being taken on the document as the steps before left it; then the
documents returned are the documents the operations left, in order. When a step fails with
an error and every step before it succeeded, `Filter` returns that error and no document
list; the operations after the failing step are not run and the documents after the failing
one are untouched. `Filter` of `src/cmd` is this pass on the operations it resolved.
`Filter` returns the error `e` exactly when the first step that fails ends with the error
`e`, and it ends in a panic exactly when the first step that fails panics: with the path
`]a[0`, on which `parseJSONPath` panics, `Filter` of `src/cmd` returns no error although a
step failed. -/
theorem filter_first_error (t : Main.UpsertTransformer) (lib : RegexpLib)
    (ops : List (UpsertOperation Cmd.ResourceSelector)) (items : List Node) :
    (((∃ out, (Main.Filter t items).2 = Outcome.ok out) ↔
          ∀ item ∈ items, ∀ pre op post, t.Operations = pre ++ op :: post →
            (Main.step (Main.runOps pre item).1 op).2 = Outcome.ok ())
        ∧ ((∀ item ∈ items, ∀ pre op post, t.Operations = pre ++ op :: post →
              (Main.step (Main.runOps pre item).1 op).2 = Outcome.ok ()) →
            Main.Filter t items
              = (items.map (fun item => (Main.runOps t.Operations item).1),
                Outcome.ok (items.map (fun item => (Main.runOps t.Operations item).1))))
        ∧ (∀ dpre item dpost pre op post e,
            items = dpre ++ item :: dpost → t.Operations = pre ++ op :: post →
            (∀ d ∈ dpre, (Main.runOps t.Operations d).2 = Outcome.ok ()) →
            (Main.runOps pre item).2 = Outcome.ok () →
            (Main.step (Main.runOps pre item).1 op).2 = Outcome.error e →
            Main.Filter t items
              = (dpre.map (fun d => (Main.runOps t.Operations d).1)
                  ++ (Main.step (Main.runOps pre item).1 op).1 :: dpost,
                Outcome.error e)))
      ∧ (((∃ out, (Cmd.filterLoop lib ops items).2 = Outcome.ok out) ↔
          ∀ item ∈ items, ∀ pre op post, ops = pre ++ op :: post →
            (Cmd.step lib (Cmd.runOps lib pre item).1 op).2 = Outcome.ok ())
        ∧ ((∀ item ∈ items, ∀ pre op post, ops = pre ++ op :: post →
              (Cmd.step lib (Cmd.runOps lib pre item).1 op).2 = Outcome.ok ()) →
            Cmd.filterLoop lib ops items
              = (items.map (fun item => (Cmd.runOps lib ops item).1),
                Outcome.ok (items.map (fun item => (Cmd.runOps lib ops item).1))))
        ∧ (∀ dpre item dpost pre op post e,
            items = dpre ++ item :: dpost → ops = pre ++ op :: post →
            (∀ d ∈ dpre, (Cmd.runOps lib ops d).2 = Outcome.ok ()) →
            (Cmd.runOps lib pre item).2 = Outcome.ok () →
            (Cmd.step lib (Cmd.runOps lib pre item).1 op).2 = Outcome.error e →
            Cmd.filterLoop lib ops items
              = (dpre.map (fun d => (Cmd.runOps lib ops d).1)
                  ++ (Cmd.step lib (Cmd.runOps lib pre item).1 op).1 :: dpost,
                Outcome.error e)))
      ∧ (∀ (config : Cmd.UpsertTransformer) (env : Cmd.EnvConfig),
          Cmd.resolveOperations config env = Outcome.ok ops →
          Cmd.Filter lib config env items = Cmd.filterLoop lib ops items)
      ∧ (∀ e, (Main.Filter t items).2 = Outcome.error e ↔
          FirstFailure Main.matchesTarget Main.applyUpsert t.Operations items
            (Outcome.error e))
      ∧ (∀ e, (Cmd.filterLoop lib ops items).2 = Outcome.error e ↔
          FirstFailure (Cmd.matchesTarget lib) Cmd.applyUpsert ops items (Outcome.error e))
      ∧ ((Main.Filter t items).2 = Outcome.panic ↔
          FirstFailure Main.matchesTarget Main.applyUpsert t.Operations items Outcome.panic)
      ∧ ((Cmd.filterLoop lib ops items).2 = Outcome.panic ↔
          FirstFailure (Cmd.matchesTarget lib) Cmd.applyUpsert ops items Outcome.panic)
      ∧ Cmd.filterLoop goRegexp
          [{ Target := {}, Path := "]a[0".toList, Values := ["x".toList],
             AllowDuplicates := false }]
          [Node.map []]
        = ([Node.map []], Outcome.panic) := by
  have hm := filterItems_spec Main.matchesTarget Main.applyUpsert t.Operations items
  have hc := filterItems_spec (Cmd.matchesTarget lib) Cmd.applyUpsert ops items
  refine ⟨⟨hm.1, ?_, ?_⟩, ⟨hc.1, ?_, ?_⟩, ?_, ?_, ?_, ?_, ?_, by decide⟩
  rotate_left 5
  · intro e
    rw [Main.Filter]
    simp only
    rw [filterReturn_error_iff]
    exact filterItems_failure_iff _ _ _ _ _ (by simp)
  · intro e
    rw [Cmd.filterLoop]
    simp only
    rw [filterReturn_error_iff]
    exact filterItems_failure_iff _ _ _ _ _ (by simp)
  · rw [Main.Filter]
    simp only
    rw [filterReturn_panic_iff]
    exact filterItems_failure_iff _ _ _ _ _ (by simp)
  · rw [Cmd.filterLoop]
    simp only
    rw [filterReturn_panic_iff]
    exact filterItems_failure_iff _ _ _ _ _ (by simp)
  · intro h
    obtain ⟨h1, h2⟩ := hm.2.1 h
    rw [Main.Filter, h2, h1]
    rfl
  · intro dpre item dpost pre op post e h1 h2 h3 h4 h5
    obtain ⟨k1, k2⟩ := hm.2.2 dpre item dpost pre op post e h1 h2 h3 h4 h5
    rw [Main.Filter, k2, k1]
    rfl
  · intro h
    obtain ⟨h1, h2⟩ := hc.2.1 h
    rw [Cmd.filterLoop, h2, h1]
    rfl
  · intro dpre item dpost pre op post e h1 h2 h3 h4 h5
    obtain ⟨k1, k2⟩ := hc.2.2 dpre item dpost pre op post e h1 h2 h3 h4 h5
    rw [Cmd.filterLoop, k2, k1]
    rfl
  · intro config env h
    simp [Cmd.Filter, h]

/-- On the documents `{}`, `{spec: "notAMap"}`, `{spec: {args: [{a: b}]}}` with two
operations on `spec.args`, the pass of `src/main.go` processes the first document, fails at
the first operation of the second, runs no later operation and leaves the third document
untouched. -/
theorem filter_first_error_witness :
    Main.Filter ⟨[argsOp _ {} ["q"] false, argsOp _ {} ["r"] false]⟩
        [Node.map [], scalarSpecDoc, mappingArgsDoc]
      = ([argsDoc ["q", "r"], scalarSpecDoc, mappingArgsDoc],
          Outcome.error Err.wrongNodeKind) :=
  ((filter_first_error ⟨[argsOp _ {} ["q"] false, argsOp _ {} ["r"] false]⟩ goRegexp []
      [Node.map [], scalarSpecDoc, mappingArgsDoc]).1.2.2
    [Node.map []] scalarSpecDoc [mappingArgsDoc] [] (argsOp _ {} ["q"] false)
    [argsOp _ {} ["r"] false] Err.wrongNodeKind rfl rfl (by decide) (by decide)
    (by decide)).trans (by decide)

/-- C20: in both programs, when the pass succeeds the returned list has the length of the
input and holds, at each position, the document of that position as its operations left it;
a document that none of the operations matches is returned unchanged. -/
theorem filter_keeps_documents (t : Main.UpsertTransformer) (lib : RegexpLib)
    (ops : List (UpsertOperation Cmd.ResourceSelector)) (items out : List Node) :
    ((Main.Filter t items).2 = Outcome.ok out →
        out.length = items.length
          ∧ out = items.map (fun item => (Main.runOps t.Operations item).1)
          ∧ ∀ (i : Nat) (item : Node), items[i]? = some item →
              (∀ op ∈ t.Operations, Main.matchesTarget item op.Target = Outcome.ok false) →
              out[i]? = some item)
      ∧ ((Cmd.filterLoop lib ops items).2 = Outcome.ok out →
        out.length = items.length
          ∧ out = items.map (fun item => (Cmd.runOps lib ops item).1)
          ∧ ∀ (i : Nat) (item : Node), items[i]? = some item →
              (∀ op ∈ ops, Cmd.matchesTarget lib item op.Target = Outcome.ok false) →
              out[i]? = some item) := by
  constructor
  · intro h
    have hok : (filterItems Main.matchesTarget Main.applyUpsert t.Operations items).2
        = Outcome.ok () := (filterReturn_ok_iff _).1 ⟨out, h⟩
    have hrun := filterItems_ok _ _ _ _ ((filterItems_ok_iff _ _ _ _).1 hok)
    have hout : out = items.map (fun item => (Main.runOps t.Operations item).1) := by
      have h2 : (Main.Filter t items).2
          = Outcome.ok (items.map (fun item => (Main.runOps t.Operations item).1)) := by
        rw [Main.Filter, hrun]
        rfl
      rw [h2] at h
      injection h with h3
      exact h3.symm
    refine ⟨by rw [hout, List.length_map], hout, ?_⟩
    intro i item hi hno
    rw [hout, List.getElem?_map, hi]
    have : Main.runOps t.Operations item = (item, Outcome.ok ()) :=
      applyOperations_no_match _ _ _ item hno
    simp [this]
  · intro h
    have hok : (filterItems (Cmd.matchesTarget lib) Cmd.applyUpsert ops items).2
        = Outcome.ok () := (filterReturn_ok_iff _).1 ⟨out, h⟩
    have hrun := filterItems_ok _ _ _ _ ((filterItems_ok_iff _ _ _ _).1 hok)
    have hout : out = items.map (fun item => (Cmd.runOps lib ops item).1) := by
      have h2 : (Cmd.filterLoop lib ops items).2
          = Outcome.ok (items.map (fun item => (Cmd.runOps lib ops item).1)) := by
        rw [Cmd.filterLoop, hrun]
        rfl
      rw [h2] at h
      injection h with h3
      exact h3.symm
    refine ⟨by rw [hout, List.length_map], hout, ?_⟩
    intro i item hi hno
    rw [hout, List.getElem?_map, hi]
    have : Cmd.runOps lib ops item = (item, Outcome.ok ()) :=
      applyOperations_no_match _ _ _ item hno
    simp [this]

/-- Two documents with kinds `Service` and `Deployment` and an operation for deployments:
the service is matched by no operation and is returned unchanged, at its position. -/
theorem filter_keeps_documents_witness :
    (Main.Filter ⟨[argsOp _ { Kind := "Deployment".toList } ["a"] false]⟩
        [kindDoc "Service", kindDoc "Deployment"]).2
      = Outcome.ok [kindDoc "Service",
          Node.map [("apiVersion".toList, Node.scalar "v1".toList),
            ("kind".toList, Node.scalar "Deployment".toList),
            ("spec".toList, Node.map [("args".toList, Node.seq [Node.scalar "a".toList])])]]
    ∧ [kindDoc "Service",
          Node.map [("apiVersion".toList, Node.scalar "v1".toList),
            ("kind".toList, Node.scalar "Deployment".toList),
            ("spec".toList, Node.map [("args".toList, Node.seq [Node.scalar "a".toList])])]][0]?
        = some (kindDoc "Service") :=
  ⟨by decide,
    ((filter_keeps_documents
      ⟨[argsOp _ { Kind := "Deployment".toList } ["a"] false]⟩ goRegexp []
      [kindDoc "Service", kindDoc "Deployment"] _).1 (by decide)).2.2 0 (kindDoc "Service")
      (by decide) (by decide)⟩

/-! ## Operations in configured order -/

theorem applyOperations_pair {Sel : Type} (M : Node → Sel → Outcome Bool)
    (A : Node → UpsertOperation Sel → Node × Res) (op1 op2 : UpsertOperation Sel)
    (item : Node) :
    applyOperations M A [op1, op2] item
      = if (applyOperation M A item op1).2 = Outcome.ok () then
          applyOperation M A (applyOperation M A item op1).1 op2
        else applyOperation M A item op1 := by
  have h := applyOperations_append M A [op1] [op2] item
  simpa [applyOperations_single_step] using h

theorem filterItems_single {Sel : Type} (M : Node → Sel → Outcome Bool)
    (A : Node → UpsertOperation Sel → Node × Res) (ops : List (UpsertOperation Sel))
    (item : Node) :
    filterItems M A ops [item]
      = ([(applyOperations M A ops item).1], (applyOperations M A ops item).2) := by
  simp only [filterItems]
  rcases hrun : applyOperations M A ops item with ⟨item1, r⟩
  cases r with
  | ok u => cases u; rfl
  | error e => rfl
  | panic => rfl
  | unmodelled => rfl

/-- `applyUpsert` of `src/cmd` reads the path, the values and the duplicate flag of the
operation, not its target. -/
theorem cmd_applyUpsert_congr (item : Node) (op1 op2 : UpsertOperation Cmd.ResourceSelector)
    (hp : op2.Path = op1.Path) (hv : op2.Values = op1.Values)
    (ha : op2.AllowDuplicates = op1.AllowDuplicates) :
    Cmd.applyUpsert item op2 = Cmd.applyUpsert item op1 := by
  unfold Cmd.applyUpsert
  rw [hp, hv, ha]

/-- `applyUpsert` of `src/main.go` reads the path, the values and the duplicate flag of the
operation, not its target. -/
theorem main_applyUpsert_congr (item : Node) (op1 op2 : UpsertOperation Main.ResourceSelector)
    (hp : op2.Path = op1.Path) (hv : op2.Values = op1.Values)
    (ha : op2.AllowDuplicates = op1.AllowDuplicates) :
    Main.applyUpsert item op2 = Main.applyUpsert item op1 := by
  unfold Main.applyUpsert
  rw [hp, hv, ha]

theorem cmd_applyUpsert_again (item : Node) (op : UpsertOperation Cmd.ResourceSelector)
    (ha : op.AllowDuplicates = false) (h : (Cmd.applyUpsert item op).2 = Outcome.ok ()) :
    Cmd.applyUpsert (Cmd.applyUpsert item op).1 op
      = ((Cmd.applyUpsert item op).1, Outcome.ok ()) := by
  unfold Cmd.applyUpsert at h ⊢
  cases hparse : Cmd.parseJSONPath op.Path with
  | none => simp [hparse] at h
  | some parts =>
    simp only [hparse, ha] at h ⊢
    exact onNode_stable _ (pipeLookupCreate_proper _ _ _ (upsertArray_proper _ _).2.2)
      (pipeLookupCreate_stable _ _ _ (upsertArray_proper _ _) (upsertArray_stable _)) item h

theorem main_applyUpsert_again (item : Node) (op : UpsertOperation Main.ResourceSelector)
    (ha : op.AllowDuplicates = false) (h : (Main.applyUpsert item op).2 = Outcome.ok ()) :
    Main.applyUpsert (Main.applyUpsert item op).1 op
      = ((Main.applyUpsert item op).1, Outcome.ok ()) := by
  unfold Main.applyUpsert at h ⊢
  simp only [ha] at h ⊢
  exact onNode_stable _
    (navigate_proper _ (pipeLookupCreate_proper _ _ _ (upsertArray_proper _ _).2.2) _)
    (navigate_stable _ (pipeLookupCreate_proper _ _ _ (upsertArray_proper _ _).2.2)
      (pipeLookupCreate_stable _ _ _ (upsertArray_proper _ _) (upsertArray_stable _)) _)
    item h

theorem getElem?_set_at (l : List Node) (i : Nat) (e x : Node) (h : l[i]? = some e) :
    (l.set i x)[i]? = some x := by
  induction l generalizing i with
  | nil => simp at h
  | cons a l ih =>
    cases i with
    | zero => simp
    | succ i =>
      simp only [List.getElem?_cons_succ] at h
      simpa using ih i h

/-- A second replacement at the same path overwrites the first. -/
theorem replaceNode_replaceNode (a b : Node) (p : List Str) (n t : Node)
    (h : lookupNode p n = some t) :
    replaceNode b p (replaceNode a p n) = replaceNode b p n := by
  induction p generalizing n with
  | nil => simp [replaceNode]
  | cons part rest ih =>
    rw [lookupNode] at h
    cases hg : getFilter Kind.SequenceNode part [] with
    | error e => simp [hg] at h
    | ok flt =>
      cases flt with
      | elementMatcher => simp [hg] at h
      | elementIndexer index =>
        simp only [hg] at h
        cases n with
        | scalar x => simp at h
        | map fs => simp at h
        | null w c => simp at h
        | seq elems =>
          simp only at h
          by_cases hi : index = -1
          · simp only [hi, if_true] at h
            cases he : elems[elems.length - 1]? with
            | none => simp [he] at h
            | some e =>
              simp only [he, Option.some_bind] at h
              have hx : ∀ x, replaceNode x (part :: rest) (Node.seq elems)
                  = Node.seq (elems.set (elems.length - 1) (replaceNode x rest e)) := by
                intro x
                simp [replaceNode, hg, hi, he]
              rw [hx a, hx b]
              simp [replaceNode, hg, hi, getElem?_set_at elems _ e _ he, ih e h]
          · simp only [hi, if_false] at h
            cases he : elems[index.toNat]? with
            | none => simp [he] at h
            | some e =>
              simp only [he, Option.some_bind] at h
              have hx : ∀ x, replaceNode x (part :: rest) (Node.seq elems)
                  = Node.seq (elems.set index.toNat (replaceNode x rest e)) := by
                intro x
                simp [replaceNode, hg, hi, he]
              rw [hx a, hx b]
              simp [replaceNode, hg, hi, getElem?_set_at elems _ e _ he, ih e h]
      | fieldMatcher name kind =>
        simp only [hg] at h
        cases n with
        | scalar x => simp at h
        | null w c => simp at h
        | seq es => simp at h
        | map fields =>
          simp only at h
          cases hv : fieldValue name fields with
          | none => simp [hv] at h
          | some v =>
            simp only [hv, Option.some_bind] at h
            have hx : ∀ x, replaceNode x (part :: rest) (Node.map fields)
                = Node.map (setFieldValue name (replaceNode x rest v) fields) := by
              intro x
              simp [replaceNode, hg, hv]
            rw [hx a, hx b]
            simp [replaceNode, hg, fieldValue_setFieldValue name _ v fields hv,
              setFieldValue_setFieldValue, ih v h]

theorem scalars_dedup (E V : List Str) (c : List Node) (hc : c = E.map Node.scalar) :
    c ++ (V.filter (fun v => false || !contains (c.map Node.value) v)).map newScalarRNode
      = (E ++ V.filter (fun v => decide (v ∉ E))).map Node.scalar := by
  subst hc
  rw [map_value_scalar, filter_not_contains]
  simp [newScalarRNode, List.map_append]

theorem cmd_applyUpsert_scalars (E : List Str) (item : Node)
    (op : UpsertOperation Cmd.ResourceSelector) (parts : List Str)
    (hp : Cmd.parseJSONPath op.Path = some parts) (ha : op.AllowDuplicates = false)
    (ht : lookupNode (cleanPath parts) item = some (Node.seq (E.map Node.scalar))) :
    Cmd.applyUpsert item op
      = (replaceNode
          (Node.seq ((E ++ op.Values.filter (fun v => decide (v ∉ E))).map Node.scalar))
          (cleanPath parts) item,
        Outcome.ok ()) := by
  rw [cmd_applyUpsert_of_lookupNode item _ _ parts hp ht (Or.inl rfl), ha]
  simp only [upsertArray_onNode_seq]
  rw [scalars_dedup _ _ _ rfl]

theorem main_applyUpsert_scalars (E : List Str) (item : Node)
    (op : UpsertOperation Main.ResourceSelector) (ha : op.AllowDuplicates = false)
    (ht : lookupNode (cleanPath (stringsSplit '.' op.Path)) item
      = some (Node.seq (E.map Node.scalar))) :
    Main.applyUpsert item op
      = (replaceNode
          (Node.seq ((E ++ op.Values.filter (fun v => decide (v ∉ E))).map Node.scalar))
          (cleanPath (stringsSplit '.' op.Path)) item,
        Outcome.ok ()) := by
  rw [main_applyUpsert_of_lookupNode item (Node.seq _) _ ht (Or.inl rfl), ha]
  simp only [upsertArray_onNode_seq]
  rw [scalars_dedup _ _ _ rfl]

section Pair

variable {Sel : Type} (M : Node → Sel → Outcome Bool)
  (A : Node → UpsertOperation Sel → Node × Res)

/-- Two operations on one document: when the first matches and succeeds and the second
matches the document as the first left it, the pass ends as the second `applyUpsert` on that
document ends. -/
theorem filterItems_pair (op1 op2 : UpsertOperation Sel) (item item1 : Node)
    (hm1 : M item op1.Target = Outcome.ok true) (h1 : A item op1 = (item1, Outcome.ok ()))
    (hm2 : M item1 op2.Target = Outcome.ok true) :
    filterItems M A [op1, op2] [item] = ([(A item1 op2).1], (A item1 op2).2) := by
  have hs1 : applyOperation M A item op1 = (item1, Outcome.ok ()) := by
    simp [applyOperation, hm1, h1]
  have hs2 : applyOperation M A item1 op2 = A item1 op2 := by
    simp [applyOperation, hm2]
  rw [filterItems_single, applyOperations_pair, hs1]
  simp [hs2]

/-- Two operations on one document, the second doing what the first does: when repeating the
first on the document it left changes nothing, the pass ends as with the first alone. -/
theorem filterItems_pair_same (op1 op2 : UpsertOperation Sel) (item : Node)
    (hm1 : M item op1.Target = Outcome.ok true)
    (htot : ∃ b, M (A item op1).1 op2.Target = Outcome.ok b)
    (hsame : A (A item op1).1 op2 = A (A item op1).1 op1)
    (hagain : (A item op1).2 = Outcome.ok () →
      A (A item op1).1 op1 = ((A item op1).1, Outcome.ok ())) :
    filterItems M A [op1, op2] [item] = filterItems M A [op1] [item] := by
  have hs1 : applyOperation M A item op1 = A item op1 := by
    simp [applyOperation, hm1]
  rw [filterItems_single, filterItems_single, applyOperations_pair, applyOperations_single_step,
    hs1]
  by_cases hok : (A item op1).2 = Outcome.ok ()
  · rw [if_pos hok]
    obtain ⟨b, hb⟩ := htot
    have hs2 : applyOperation M A (A item op1).1 op2 = ((A item op1).1, Outcome.ok ()) := by
      cases b with
      | false => simp [applyOperation, hb]
      | true => simp [applyOperation, hb, hsame, hagain hok]
    rw [hs2, hok]
  · rw [if_neg hok]

end Pair

/-- C14, as stated, fails in the program of `src/cmd`: the document `{metadata: []}` has the
empty name, so it is matched by an operation without selector that appends `name` and `foo`
to `metadata`, and by an operation for the names `a*` on `spec.args`. The first operation
succeeds and leaves `{metadata: [name, foo]}`, which the accessors read as the name `foo`;
the second operation no longer matches and `Filter` returns that document, not the result of
applying the second operation to it. -/
theorem second_operation_skipped :
    Cmd.matchesTarget goRegexp (Node.map [("metadata".toList, Node.seq [])])
        ({} : Cmd.ResourceSelector) = Outcome.ok true
      ∧ Cmd.matchesTarget goRegexp (Node.map [("metadata".toList, Node.seq [])])
        { Name := "a*".toList } = Outcome.ok true
      ∧ Cmd.applyUpsert (Node.map [("metadata".toList, Node.seq [])])
          { Target := {}, Path := "metadata".toList,
            Values := ["name".toList, "foo".toList], AllowDuplicates := false }
        = (Node.map [("metadata".toList,
            Node.seq [Node.scalar "name".toList, Node.scalar "foo".toList])], Outcome.ok ())
      ∧ (Cmd.filterLoop goRegexp
          [{ Target := {}, Path := "metadata".toList,
             Values := ["name".toList, "foo".toList], AllowDuplicates := false },
           argsOp _ { Name := "a*".toList } ["x"] false]
          [Node.map [("metadata".toList, Node.seq [])]]).2
        = Outcome.ok [Node.map [("metadata".toList,
            Node.seq [Node.scalar "name".toList, Node.scalar "foo".toList])]]
      ∧ Cmd.applyUpsert
          (Node.map [("metadata".toList,
            Node.seq [Node.scalar "name".toList, Node.scalar "foo".toList])])
          (argsOp _ { Name := "a*".toList } ["x"] false)
        = (Node.map [("metadata".toList,
              Node.seq [Node.scalar "name".toList, Node.scalar "foo".toList]),
            ("spec".toList, Node.map [("args".toList, Node.seq [Node.scalar "x".toList])])],
          Outcome.ok ())
      ∧ Node.map [("metadata".toList,
            Node.seq [Node.scalar "name".toList, Node.scalar "foo".toList]),
          ("spec".toList, Node.map [("args".toList, Node.seq [Node.scalar "x".toList])])]
        ≠ Node.map [("metadata".toList,
            Node.seq [Node.scalar "name".toList, Node.scalar "foo".toList])] := by
  decide

/-- C14, amended: in both programs, when op1 matches the document and succeeds and op2
matches the document as op1 left it, `Filter` with the operations `[op1, op2]` ends as
`applyUpsert` of op2 on the document mutated by op1 ends. So when their common path leads to
a sequence of the scalars `E` and both have `allowDuplicates=false`, the returned document
has `E`, then the values of op1 not in `E`, then the values of op2 that are neither in `E`
nor among those op1 appended. In particular, when both match the document and have the same
path, the same values and `allowDuplicates=false`, and matching op2 on the document as op1
left it returns, the result is that of `[op1]` alone. The matching does not return when an
accessor panics: on `{metadata: []}` an operation without selector that appends `name` to
`metadata` leaves `{metadata: [name]}`, and `Filter` of `src/cmd` with that operation twice
panics where it succeeds with the operation once. -/
theorem filter_composes_operations (lib : RegexpLib) (item item1 : Node) (E : List Str)
    (parts : List Str) (m1 m2 : UpsertOperation Main.ResourceSelector)
    (c1 c2 : UpsertOperation Cmd.ResourceSelector) :
    (Main.matchesTarget item m1.Target = Outcome.ok true →
        Main.applyUpsert item m1 = (item1, Outcome.ok ()) →
        Main.matchesTarget item1 m2.Target = Outcome.ok true →
        Main.Filter ⟨[m1, m2]⟩ [item]
          = ([(Main.applyUpsert item1 m2).1],
              filterReturn ([(Main.applyUpsert item1 m2).1], (Main.applyUpsert item1 m2).2)))
      ∧ (Cmd.matchesTarget lib item c1.Target = Outcome.ok true →
        Cmd.applyUpsert item c1 = (item1, Outcome.ok ()) →
        Cmd.matchesTarget lib item1 c2.Target = Outcome.ok true →
        Cmd.filterLoop lib [c1, c2] [item]
          = ([(Cmd.applyUpsert item1 c2).1],
              filterReturn ([(Cmd.applyUpsert item1 c2).1], (Cmd.applyUpsert item1 c2).2)))
      ∧ (Main.matchesTarget item m1.Target = Outcome.ok true →
        m1.AllowDuplicates = false → m2.AllowDuplicates = false → m2.Path = m1.Path →
        lookupNode (cleanPath (stringsSplit '.' m1.Path)) item
          = some (Node.seq (E.map Node.scalar)) →
        Main.matchesTarget (Main.applyUpsert item m1).1 m2.Target = Outcome.ok true →
        (Main.Filter ⟨[m1, m2]⟩ [item]).2
          = Outcome.ok [replaceNode
              (Node.seq ((E ++ m1.Values.filter (fun v => decide (v ∉ E))
                ++ m2.Values.filter (fun v => decide
                    (v ∉ E ++ m1.Values.filter (fun w => decide (w ∉ E))))).map Node.scalar))
              (cleanPath (stringsSplit '.' m1.Path)) item])
      ∧ (Cmd.matchesTarget lib item c1.Target = Outcome.ok true →
        c1.AllowDuplicates = false → c2.AllowDuplicates = false → c2.Path = c1.Path →
        Cmd.parseJSONPath c1.Path = some parts →
        lookupNode (cleanPath parts) item = some (Node.seq (E.map Node.scalar)) →
        Cmd.matchesTarget lib (Cmd.applyUpsert item c1).1 c2.Target = Outcome.ok true →
        (Cmd.filterLoop lib [c1, c2] [item]).2
          = Outcome.ok [replaceNode
              (Node.seq ((E ++ c1.Values.filter (fun v => decide (v ∉ E))
                ++ c2.Values.filter (fun v => decide
                    (v ∉ E ++ c1.Values.filter (fun w => decide (w ∉ E))))).map Node.scalar))
              (cleanPath parts) item])
      ∧ (Main.matchesTarget item m1.Target = Outcome.ok true →
        Main.matchesTarget item m2.Target = Outcome.ok true →
        m2.Path = m1.Path → m2.Values = m1.Values →
        m1.AllowDuplicates = false → m2.AllowDuplicates = false →
        (∃ b, Main.matchesTarget (Main.applyUpsert item m1).1 m2.Target = Outcome.ok b) →
        Main.Filter ⟨[m1, m2]⟩ [item] = Main.Filter ⟨[m1]⟩ [item])
      ∧ (Cmd.matchesTarget lib item c1.Target = Outcome.ok true →
        Cmd.matchesTarget lib item c2.Target = Outcome.ok true →
        c2.Path = c1.Path → c2.Values = c1.Values →
        c1.AllowDuplicates = false → c2.AllowDuplicates = false →
        (∃ b, Cmd.matchesTarget lib (Cmd.applyUpsert item c1).1 c2.Target = Outcome.ok b) →
        Cmd.filterLoop lib [c1, c2] [item] = Cmd.filterLoop lib [c1] [item])
      ∧ Cmd.filterLoop goRegexp
          [{ Target := {}, Path := "metadata".toList, Values := ["name".toList],
             AllowDuplicates := false }]
          [Node.map [("metadata".toList, Node.seq [])]]
        = ([oddMetadataDoc], Outcome.ok [oddMetadataDoc])
      ∧ Cmd.filterLoop goRegexp
          [{ Target := {}, Path := "metadata".toList, Values := ["name".toList],
             AllowDuplicates := false },
           { Target := {}, Path := "metadata".toList, Values := ["name".toList],
             AllowDuplicates := false }]
          [Node.map [("metadata".toList, Node.seq [])]]
        = ([oddMetadataDoc], Outcome.panic) := by
  refine ⟨?_, ?_, ?_, ?_, ?_, ?_, by decide, by decide⟩
  · intro hm1 h1 hm2
    have h := filterItems_pair Main.matchesTarget Main.applyUpsert m1 m2 item item1
      hm1 h1 hm2
    simp only [Main.Filter, h]
  · intro hm1 h1 hm2
    have h := filterItems_pair (Cmd.matchesTarget lib) Cmd.applyUpsert c1 c2 item item1
      hm1 h1 hm2
    simp only [Cmd.filterLoop, h]
  · intro hm1 ha1 ha2 hpath ht hm2
    have h1 := main_applyUpsert_scalars E item m1 ha1 ht
    rw [h1] at hm2
    have h := filterItems_pair Main.matchesTarget Main.applyUpsert m1 m2 item _
      hm1 h1 hm2
    have h2 := main_applyUpsert_scalars (E ++ m1.Values.filter (fun v => decide (v ∉ E)))
      (replaceNode
        (Node.seq ((E ++ m1.Values.filter (fun v => decide (v ∉ E))).map Node.scalar))
        (cleanPath (stringsSplit '.' m1.Path)) item) m2 ha2
      (by rw [hpath]; exact lookupNode_replaceNode _ _ _ _ ht)
    rw [hpath, replaceNode_replaceNode _ _ _ _ _ ht] at h2
    simp only [Main.Filter, h, h2, filterReturn]
  · intro hm1 ha1 ha2 hpath hp ht hm2
    have h1 := cmd_applyUpsert_scalars E item c1 parts hp ha1 ht
    rw [h1] at hm2
    have h := filterItems_pair (Cmd.matchesTarget lib) Cmd.applyUpsert c1 c2 item _
      hm1 h1 hm2
    have h2 := cmd_applyUpsert_scalars (E ++ c1.Values.filter (fun v => decide (v ∉ E)))
      (replaceNode
        (Node.seq ((E ++ c1.Values.filter (fun v => decide (v ∉ E))).map Node.scalar))
        (cleanPath parts) item) c2 parts (by rw [hpath]; exact hp) ha2
      (lookupNode_replaceNode _ _ _ _ ht)
    rw [replaceNode_replaceNode _ _ _ _ _ ht] at h2
    simp only [Cmd.filterLoop, h, h2, filterReturn]
  · intro hm1 _ hpath hvalues ha1 ha2 htot
    have h := filterItems_pair_same Main.matchesTarget Main.applyUpsert m1 m2 item
      hm1 htot
      (main_applyUpsert_congr _ m1 m2 hpath hvalues (by rw [ha1, ha2]))
      (main_applyUpsert_again item m1 ha1)
    simp only [Main.Filter, h]
  · intro hm1 _ hpath hvalues ha1 ha2 htot
    have h := filterItems_pair_same (Cmd.matchesTarget lib) Cmd.applyUpsert c1 c2 item
      hm1 htot
      (cmd_applyUpsert_congr _ c1 c2 hpath hvalues (by rw [ha1, ha2]))
      (cmd_applyUpsert_again item c1 ha1)
    simp only [Cmd.filterLoop, h]

/-- Two operations on `spec.args` of `{spec: {args: [a, b]}}`, the first with the values
`[b, c]` and the second with `[c, d]`: the second finds `c` in its snapshot and the pass
returns `[a, b, c, d]`. -/
theorem filter_composes_operations_witness :
    (Main.Filter ⟨[argsOp _ {} ["b", "c"] false, argsOp _ {} ["c", "d"] false]⟩
        [argsDoc ["a", "b"]]).2
      = Outcome.ok [argsDoc ["a", "b", "c", "d"]] :=
  ((filter_composes_operations goRegexp (argsDoc ["a", "b"]) (argsDoc ["a", "b", "c"])
      ["a".toList, "b".toList] ["spec".toList, "args".toList]
      (argsOp _ {} ["b", "c"] false) (argsOp _ {} ["c", "d"] false)
      (argsOp _ {} ["b", "c"] false) (argsOp _ {} ["c", "d"] false)).2.2.1
    (by decide) rfl rfl rfl (by decide) (by decide)).trans (by decide)

end KustomizeUpsert
